import Mathlib

/-!
# WinUtil: event subscription system and widget ownership tree

A shallow embedding of `eventhandler.hpp` (`EventOwner`, `EventHandler<FuncArgs>`) and of
the ownership part of `Widget` in `winutil.cpp`.

Modelling decisions:

* `std::map<K, T>` is a key-ordered association list (`StdMap`).  The operations are defined
  on arbitrary lists; the ordering invariant of `std::map` is the predicate `StdMap.Sorted`.
* Objects live in heaps indexed by addresses (`Nat`); a destroyed object is `none`, and any
  use of a destroyed object is the fault `undefinedBehaviour`.
* `std::function` values are closures.  The lambda created in `AddEvent` is the constructor
  `Hook.removeEvent`; every other closure is an index into a table of state transformers
  (`Closures`), so that callbacks may re-enter the API.
* A range-based `for` over a `std::map` member walks the *live* map (`rangeFor`): after the
  body the iterator is advanced in the map as it is then.  Erasing the node under the
  iterator invalidates it (`undefinedBehaviour`).  Because the map may grow while it is
  walked the loop need not terminate, hence the fuel argument.
* `int64_t` counters are unbounded integers: signed overflow is undefined in the source and
  needs 2^63 calls to reach.
* What a theorem assumes of callbacks and hooks is stated on the calls that the loop makes
  (`rangeForCalls`): the entry under the iterator and the state in which the body is called.
-/

namespace WinUtil

/-! ## `std::map` -/

/-- A `std::map<int64_t, β>`: entries in iteration order. -/
abbrev StdMap (β : Type) := List (Int × β)

namespace StdMap

variable {β : Type}

/-- Lookup of a key (`find`, `count`, `at`). -/
def find : StdMap β → Int → Option β
  | [], _ => none
  | (k', v) :: t, k => if k' = k then some v else find t k

/-- Assignment `m[k] = v`: replaces the value of an existing key, otherwise
inserts the entry at its place in key order. -/
def assign : StdMap β → Int → β → StdMap β
  | [], k, v => [(k, v)]
  | (k', v') :: t, k, v =>
    if k < k' then (k, v) :: (k', v') :: t
    else if k = k' then (k, v) :: t
    else (k', v') :: assign t k v

/-- Removal `m.erase(k)`; nothing happens when the key is absent. -/
def erase (m : StdMap β) (k : Int) : StdMap β :=
  m.filter (fun e => decide (e.1 ≠ k))

/-- Entry reached by `++it` from the node with key `k`: the first entry with a greater key. -/
def next (m : StdMap β) (k : Int) : Option (Int × β) :=
  m.find? (fun e => decide (k < e.1))

/-- Entry at `m.begin()`. -/
def first (m : StdMap β) : Option (Int × β) :=
  m.head?

/-- Ordering invariant of `std::map`: keys strictly increase along the iteration order. -/
def Sorted (m : StdMap β) : Prop :=
  m.Pairwise (fun a b => a.1 < b.1)

end StdMap

/-! ## `eventhandler.hpp` -/

/-- A `std::function<void()>` stored in `EventOwner::destroyHooks_`. -/
inductive Hook where
  /-- The lambda `[this, res]() { RemoveEvent(res); }` built by `EventHandler::AddEvent`;
  `self` is the address of the handler (`this`). -/
  | removeEvent (self : Nat) (res : Int)
  /-- Any other closure, named by its index in `Closures.hook`. -/
  | closure (n : Nat)
  deriving DecidableEq

/-- Data members of `class EventOwner`. -/
structure EventOwner where
  destroyHooks_ : StdMap Hook
  lastEvent_ : Int
  destroying_ : Bool
  deriving DecidableEq

/-- The `struct Event` of `EventHandler`; `owner` is a nullable `EventOwner *`, `func` the
index of the callback in `Closures.func`.  `hook` is left uninitialised by `AddEvent` when
`owner` is null and is never read in that case; the model stores `0` there. -/
structure Event where
  owner : Option Nat
  func : Nat
  hook : Int
  deriving DecidableEq

/-- Data members of `class EventHandler<FuncArgs>`. -/
structure EventHandler where
  events_ : StdMap Event
  lastEvent_ : Int
  deriving DecidableEq

/-- The objects of the program: live owners and live handlers by address. -/
structure World where
  owners : Nat → Option EventOwner
  handlers : Nat → Option EventHandler

/-- Abnormal outcomes of a call. -/
inductive Fault where
  /-- The exception `std::out_of_range` thrown by `std::map::at`, with the state in which it was thrown. -/
  | outOfRange (w : World)
  /-- Use of a destroyed object or of an invalidated iterator. -/
  | undefinedBehaviour
  /-- An exception left a destructor (`std::terminate`). -/
  | terminate
  /-- The model ran out of fuel. -/
  | fuel

/-- The closures other than the `AddEvent` lambda: destroy hooks and event callbacks
(`Args` is the argument pack of `FuncArgs`). -/
structure Closures (Args : Type) where
  hook : Nat → World → Except Fault World
  func : Nat → Args → World → Except Fault World

/-- Member function `EventOwner::AddDestroyHook` on the object's fields: new fields and the returned id. -/
def EventOwner.AddDestroyHook (o : EventOwner) (hook : Hook) : EventOwner × Int :=
  ({ o with destroyHooks_ := o.destroyHooks_.assign o.lastEvent_ hook,
            lastEvent_ := o.lastEvent_ + 1 }, o.lastEvent_)

/-- Member function `EventOwner::RemoveDestroyHook` on the object's fields. -/
def EventOwner.RemoveDestroyHook (o : EventOwner) (id : Int) : EventOwner :=
  { o with destroyHooks_ := o.destroyHooks_.erase id }

/-- Call `owner->AddDestroyHook(hook)` through the pointer `owner`. -/
def AddDestroyHook (w : World) (owner : Nat) (hook : Hook) : Except Fault (World × Int) :=
  match w.owners owner with
  | none => .error .undefinedBehaviour
  | some o =>
    .ok ({ w with owners := Function.update w.owners owner (some (o.AddDestroyHook hook).1) },
         (o.AddDestroyHook hook).2)

/-- Call `owner->RemoveDestroyHook(id)` through the pointer `owner`. -/
def RemoveDestroyHook (w : World) (owner : Nat) (id : Int) : Except Fault World :=
  match w.owners owner with
  | none => .error .undefinedBehaviour
  | some o =>
    .ok { w with owners := Function.update w.owners owner (some (o.RemoveDestroyHook id)) }

/-- Member function `EventHandler::AddEvent(func, owner)` of the handler at address `self`. -/
def AddEvent (w : World) (self : Nat) (func : Nat) (owner : Option Nat) :
    Except Fault (World × Int) :=
  match w.handlers self with
  | none => .error .undefinedBehaviour
  | some h =>
    let id := h.lastEvent_ + 1
    match owner with
    | none =>
      .ok ({ w with handlers := (Function.update w.handlers self
              (some { events_ := h.events_.assign id ⟨none, func, 0⟩, lastEvent_ := id })) }, id)
    | some o =>
      match AddDestroyHook w o (.removeEvent self id) with
      | .error e => .error e
      | .ok (w1, hook) =>
        .ok ({ w1 with handlers := (Function.update w1.handlers self
                (some { events_ := h.events_.assign id ⟨some o, func, hook⟩, lastEvent_ := id })) }, id)

/-- Member function `EventHandler::RemoveEvent(id)` of the handler at address `self`. -/
def RemoveEvent (w : World) (self : Nat) (id : Int) : Except Fault World :=
  match w.handlers self with
  | none => .error .undefinedBehaviour
  | some h =>
    match h.events_.find id with
    | none => .error (.outOfRange w)
    | some event =>
      let erased (w1 : World) : World :=
        { w1 with handlers := (Function.update w1.handlers self
            (some { h with events_ := h.events_.erase id })) }
      match event.owner with
      | none => .ok (erased w)
      | some o =>
        match w.owners o with
        | none => .error .undefinedBehaviour
        | some ow =>
          if ow.destroying_ then .ok (erased w)
          else
            match RemoveDestroyHook w o event.hook with
            | .error e => .error e
            | .ok w1 => .ok (erased w1)

/-- Invocation `iter.second()` of a stored destroy hook. -/
def callHook {Args : Type} (cl : Closures Args) (hook : Hook) (w : World) : Except Fault World :=
  match hook with
  | .removeEvent self res => RemoveEvent w self res
  | .closure n => cl.hook n w

/-- The loop `for (const auto &iter : m) body(iter)` over a map member read by `tbl`
(`none` once the object holding it is destroyed), with the iterator at key `k`.
Returns the final state and the entries visited, in order. -/
def rangeFor {β : Type} (tbl : World → Option (StdMap β))
    (body : Int → β → World → Except Fault World) :
    Nat → Int → World → Except Fault (World × List (Int × β))
  | 0, _, _ => .error .fuel
  | fuel + 1, k, w =>
    match (tbl w).bind (fun m => m.find k) with
    | none => .error .undefinedBehaviour
    | some v =>
      match body k v w with
      | .error e => .error e
      | .ok w1 =>
        match tbl w1 with
        | none => .error .undefinedBehaviour
        | some m1 =>
          match m1.find k with
          | none => .error .undefinedBehaviour
          | some _ =>
            match m1.next k with
            | none => .ok (w1, [(k, v)])
            | some (k', _) =>
              match rangeFor tbl body fuel k' w1 with
              | .error e => .error e
              | .ok (w2, log) => .ok (w2, (k, v) :: log)

/-- The whole loop, from `m.begin()`. -/
def rangeForAll {β : Type} (tbl : World → Option (StdMap β))
    (body : Int → β → World → Except Fault World) (fuel : Nat) (w : World) :
    Except Fault (World × List (Int × β)) :=
  match tbl w with
  | none => .error .undefinedBehaviour
  | some m =>
    match m.first with
    | none => .ok (w, [])
    | some (k, _) => rangeFor tbl body fuel k w

/-- The map `destroyHooks_` of the owner at address `o`. -/
def hooksOf (o : Nat) (w : World) : Option (StdMap Hook) :=
  (w.owners o).map (fun ow => ow.destroyHooks_)

/-- The map `events_` of the handler at address `c`. -/
def eventsOf (c : Nat) (w : World) : Option (StdMap Event) :=
  (w.handlers c).map (fun h => h.events_)

/-- First statement of `~EventOwner`, `destroying_ = true`, for the owner `o` at `self`. -/
def markDestroying (w : World) (self : Nat) (o : EventOwner) : World :=
  { w with owners := Function.update w.owners self (some { o with destroying_ := true }) }

/-- Destructor `EventOwner::~EventOwner` of the owner at address `self`, followed by the
destruction of its members.  Returns the hooks invoked, in order. -/
def DestroyEventOwner {Args : Type} (cl : Closures Args) (fuel : Nat) (w : World) (self : Nat) :
    Except Fault (World × List (Int × Hook)) :=
  match w.owners self with
  | none => .error .undefinedBehaviour
  | some o =>
    match rangeForAll (hooksOf self) (fun _ hook w1 => callHook cl hook w1) fuel
        (markDestroying w self o) with
    | .error (.outOfRange _) => .error .terminate
    | .error e => .error e
    | .ok (w1, log) => .ok ({ w1 with owners := Function.update w1.owners self none }, log)

/-- Body of the loop of `EventHandler::~EventHandler` for one entry. -/
def dropHook (w : World) (event : Event) : Except Fault World :=
  match event.owner with
  | none => .ok w
  | some o => RemoveDestroyHook w o event.hook

/-- Loop of `EventHandler::~EventHandler` over the entries of `events_`; the body only
touches owners, so the map is the same list throughout. -/
def dropHooks : World → List (Int × Event) → Except Fault World
  | w, [] => .ok w
  | w, (_, event) :: rest =>
    match dropHook w event with
    | .error e => .error e
    | .ok w1 => dropHooks w1 rest

/-- Destructor `EventHandler::~EventHandler` of the handler at address `self`, followed by
the destruction of its members. -/
def DestroyEventHandler (w : World) (self : Nat) : Except Fault World :=
  match w.handlers self with
  | none => .error .undefinedBehaviour
  | some h =>
    match dropHooks w h.events_ with
    | .error e => .error e
    | .ok w1 => .ok { w1 with handlers := Function.update w1.handlers self none }

/-- Member function `EventHandler::Activate(args...)` of the handler at address `self`.
Returns the subscriptions whose callback was invoked, in order. -/
def Activate {Args : Type} (cl : Closures Args) (fuel : Nat) (w : World) (self : Nat)
    (args : Args) : Except Fault (World × List (Int × Event)) :=
  match w.handlers self with
  | none => .error .undefinedBehaviour
  | some _ => rangeForAll (eventsOf self) (fun _ event w1 => cl.func event.func args w1) fuel w

/-! ## The calls that a loop makes -/

/-- The calls of the body that the loop `rangeFor` makes from the iterator at key `k`: for
each call the key and the value of the entry under the iterator and the state in which the
body is called.  The last element is the call after which the loop stops, normally or not. -/
def rangeForCalls {β : Type} (tbl : World → Option (StdMap β))
    (body : Int → β → World → Except Fault World) :
    Nat → Int → World → List (Int × β × World)
  | 0, _, _ => []
  | fuel + 1, k, w =>
    match (tbl w).bind (fun m => m.find k) with
    | none => []
    | some v =>
      (k, v, w) ::
        match body k v w with
        | .error _ => []
        | .ok w1 =>
          match tbl w1 with
          | none => []
          | some m1 =>
            match m1.find k with
            | none => []
            | some _ =>
              match m1.next k with
              | none => []
              | some (k', _) => rangeForCalls tbl body fuel k' w1

/-- The calls of the body that the whole loop `rangeForAll` makes. -/
def rangeForAllCalls {β : Type} (tbl : World → Option (StdMap β))
    (body : Int → β → World → Except Fault World) (fuel : Nat) (w : World) :
    List (Int × β × World) :=
  match tbl w with
  | none => []
  | some m =>
    match m.first with
    | none => []
    | some (k, _) => rangeForCalls tbl body fuel k w

/-- The entries under the iterator in a list of calls. -/
def visited {β : Type} (calls : List (Int × β × World)) : List (Int × β) :=
  calls.map (fun c => (c.1, c.2.1))

/-- The invocations `iter.second()` that `~EventOwner` of the owner at address `self` makes:
the hook id, the hook, and the state in which the hook is invoked. -/
def DestroyEventOwnerCalls {Args : Type} (cl : Closures Args) (fuel : Nat) (w : World)
    (self : Nat) : List (Int × Hook × World) :=
  match w.owners self with
  | none => []
  | some o =>
    rangeForAllCalls (hooksOf self) (fun _ hook w1 => callHook cl hook w1) fuel
      (markDestroying w self o)

/-- The invocations `iter.second.func(args...)` that `Activate` of the handler at address
`self` makes: the handle, the subscription, and the state in which its callback is invoked. -/
def ActivateCalls {Args : Type} (cl : Closures Args) (fuel : Nat) (w : World) (self : Nat)
    (args : Args) : List (Int × Event × World) :=
  match w.handlers self with
  | none => []
  | some _ => rangeForAllCalls (eventsOf self) (fun _ event w1 => cl.func event.func args w1) fuel w

/-! ## Example states -/

/-- An owner with two hooks: the lambda of a subscription and another closure. -/
def sampleOwner : EventOwner :=
  { destroyHooks_ := [(0, .removeEvent 0 1), (1, .closure 7)], lastEvent_ := 2,
    destroying_ := false }

/-- A world with one owner (address 0) and one handler (address 0) that has one
subscription, tied to the owner. -/
def sampleWorld : World where
  owners := fun p => if p = 0 then some sampleOwner else none
  handlers := fun p => if p = 0 then
    some { events_ := [(1, ⟨some 0, 5, 0⟩)], lastEvent_ := 1 } else none

/-- A world with a single handler at address 0, without subscriptions, and no owner. -/
def freshWorld : World where
  owners := fun _ => none
  handlers := fun p => if p = 0 then some { events_ := [], lastEvent_ := 0 } else none

/-- The state after `AddEvent` of callback 0 without owner on the handler of `freshWorld`. -/
def addedWorld : World where
  owners := freshWorld.owners
  handlers := Function.update freshWorld.handlers 0
    (some { events_ := [(1, ⟨none, 0, 0⟩)], lastEvent_ := 1 })

/-- The state after `RemoveEvent` of handle 1 in `addedWorld`. -/
def removedWorld : World where
  owners := freshWorld.owners
  handlers := Function.update addedWorld.handlers 0 (some { events_ := [], lastEvent_ := 1 })

/-! ## Auxiliary notions for the proofs -/

/-- Hook ids that the loop of `~EventHandler` erases from the owner at address `p`. -/
def hookKeys (entries : List (Int × Event)) (p : Nat) : List Int :=
  entries.filterMap (fun e => if e.2.owner = some p then some e.2.hook else none)

namespace StdMap

variable {β : Type}

/-- Number of entries with a key greater than `k`: the iterations left after key `k`. -/
def above (m : StdMap β) (k : Int) : Nat :=
  (m.filter (fun e => decide (k < e.1))).length

end StdMap

/-- The channel at address `c` holds a subscription tied to the owner at address `o`. -/
def Tied (w : World) (o : Nat) (c : Nat) : Prop :=
  ∃ hc id ev, w.handlers c = some hc ∧ hc.events_.find id = some ev ∧ ev.owner = some o

/-- Loop invariant of `~EventOwner` for the owner at `o`, started in a state with the
handlers `H0`, when the hooks other than `AddEvent` lambdas leave the owner and the
channels subscribed with it alone: the owner has the fields `owd`; of each such channel the
subscriptions whose lambda is among the hooks already invoked (`done`) are gone, and all its
other subscriptions, those whose lambda is still to come (`pending`) included, are as they
were. -/
def OwnerSweepInv (H0 : Nat → Option EventHandler) (o : Nat) (owd : EventOwner)
    (done pending : List (Int × Hook)) (w : World) : Prop :=
  w.owners o = some owd ∧
  ∀ c hc, H0 c = some hc → (∃ id ev, hc.events_.find id = some ev ∧ ev.owner = some o) →
    ∃ hc', w.handlers c = some hc' ∧ hc'.lastEvent_ = hc.lastEvent_ ∧
      List.Sublist hc'.events_ hc.events_ ∧
      (∀ id ev, hc.events_.find id = some ev →
        (ev.owner = some o → (ev.hook, Hook.removeEvent c id) ∈ pending) →
        hc'.events_.find id = some ev) ∧
      (∀ id ev, hc.events_.find id = some ev → ev.owner = some o →
        (ev.hook, Hook.removeEvent c id) ∈ done → hc'.events_.find id = none)

/-- The call `c` of a hook removes the entry `e` from the hook table of the owner at `o`:
the entry is in the table when the hook is invoked and is not when the hook returns. -/
def Unhooks {Args : Type} (cl : Closures Args) (o : Nat) (e : Int × Hook)
    (c : Int × Hook × World) : Prop :=
  ∃ ow1 w2 ow2, c.2.2.owners o = some ow1 ∧ callHook cl c.2.1 c.2.2 = .ok w2 ∧
    w2.owners o = some ow2 ∧ e ∈ ow1.destroyHooks_ ∧ e ∉ ow2.destroyHooks_

/-- What the loop of `~EventOwner` keeps true of the hook table `m` of the owner at `o`
after the calls `acc`, when hooks only remove entries of the table `T` it started with: the
hooks invoked are entries of `T`, in key order, and an entry of `T` that is gone was invoked
or was removed by a hook invoked under a smaller key, in which case it was not invoked. -/
def HookSweepInv {Args : Type} (cl : Closures Args) (o : Nat) (T : StdMap Hook)
    (acc : List (Int × Hook × World)) (m : StdMap Hook) : Prop :=
  List.Sublist m T ∧ (visited acc).Pairwise (fun a b => a.1 < b.1) ∧
    (∀ e ∈ visited acc, e ∈ T) ∧
    (∀ e ∈ T, e ∉ m → e ∈ visited acc ∨ ∃ c ∈ acc, c.1 < e.1 ∧ Unhooks cl o e c) ∧
    (∀ e, (∃ c ∈ acc, c.1 < e.1 ∧ Unhooks cl o e c) → e ∉ visited acc ∧ e ∉ m)

/-- Loop invariant of `~EventOwner` with the iterator at key `k`. -/
def HookSweepPre {Args : Type} (cl : Closures Args) (o : Nat) (T : StdMap Hook)
    (acc : List (Int × Hook × World)) (k : Int) (w : World) : Prop :=
  ∃ ow1, w.owners o = some ow1 ∧ HookSweepInv cl o T acc ow1.destroyHooks_ ∧
    (∃ v, (k, v) ∈ ow1.destroyHooks_) ∧ (∀ e ∈ visited acc, e.1 < k) ∧
    (∀ e ∈ ow1.destroyHooks_, e.1 < k → e ∈ visited acc)

/-- State of affairs when that loop has ended. -/
def HookSweepPost {Args : Type} (cl : Closures Args) (o : Nat) (T : StdMap Hook)
    (acc : List (Int × Hook × World)) (w : World) : Prop :=
  ∃ ow1, w.owners o = some ow1 ∧ HookSweepInv cl o T acc ow1.destroyHooks_ ∧
    (∀ e ∈ ow1.destroyHooks_, e ∈ visited acc)

/-- Loop invariant of `Activate` on the handler at `self`, which had the fields `h` at the
start, when the callback of the entry with key `k0` makes the handler what `AddEvent(g,
owner)` makes it and all the other callbacks leave the handler alone; `acc` are the calls
made so far, `k` is the key under the iterator.  Up to `k0` the handler is as at the start;
after it the handler has one more entry, for `g` and `owner`, under a new greatest handle. -/
def ActivateAddPre (self : Nat) (h : EventHandler) (k0 : Int) (g : Nat) (owner : Option Nat)
    (acc : List (Int × Event × World)) (k : Int) (w : World) : Prop :=
  (k ≤ k0 ∧ w.handlers self = some h ∧
    ∃ v rest, visited acc ++ (k, v) :: rest = h.events_) ∨
  (k0 < k ∧ ∃ enew v rest, enew.func = g ∧ enew.owner = owner ∧
    w.handlers self =
      some ⟨h.events_ ++ [(h.lastEvent_ + 1, enew)], h.lastEvent_ + 1⟩ ∧
    visited acc ++ (k, v) :: rest = h.events_ ++ [(h.lastEvent_ + 1, enew)])

/-- State of affairs when that loop has ended. -/
def ActivateAddPost (self : Nat) (h : EventHandler) (g : Nat) (owner : Option Nat)
    (acc : List (Int × Event × World)) (w : World) : Prop :=
  ∃ enew, enew.func = g ∧ enew.owner = owner ∧
    visited acc = h.events_ ++ [(h.lastEvent_ + 1, enew)] ∧
    w.handlers self =
      some ⟨h.events_ ++ [(h.lastEvent_ + 1, enew)], h.lastEvent_ + 1⟩

/-- Closures that return at once, without touching the state. -/
def idleClosures : Closures Unit where
  hook := fun _ w => .ok w
  func := fun _ _ w => .ok w

/-- Closures of the example: hook 0 calls `RemoveDestroyHook` with id 1 on the owner at
address 0, every other closure returns at once. -/
def removerClosures : Closures Unit where
  hook := fun n w => if n = 0 then RemoveDestroyHook w 0 1 else .ok w
  func := fun _ _ w => .ok w

/-- A world with a single owner at address 0, without hooks, and no handler. -/
def emptyOwnerWorld : World where
  owners := fun p => if p = 0 then
    some { destroyHooks_ := [], lastEvent_ := 0, destroying_ := false } else none
  handlers := fun _ => none

/-- The owner after `AddDestroyHook` of closures 0 and 1. -/
def twoHooksOwner : EventOwner :=
  { destroyHooks_ := [(0, .closure 0), (1, .closure 1)], lastEvent_ := 2, destroying_ := false }

/-- The state after `AddDestroyHook` of closure 0 in `emptyOwnerWorld`. -/
def oneHookWorld : World where
  owners := Function.update emptyOwnerWorld.owners 0
    (some { destroyHooks_ := [(0, .closure 0)], lastEvent_ := 1, destroying_ := false })
  handlers := emptyOwnerWorld.handlers

/-- The state after `AddDestroyHook` of closure 1 in `oneHookWorld`. -/
def twoHooksWorld : World where
  owners := Function.update oneHookWorld.owners 0 (some twoHooksOwner)
  handlers := oneHookWorld.handlers

/-- Callbacks of the example: callback 0 calls `RemoveEvent` with handle 2 on the handler at
address 0, every other closure returns at once. -/
def removingClosures : Closures Unit where
  hook := fun _ w => .ok w
  func := fun n _ w => if n = 0 then RemoveEvent w 0 2 else .ok w

/-- The state after `AddEvent` of callback 1 without owner in `addedWorld`. -/
def addedTwoWorld : World where
  owners := freshWorld.owners
  handlers := Function.update addedWorld.handlers 0
    (some { events_ := [(1, ⟨none, 0, 0⟩), (2, ⟨none, 1, 0⟩)], lastEvent_ := 2 })

/-- The state after `AddEvent` of callback 2 without owner in `addedTwoWorld`. -/
def addedThreeWorld : World where
  owners := freshWorld.owners
  handlers := Function.update addedTwoWorld.handlers 0
    (some { events_ := [(1, ⟨none, 0, 0⟩), (2, ⟨none, 1, 0⟩), (3, ⟨none, 2, 0⟩)],
            lastEvent_ := 3 })

/-- Callbacks of the example: callback 0 calls `AddEvent` of callback 1, without owner, on
the handler at address 0; every other closure returns at once. -/
def addingClosures : Closures Unit where
  hook := fun _ w => .ok w
  func := fun n _ w =>
    if n = 0 then
      match AddEvent w 0 1 none with
      | .ok (w2, _) => .ok w2
      | .error e => .error e
    else .ok w

/-! ## `winutil.cpp`: the widget tree -/

/-- Data members of `class Widget` that the ownership tree uses (`HMENU` values are the
integers they are cast from, `children_` maps them to widget addresses). -/
structure Widget where
  widgetId_ : Int
  parent_ : Option Nat
  children_ : StdMap Nat
  lastChildId_ : Int

/-- The live widgets by address. -/
abbrev Heap := Nat → Option Widget

/-- Abnormal outcomes of a call on the widget tree. -/
inductive TreeFault where
  /-- Use of a destroyed widget. -/
  | undefinedBehaviour
  /-- An `assert` failed. -/
  | assertion
  /-- The model ran out of fuel. -/
  | fuel

/-- Member function `Widget::DeleteChild(widget)` of the widget at address `self`. -/
def DeleteChild (hp : Heap) (self : Nat) (widget : Nat) : Except TreeFault Heap :=
  match hp self, hp widget with
  | some p, some c =>
    if p.children_.find c.widgetId_ = none then .error .assertion
    else .ok (Function.update hp self (some { p with children_ := p.children_.erase c.widgetId_ }))
  | _, _ => .error .undefinedBehaviour

mutual
/-- Destructor `Widget::~Widget` run by `delete` on the widget at address `self`, followed
by the release of the object.  Returns the widgets whose destructor has finished, in the
order in which they finished. -/
def DestroyWidget : Nat → Heap → Nat → Except TreeFault (Heap × List Nat)
  | 0, _, _ => .error .fuel
  | fuel + 1, hp, self =>
    match destroyChildren fuel hp self with
    | .error e => .error e
    | .ok (hp1, log) =>
      match hp1 self with
      | none => .error .undefinedBehaviour
      | some wd =>
        match wd.parent_ with
        | none => .ok (Function.update hp1 self none, log ++ [self])
        | some p =>
          match DeleteChild hp1 p self with
          | .error e => .error e
          | .ok hp2 => .ok (Function.update hp2 self none, log ++ [self])
/-- The loop `while (!children_.empty()) delete children_.begin()->second;` of `~Widget`. -/
def destroyChildren : Nat → Heap → Nat → Except TreeFault (Heap × List Nat)
  | 0, _, _ => .error .fuel
  | fuel + 1, hp, self =>
    match hp self with
    | none => .error .undefinedBehaviour
    | some wd =>
      match wd.children_.first with
      | none => .ok (hp, [])
      | some (_, child) =>
        match DestroyWidget fuel hp child with
        | .error e => .error e
        | .ok (hp1, log1) =>
          match destroyChildren fuel hp1 self with
          | .error e => .error e
          | .ok (hp2, log2) => .ok (hp2, log1 ++ log2)
end

/-- A finite list of widget subtrees under one parent (used to describe heaps, not part
of the program): the first child with its address, its id and its own children, then the
remaining children. -/
inductive Forest where
  | nil
  | cons (addr : Nat) (id : Int) (kids : Forest) (rest : Forest)

namespace Forest

/-- Number of widgets. -/
def size : Forest → Nat
  | nil => 0
  | cons _ _ kids rest => 1 + kids.size + rest.size

/-- Addresses of all widgets. -/
def addrs : Forest → List Nat
  | nil => []
  | cons a _ kids rest => a :: (kids.addrs ++ rest.addrs)

/-- The child map of the parent: the top-level widgets under their ids. -/
def entries : Forest → StdMap Nat
  | nil => []
  | cons a id _ rest => (id, a) :: rest.entries

/-- Every widget after all widgets below it, siblings in the order of the child map. -/
def postorder : Forest → List Nat
  | nil => []
  | cons a _ kids rest => kids.postorder ++ a :: rest.postorder

/-- Pairs (child, parent) of the forest whose top-level widgets have parent `parent`. -/
def edges (parent : Nat) : Forest → List (Nat × Nat)
  | nil => []
  | cons a _ kids rest => (a, parent) :: (kids.edges a ++ rest.edges parent)

/-- Ids increase along every child map, as in a `std::map`. -/
def Ordered : Forest → Prop
  | nil => True
  | cons _ id kids rest => kids.Ordered ∧ rest.Ordered ∧ ∀ e ∈ rest.entries, id < e.1

end Forest

/-- The heap holds the forest `F` as the children of the widget at `parent`: every widget
of `F` is live, has the id under which its parent lists it, points back to its parent and
has its own children in its child map. -/
def Rep (hp : Heap) : Nat → Forest → Prop
  | _, .nil => True
  | parent, .cons a id kids rest =>
    (∃ l, hp a = some ⟨id, some parent, kids.entries, l⟩) ∧ Rep hp a kids ∧ Rep hp parent rest

/-- The tree of the example: a root `P` (address 0) with the child `N` (address 1), which
has the children `x` (address 2) and `y` (address 3); `y` has the child `z` (address 4). -/
def sampleHeap : Heap := fun p =>
  if p = 0 then some ⟨0, none, [(1, 1)], 1⟩
  else if p = 1 then some ⟨1, some 0, [(1, 2), (2, 3)], 2⟩
  else if p = 2 then some ⟨1, some 1, [], 0⟩
  else if p = 3 then some ⟨2, some 1, [(1, 4)], 1⟩
  else if p = 4 then some ⟨1, some 3, [], 0⟩
  else none

/-- The children of `N` in `sampleHeap`. -/
def sampleKids : Forest :=
  .cons 2 1 .nil (.cons 3 2 (.cons 4 1 .nil .nil) .nil)

/-! ## `winutil.cpp`: construction of widgets -/

/-- Member function `Widget::GenerateChildId` of the widget at address `self`: the new heap
and the id returned (`++lastChildId_`, cast to `HMENU`). -/
def GenerateChildId (hp : Heap) (self : Nat) : Except TreeFault (Heap × Int) :=
  match hp self with
  | none => .error .undefinedBehaviour
  | some wd =>
    .ok (Function.update hp self (some { wd with lastChildId_ := wd.lastChildId_ + 1 }),
         wd.lastChildId_ + 1)

/-- Member function `Widget::AddChild(widget)` of the widget at address `self`. -/
def AddChild (hp : Heap) (self : Nat) (widget : Nat) : Except TreeFault Heap :=
  match hp self, hp widget with
  | some p, some c =>
    if p.children_.find c.widgetId_ ≠ none then .error .assertion
    else .ok (Function.update hp self
      (some { p with children_ := p.children_.assign c.widgetId_ widget }))
  | _, _ => .error .undefinedBehaviour

/-- How a run of the constructor `Widget::Widget` ends, with the value of `widgetId_`. -/
inductive Constructed where
  /-- The constructor returned; the new widget is live in the heap. -/
  | widget (hp : Heap) (widgetId : Int)
  /-- `WindowsError("could not create window")` was thrown; the storage is released. -/
  | windowsError (hp : Heap) (widgetId : Int)

/-- Constructor `Widget::Widget(parent, ...)` for a new object at the free address `self`.
`created` tells whether `CreateWindowExW` returns a window.  The member initialisers set
`widgetId_(nullptr)`, `parent_(parent)`, `lastChildId_(0)` and an empty `children_`; the
parent must be a live object, hence another one than the object under construction. -/
def ConstructWidget (hp : Heap) (parent : Option Nat) (self : Nat) (created : Bool) :
    Except TreeFault Constructed :=
  match hp self with
  | some _ => .error .undefinedBehaviour
  | none =>
    match parent with
    | none =>
      if created then .ok (.widget (Function.update hp self (some ⟨0, none, [], 0⟩)) 0)
      else .ok (.windowsError hp 0)
    | some p =>
      match GenerateChildId hp p with
      | .error e => .error e
      | .ok (hp1, id) =>
        if created then
          match AddChild (Function.update hp1 self (some ⟨id, some p, [], 0⟩)) p self with
          | .error e => .error e
          | .ok hp2 => .ok (.widget hp2 id)
        else .ok (.windowsError hp1 id)

/-- A step of a program that builds and removes children of one widget: `new` of a child
at the address `self`, or `delete` of the widget at `self`. -/
inductive ChildOp where
  | construct (self : Nat) (created : Bool)
  | destroy (self : Nat) (fuel : Nat)

/-- Runs the steps in order on the children of the widget at `parent`.  Returns the final
heap and the ids that `GenerateChildId` of the parent returned, in order.  A thrown
`WindowsError` is caught by the program, which goes on. -/
def runChildOps (parent : Nat) : Heap → List ChildOp → Except TreeFault (Heap × List Int)
  | hp, [] => .ok (hp, [])
  | hp, .construct self created :: rest =>
    match ConstructWidget hp (some parent) self created with
    | .error e => .error e
    | .ok (.widget hp1 id) | .ok (.windowsError hp1 id) =>
      match runChildOps parent hp1 rest with
      | .error e => .error e
      | .ok (hp2, ids) => .ok (hp2, id :: ids)
  | hp, .destroy self fuel :: rest =>
    match DestroyWidget fuel hp self with
    | .error e => .error e
    | .ok (hp1, _) => runChildOps parent hp1 rest

/-- A heap with a single widget, freshly constructed without parent at address 0. -/
def rootHeap : Heap := fun p => if p = 0 then some ⟨0, none, [], 0⟩ else none

/-- Steps of the example: a child at address 1, a child at address 2 whose window cannot be
created, removal of the child at address 1, a child at address 3. -/
def sampleOps : List ChildOp :=
  [.construct 1 true, .construct 2 false, .destroy 1 2, .construct 3 true]

/-- The heap `hp'` has no widget that `hp` has not, and every widget it has kept has its
counter unchanged and no entry of its child map that it had not in `hp`. -/
def Shrinks (hp hp' : Heap) : Prop :=
  ∀ q wd', hp' q = some wd' →
    ∃ wd, hp q = some wd ∧ wd'.lastChildId_ = wd.lastChildId_ ∧
      List.Sublist wd'.children_ wd.children_

/-! ## Programs of `AddEvent` and `RemoveEvent` calls -/

/-- A call made by a program that only subscribes and unsubscribes. -/
inductive EventOp where
  | addEvent (self : Nat) (func : Nat) (owner : Option Nat)
  | removeEvent (self : Nat) (id : Int)

/-- Runs the calls in order.  A `std::out_of_range` thrown by `RemoveEvent` is caught by the
program, which goes on in the state in which it was thrown. -/
def runEventOps : World → List EventOp → Except Fault World
  | w, [] => .ok w
  | w, .addEvent self func owner :: rest =>
    match AddEvent w self func owner with
    | .error e => .error e
    | .ok (w1, _) => runEventOps w1 rest
  | w, .removeEvent self id :: rest =>
    match RemoveEvent w self id with
    | .error (.outOfRange w1) => runEventOps w1 rest
    | .error e => .error e
    | .ok w1 => runEventOps w1 rest

/-- All handlers are without subscriptions, all owners without hooks and not destroying. -/
def EmptyWorld (w : World) : Prop :=
  (∀ c h, w.handlers c = some h → h.events_ = []) ∧
  (∀ o ow, w.owners o = some ow → ow.destroyHooks_ = [] ∧ ow.destroying_ = false)

/-- Subscriptions and hooks match: the tables are well formed with keys bounded by the
counters, no owner is destroying, every subscription with an owner has its lambda in the
owner's table under the hook id it records, and every hook is such a lambda. -/
structure Linked (w : World) : Prop where
  events : ∀ c h, w.handlers c = some h →
    h.events_.Sorted ∧ ∀ e ∈ h.events_, e.1 ≤ h.lastEvent_
  hooks : ∀ o ow, w.owners o = some ow →
    ow.destroyHooks_.Sorted ∧ ow.destroying_ = false ∧ ∀ e ∈ ow.destroyHooks_, e.1 < ow.lastEvent_
  hooked : ∀ c h id ev o, w.handlers c = some h → (id, ev) ∈ h.events_ → ev.owner = some o →
    ∃ ow, w.owners o = some ow ∧ (ev.hook, Hook.removeEvent c id) ∈ ow.destroyHooks_
  owned : ∀ o ow k hook, w.owners o = some ow → (k, hook) ∈ ow.destroyHooks_ →
    ∃ c id h ev, hook = Hook.removeEvent c id ∧ w.handlers c = some h ∧
      (id, ev) ∈ h.events_ ∧ ev.owner = some o ∧ ev.hook = k

/-- A world with one owner and one handler, both at address 0 and both empty. -/
def linkWorld : World where
  owners := fun p => if p = 0 then some ⟨[], 0, false⟩ else none
  handlers := fun p => if p = 0 then some ⟨[], 0⟩ else none

/-- Calls of the example: two subscriptions with the owner and one without, removal of the
second one, a removal with an unknown handle, and one more subscription with the owner. -/
def linkOps : List EventOp :=
  [.addEvent 0 5 (some 0), .addEvent 0 6 (some 0), .addEvent 0 7 none, .removeEvent 0 2,
   .removeEvent 0 9, .addEvent 0 8 (some 0)]

/-! ## Example: a handler destroyed while an owner is destroying -/

/-- An owner with a closure added directly and, after it, the lambda of a subscription. -/
def tiedOwner : EventOwner :=
  { destroyHooks_ := [(0, .closure 0), (1, .removeEvent 0 1)], lastEvent_ := 2,
    destroying_ := false }

/-- A world with the owner `tiedOwner` at address 0 and a handler at address 0 whose only
subscription is tied to that owner. -/
def tiedWorld : World where
  owners := fun p => if p = 0 then some tiedOwner else none
  handlers := fun p => if p = 0 then
    some { events_ := [(1, ⟨some 0, 5, 1⟩)], lastEvent_ := 1 } else none

/-- Closures of the example: hook 0 destroys the handler at address 0, every other closure
returns at once. -/
def handlerDestroyingClosures : Closures Unit where
  hook := fun n w => if n = 0 then DestroyEventHandler w 0 else .ok w
  func := fun _ _ w => .ok w

/-! ## Example states for the loops of `~EventOwner` and `Activate` -/

/-- The state after `AddDestroyHook` of closure 0 on the owner of `linkWorld`. -/
def hookedWorld : World where
  owners := Function.update linkWorld.owners 0 (some ⟨[(0, .closure 0)], 1, false⟩)
  handlers := linkWorld.handlers

/-- The state after `AddDestroyHook` of closure 1 on the owner of `hookedWorld`. -/
def twoClosuresWorld : World where
  owners := Function.update hookedWorld.owners 0
    (some ⟨[(0, .closure 0), (1, .closure 1)], 2, false⟩)
  handlers := hookedWorld.handlers

/-- The owner after `AddDestroyHook` of closures 0 and 1 and an `AddEvent` tied to it. -/
def sweepOwner : EventOwner :=
  ⟨[(0, .closure 0), (1, .closure 1), (2, .removeEvent 0 1)], 3, false⟩

/-- The state after `AddEvent` of callback 5, tied to the owner, on the handler of
`twoClosuresWorld`: the owner has two closures and the lambda of the subscription. -/
def sweepWorld : World where
  owners := Function.update twoClosuresWorld.owners 0 (some sweepOwner)
  handlers := Function.update twoClosuresWorld.handlers 0 (some ⟨[(1, ⟨some 0, 5, 2⟩)], 1⟩)

/-- The state after `AddEvent` of callback 5, tied to the owner, on the handler of
`hookedWorld`: the owner has a closure added directly and the lambda of the subscription. -/
def subscribedWorld : World where
  owners := Function.update hookedWorld.owners 0
    (some ⟨[(0, .closure 0), (1, .removeEvent 0 1)], 2, false⟩)
  handlers := Function.update hookedWorld.handlers 0 (some ⟨[(1, ⟨some 0, 5, 1⟩)], 1⟩)

/-- Closures of the example: hook 0 calls `RemoveEvent` with handle 1 on the handler at
address 0, every other closure returns at once. -/
def unsubscribingClosures : Closures Unit where
  hook := fun n w => if n = 0 then RemoveEvent w 0 1 else .ok w
  func := fun _ _ w => .ok w

/-- The state after `AddEvent` of callback 0 without owner on the handler of `linkWorld`. -/
def listeningWorld : World where
  owners := linkWorld.owners
  handlers := Function.update linkWorld.handlers 0 (some ⟨[(1, ⟨none, 0, 0⟩)], 1⟩)

/-- Callbacks of the example: callback 0 calls `AddEvent` of callback 1, tied to the owner at
address 0, on the handler at address 0; every other closure returns at once. -/
def owningAddClosures : Closures Unit where
  hook := fun _ w => .ok w
  func := fun n _ w =>
    if n = 0 then
      match AddEvent w 0 1 (some 0) with
      | .ok (w2, _) => .ok w2
      | .error e => .error e
    else .ok w

/-! # Theorems -/

/-! ## Facts about `StdMap` -/

namespace StdMap

variable {β : Type}

theorem find_erase (m : StdMap β) (k k' : Int) :
    (m.erase k).find k' = if k' = k then none else m.find k' := by
  induction m with
  | nil => simp [erase, find]
  | cons e t ih =>
    obtain ⟨a, v⟩ := e
    unfold erase at ih ⊢
    by_cases h : a = k
    · subst h
      by_cases h2 : k' = a
      · subst h2; simpa [find] using ih
      · have h3 : ¬ a = k' := fun h => h2 h.symm
        simpa [find, h3, h2] using ih
    · by_cases h2 : k' = k
      · subst h2
        simp only [List.filter_cons, ne_eq, h, not_false_eq_true, decide_True, if_true, find,
          if_false] at ih ⊢
        simpa using ih
      · simp only [List.filter_cons, ne_eq, h, not_false_eq_true, decide_True, if_true, find,
          h2, if_false] at ih ⊢
        rw [ih]

theorem find_erase_self (m : StdMap β) (k : Int) : (m.erase k).find k = none := by
  rw [find_erase]; simp

theorem find_erase_ne (m : StdMap β) {k k' : Int} (h : k' ≠ k) :
    (m.erase k).find k' = m.find k' := by
  rw [find_erase]; simp [h]

theorem ne_of_find_none {m : StdMap β} {k : Int} (h : m.find k = none) :
    ∀ e ∈ m, e.1 ≠ k := by
  induction m with
  | nil => simp
  | cons e t ih =>
    obtain ⟨a, v⟩ := e
    by_cases h1 : a = k
    · simp [find, h1] at h
    · simp only [find, h1, if_false] at h
      intro e he
      rcases List.mem_cons.mp he with h2 | h2
      · subst h2; exact h1
      · exact ih h e h2

theorem erase_of_find_none (m : StdMap β) (k : Int) (h : m.find k = none) : m.erase k = m := by
  unfold erase
  apply List.filter_eq_self.mpr
  intro e he
  simpa using ne_of_find_none h e he

theorem erase_erase_self (m : StdMap β) (k : Int) : (m.erase k).erase k = m.erase k :=
  erase_of_find_none _ _ (find_erase_self m k)

theorem find_assign (m : StdMap β) (k k' : Int) (v : β) :
    (m.assign k v).find k' = if k' = k then some v else m.find k' := by
  induction m with
  | nil =>
    by_cases h : k' = k
    · simp [assign, find, h]
    · have h' : ¬ k = k' := fun e => h e.symm
      simp [assign, find, h, h']
  | cons e t ih =>
    obtain ⟨a, x⟩ := e
    unfold assign
    by_cases h1 : k < a
    · by_cases h : k' = k
      · simp [h1, find, h]
      · have h' : ¬ k = k' := fun e => h e.symm
        simp [h1, find, h, h']
    · by_cases h2 : k = a
      · subst h2
        by_cases h : k' = k
        · simp [find, h]
        · have h' : ¬ k = k' := fun e => h e.symm
          simp [find, h, h']
      · simp only [h1, h2, if_false, find]
        by_cases h3 : a = k'
        · have h4 : ¬ k' = k := fun e => h2 (e.symm.trans h3.symm)
          simp [h3, h4]
        · simp [h3, ih]

theorem find_some_mem {m : StdMap β} {k : Int} {v : β} (h : m.find k = some v) :
    (k, v) ∈ m := by
  induction m with
  | nil => simp [find] at h
  | cons e t ih =>
    obtain ⟨a, x⟩ := e
    by_cases h1 : a = k
    · simp [find, h1] at h; simp [h1, h]
    · simp only [find, h1, if_false] at h
      exact List.mem_cons_of_mem _ (ih h)

theorem Sorted.find_of_mem {m : StdMap β} (hs : m.Sorted) {k : Int} {v : β} (h : (k, v) ∈ m) :
    m.find k = some v := by
  induction m with
  | nil => simp at h
  | cons e t ih =>
    obtain ⟨a, x⟩ := e
    have hs' := List.pairwise_cons.mp hs
    rcases List.mem_cons.mp h with h1 | h1
    · cases h1; simp [find]
    · have hlt : a < k := hs'.1 _ h1
      have hne : ¬ a = k := ne_of_lt hlt
      simp only [find, hne, if_false]
      exact ih hs'.2 h1

theorem erase_sublist (m : StdMap β) (k : Int) : List.Sublist (m.erase k) m :=
  List.filter_sublist m

theorem Sorted.sublist {m m' : StdMap β} (hs : m.Sorted) (h : List.Sublist m' m) : m'.Sorted :=
  List.Pairwise.sublist h hs

theorem Sorted.erase {m : StdMap β} (hs : m.Sorted) (k : Int) : (m.erase k).Sorted :=
  hs.sublist (erase_sublist m k)

end StdMap

/-! ## `RemoveDestroyHook` and `RemoveEvent` -/

theorem World.ext_fields {w w' : World} (h1 : w.owners = w'.owners)
    (h2 : w.handlers = w'.handlers) : w = w' := by
  cases w; cases w'; simp_all

/-- C8: on a live owner `RemoveDestroyHook` always returns; a handle that is not in the hook
table leaves the whole state as it is; otherwise the key is gone, every other key keeps its
hook, the counter and the flag are unchanged, handlers and the other owners are untouched;
a second call with the same handle returns the state the first one returned. -/
theorem removeDestroyHook_total_idempotent (w : World) (owner : Nat) (o : EventOwner) (id : Int)
    (ho : w.owners owner = some o) :
    ∃ w' o', RemoveDestroyHook w owner id = .ok w' ∧
      w'.owners owner = some o' ∧
      w'.handlers = w.handlers ∧
      (∀ p, p ≠ owner → w'.owners p = w.owners p) ∧
      (o.destroyHooks_.find id = none → w' = w) ∧
      o'.destroyHooks_.find id = none ∧
      (∀ k, k ≠ id → o'.destroyHooks_.find k = o.destroyHooks_.find k) ∧
      List.Sublist o'.destroyHooks_ o.destroyHooks_ ∧
      o'.lastEvent_ = o.lastEvent_ ∧
      o'.destroying_ = o.destroying_ ∧
      RemoveDestroyHook w' owner id = .ok w' := by
  refine ⟨{ w with owners := Function.update w.owners owner (some (o.RemoveDestroyHook id)) },
    o.RemoveDestroyHook id, by simp [RemoveDestroyHook, ho], by simp, rfl, ?_, ?_,
    ?_, ?_, ?_, rfl, rfl, ?_⟩
  · intro p hp; simp [Function.update_noteq hp]
  · intro hnone
    refine World.ext_fields ?_ rfl
    simp only [EventOwner.RemoveDestroyHook, StdMap.erase_of_find_none _ _ hnone]
    rw [← ho]; exact Function.update_eq_self _ _
  · exact StdMap.find_erase_self _ _
  · intro k hk; exact StdMap.find_erase_ne _ hk
  · exact StdMap.erase_sublist _ _
  · simp only [RemoveDestroyHook, Function.update_same, EventOwner.RemoveDestroyHook,
      StdMap.erase_erase_self, Function.update_idem]

theorem removeDestroyHook_total_idempotent_witness :
    ∃ w' o', RemoveDestroyHook sampleWorld 0 1 = .ok w' ∧
      w'.owners 0 = some o' ∧
      w'.handlers = sampleWorld.handlers ∧
      (∀ p, p ≠ 0 → w'.owners p = sampleWorld.owners p) ∧
      (sampleOwner.destroyHooks_.find 1 = none → w' = sampleWorld) ∧
      o'.destroyHooks_.find 1 = none ∧
      (∀ k, k ≠ 1 → o'.destroyHooks_.find k = sampleOwner.destroyHooks_.find k) ∧
      List.Sublist o'.destroyHooks_ sampleOwner.destroyHooks_ ∧
      o'.lastEvent_ = sampleOwner.lastEvent_ ∧
      o'.destroying_ = sampleOwner.destroying_ ∧
      RemoveDestroyHook w' 0 1 = .ok w' :=
  removeDestroyHook_total_idempotent sampleWorld 0 sampleOwner 1 (by simp [sampleWorld])

/-- What `RemoveEvent` returns for a present key, spelled out by the cases of the owner. -/
theorem removeEvent_of_find {w : World} {self : Nat} {h : EventHandler} {id : Int} {ev : Event}
    (hh : w.handlers self = some h) (hf : h.events_.find id = some ev) :
    RemoveEvent w self id =
      match ev.owner with
      | none => .ok { w with handlers := (Function.update w.handlers self
                  (some { h with events_ := h.events_.erase id })) }
      | some o =>
        match w.owners o with
        | none => .error .undefinedBehaviour
        | some ow =>
          if ow.destroying_ then
            .ok { w with handlers := (Function.update w.handlers self
                  (some { h with events_ := h.events_.erase id })) }
          else
            .ok { owners := Function.update w.owners o (some (ow.RemoveDestroyHook ev.hook)),
                  handlers := (Function.update w.handlers self
                    (some { h with events_ := h.events_.erase id })) } := by
  unfold RemoveEvent
  simp only [hh, hf]
  cases ev.owner with
  | none => rfl
  | some o =>
    simp only
    cases hw : w.owners o with
    | none => rfl
    | some ow =>
      simp only
      cases ow.destroying_ with
      | true => simp
      | false => simp [RemoveDestroyHook, hw]

theorem removeEvent_of_find_none {w : World} {self : Nat} {h : EventHandler} {id : Int}
    (hh : w.handlers self = some h) (hf : h.events_.find id = none) :
    RemoveEvent w self id = .error (.outOfRange w) := by
  unfold RemoveEvent
  simp only [hh, hf]

/-- For a present key whose owner pointer (if any) is valid `RemoveEvent` returns, and the
handler then has the key erased. -/
theorem removeEvent_returns {w : World} {self : Nat} {h : EventHandler} {id : Int} {ev : Event}
    (hh : w.handlers self = some h) (hf : h.events_.find id = some ev)
    (hvalid : ∀ o, ev.owner = some o → w.owners o ≠ none) :
    ∃ w', RemoveEvent w self id = .ok w' ∧
      w'.handlers self = some { h with events_ := h.events_.erase id } := by
  have key := removeEvent_of_find hh hf
  cases hown : ev.owner with
  | none =>
    simp only [hown] at key
    exact ⟨_, key, by simp⟩
  | some o =>
    simp only [hown] at key
    cases hw : w.owners o with
    | none => exact absurd hw (hvalid o hown)
    | some ow =>
      simp only [hw] at key
      cases hd : ow.destroying_ with
      | true =>
        simp only [hd, if_true] at key
        exact ⟨_, key, by simp⟩
      | false =>
        simp only [hd, Bool.false_eq_true, if_false] at key
        exact ⟨_, key, by simp⟩

/-- C9: for a present handle whose owner pointer (if any) is valid, `RemoveEvent` returns;
in the handler the key is gone, every other key keeps its subscription and the counter is
unchanged; other handlers are untouched.  With a live owner that is not destroying, the
owner becomes `RemoveDestroyHook` of the stored hook id (that key gone, all other keys, the
counter and the flag kept) and the other owners are untouched.  With no owner, or an owner
that is destroying, no owner changes. -/
theorem removeEvent_frame (w : World) (self : Nat) (h : EventHandler) (id : Int) (ev : Event)
    (hh : w.handlers self = some h) (hf : h.events_.find id = some ev)
    (hvalid : ∀ o, ev.owner = some o → w.owners o ≠ none) :
    ∃ w' h', RemoveEvent w self id = .ok w' ∧
      w'.handlers self = some h' ∧
      h'.events_.find id = none ∧
      (∀ k, k ≠ id → h'.events_.find k = h.events_.find k) ∧
      List.Sublist h'.events_ h.events_ ∧
      h'.lastEvent_ = h.lastEvent_ ∧
      (∀ c, c ≠ self → w'.handlers c = w.handlers c) ∧
      (∀ o ow, ev.owner = some o → w.owners o = some ow → ow.destroying_ = false →
        w'.owners o = some (ow.RemoveDestroyHook ev.hook) ∧
        (ow.RemoveDestroyHook ev.hook).destroyHooks_.find ev.hook = none ∧
        (∀ k, k ≠ ev.hook →
          (ow.RemoveDestroyHook ev.hook).destroyHooks_.find k = ow.destroyHooks_.find k) ∧
        (ow.RemoveDestroyHook ev.hook).lastEvent_ = ow.lastEvent_ ∧
        (ow.RemoveDestroyHook ev.hook).destroying_ = false ∧
        ∀ p, p ≠ o → w'.owners p = w.owners p) ∧
      (ev.owner = none → w'.owners = w.owners) ∧
      (∀ o ow, ev.owner = some o → w.owners o = some ow → ow.destroying_ = true →
        w'.owners = w.owners) := by
  have key := removeEvent_of_find hh hf
  have hsame : ∀ (f : Nat → Option EventHandler) (c : Nat), c ≠ self →
      Function.update f self (some { h with events_ := h.events_.erase id }) c = f c :=
    fun f c hc => Function.update_noteq hc _ _
  cases hown : ev.owner with
  | none =>
    rw [hown] at key
    refine ⟨_, { h with events_ := h.events_.erase id }, key, by simp,
      StdMap.find_erase_self _ _, fun k hk => StdMap.find_erase_ne _ hk,
      StdMap.erase_sublist _ _, rfl, fun c hc => hsame _ c hc, ?_, fun _ => rfl, ?_⟩
    · intro o ow ho; cases ho
    · intro o ow ho; cases ho
  | some o =>
    simp only [hown] at key
    cases hw : w.owners o with
    | none => exact absurd hw (hvalid o hown)
    | some ow =>
      simp only [hw] at key
      cases hd : ow.destroying_ with
      | true =>
        simp only [hd, if_true] at key
        refine ⟨_, { h with events_ := h.events_.erase id }, key, by simp,
          StdMap.find_erase_self _ _, fun k hk => StdMap.find_erase_ne _ hk,
          StdMap.erase_sublist _ _, rfl, fun c hc => hsame _ c hc, ?_, ?_, fun _ _ _ _ _ => rfl⟩
        · intro o' ow' ho' hw' hd'
          cases ho'
          rw [hw] at hw'; cases hw'
          rw [hd] at hd'; cases hd'
        · intro hn; cases hn
      | false =>
        simp only [hd] at key
        refine ⟨_, { h with events_ := h.events_.erase id }, key, by simp,
          StdMap.find_erase_self _ _, fun k hk => StdMap.find_erase_ne _ hk,
          StdMap.erase_sublist _ _, rfl, fun c hc => hsame _ c hc, ?_, ?_, ?_⟩
        · intro o' ow' ho' hw' _
          cases ho'
          rw [hw] at hw'; cases hw'
          refine ⟨by simp, StdMap.find_erase_self _ _, fun k hk => StdMap.find_erase_ne _ hk,
            rfl, hd, fun p hp => ?_⟩
          simp [Function.update_noteq hp]
        · intro hn; cases hn
        · intro o' ow' ho' hw' hd'
          cases ho'
          rw [hw] at hw'; cases hw'
          rw [hd] at hd'; cases hd'

theorem removeEvent_frame_witness :
    ∃ w' h', RemoveEvent sampleWorld 0 1 = .ok w' ∧
      w'.handlers 0 = some h' ∧
      h'.events_.find 1 = none ∧
      w'.owners 0 = some (sampleOwner.RemoveDestroyHook 0) := by
  obtain ⟨w', h', h1, h2, h3, _, _, _, _, h4, _⟩ :=
    removeEvent_frame sampleWorld 0 { events_ := [(1, ⟨some 0, 5, 0⟩)], lastEvent_ := 1 } 1
      ⟨some 0, 5, 0⟩ (by simp [sampleWorld]) (by simp [StdMap.find])
      (by intro o ho; cases ho; simp [sampleWorld])
  exact ⟨w', h', h1, h2, h3, (h4 0 sampleOwner rfl (by simp [sampleWorld]) rfl).1⟩

/-- C7: on a live handler `RemoveEvent` throws `std::out_of_range` exactly when the handle is
not a key of `events_`, and the state in which it throws is the state of the call, nothing
having been changed; when the handle is a key and the owner pointer of the subscription is
valid, the call returns. -/
theorem removeEvent_fails_iff (w : World) (self : Nat) (h : EventHandler) (id : Int)
    (hh : w.handlers self = some h) :
    ((∃ w', RemoveEvent w self id = .error (.outOfRange w')) ↔ h.events_.find id = none) ∧
    (∀ w', RemoveEvent w self id = .error (.outOfRange w') → w' = w) ∧
    (h.events_.find id = none → RemoveEvent w self id = .error (.outOfRange w)) ∧
    (∀ ev, h.events_.find id = some ev → (∀ o, ev.owner = some o → w.owners o ≠ none) →
      ∃ w', RemoveEvent w self id = .ok w') := by
  have hthrow : ∀ w', RemoveEvent w self id = .error (.outOfRange w') →
      h.events_.find id = none ∧ w' = w := by
    intro w' hw'
    cases hf : h.events_.find id with
    | none =>
      rw [removeEvent_of_find_none hh hf] at hw'
      refine ⟨rfl, ?_⟩
      injection hw' with h1
      injection h1 with h2
      exact h2.symm
    | some ev =>
      exfalso
      rw [removeEvent_of_find hh hf] at hw'
      cases hown : ev.owner with
      | none => rw [hown] at hw'; cases hw'
      | some o =>
        simp only [hown] at hw'
        cases hw : w.owners o with
        | none => simp only [hw] at hw'; cases hw'
        | some ow =>
          simp only [hw] at hw'
          cases hd : ow.destroying_ <;> simp [hd] at hw'
  refine ⟨⟨fun ⟨w', hw'⟩ => (hthrow w' hw').1, fun hf => ⟨w, removeEvent_of_find_none hh hf⟩⟩,
    fun w' hw' => (hthrow w' hw').2, fun hf => removeEvent_of_find_none hh hf, ?_⟩
  intro ev hf hvalid
  obtain ⟨w', hw', _⟩ := removeEvent_returns hh hf hvalid
  exact ⟨w', hw'⟩

theorem removeEvent_fails_iff_witness :
    ((∃ w', RemoveEvent sampleWorld 0 2 = .error (.outOfRange w')) ↔
      StdMap.find [(1, (⟨some 0, 5, 0⟩ : Event))] 2 = none) ∧
    (∀ w', RemoveEvent sampleWorld 0 2 = .error (.outOfRange w') → w' = sampleWorld) ∧
    (StdMap.find [(1, (⟨some 0, 5, 0⟩ : Event))] 2 = none →
      RemoveEvent sampleWorld 0 2 = .error (.outOfRange sampleWorld)) ∧
    (∀ ev, StdMap.find [(1, (⟨some 0, 5, 0⟩ : Event))] 2 = some ev →
      (∀ o, ev.owner = some o → sampleWorld.owners o ≠ none) →
      ∃ w', RemoveEvent sampleWorld 0 2 = .ok w') :=
  removeEvent_fails_iff sampleWorld 0 { events_ := [(1, ⟨some 0, 5, 0⟩)], lastEvent_ := 1 } 2
    (by simp [sampleWorld])

/-- C6 (as the code behaves): after a successful `RemoveEvent(h)` a second `RemoveEvent(h)`
throws `std::out_of_range`; the state in which it throws is the state the first call left,
so no subscription table and no hook table is changed by the second call. -/
theorem removeEvent_twice_throws (w : World) (self : Nat) (h : EventHandler) (id : Int)
    (ev : Event) (hh : w.handlers self = some h) (hf : h.events_.find id = some ev)
    (hvalid : ∀ o, ev.owner = some o → w.owners o ≠ none) :
    ∃ w1, RemoveEvent w self id = .ok w1 ∧
      RemoveEvent w1 self id = .error (.outOfRange w1) := by
  obtain ⟨w1, hw1, hh1⟩ := removeEvent_returns hh hf hvalid
  exact ⟨w1, hw1, removeEvent_of_find_none hh1 (StdMap.find_erase_self _ _)⟩

theorem removeEvent_twice_throws_witness :
    ∃ w1, RemoveEvent sampleWorld 0 1 = .ok w1 ∧
      RemoveEvent w1 0 1 = .error (.outOfRange w1) :=
  removeEvent_twice_throws sampleWorld 0 { events_ := [(1, ⟨some 0, 5, 0⟩)], lastEvent_ := 1 } 1
    ⟨some 0, 5, 0⟩ (by simp [sampleWorld]) (by simp [StdMap.find])
    (by intro o ho; cases ho; simp [sampleWorld])

/-- C6 fails as stated: with the handle returned by `AddEvent` on a fresh handler, the first
`RemoveEvent` returns and the second one does not return: it throws. -/
theorem removeEvent_twice_counterexample :
    AddEvent freshWorld 0 0 none = .ok (addedWorld, 1) ∧
      RemoveEvent addedWorld 0 1 = .ok removedWorld ∧
      RemoveEvent removedWorld 0 1 = .error (.outOfRange removedWorld) ∧
      ¬ ∃ w3, RemoveEvent removedWorld 0 1 = .ok w3 := by
  have h4 : RemoveEvent removedWorld 0 1 = .error (.outOfRange removedWorld) := rfl
  refine ⟨rfl, rfl, h4, ?_⟩
  rintro ⟨w3, h3⟩
  rw [h4] at h3
  cases h3

/-! ## `~EventHandler` -/

theorem StdMap.find_foldl_erase {β : Type} (ks : List Int) (m : StdMap β) (k : Int) :
    (ks.foldl StdMap.erase m).find k = if k ∈ ks then none else m.find k := by
  induction ks generalizing m with
  | nil => simp
  | cons a t ih =>
    rw [List.foldl_cons, ih, StdMap.find_erase]
    by_cases h1 : k ∈ t
    · simp [h1]
    · by_cases h2 : k = a
      · simp [h2]
      · simp [h1, h2]

theorem StdMap.foldl_erase_sublist {β : Type} (ks : List Int) (m : StdMap β) :
    List.Sublist (ks.foldl StdMap.erase m) m := by
  induction ks generalizing m with
  | nil => exact List.Sublist.refl _
  | cons a t ih => exact (ih _).trans (StdMap.erase_sublist m a)

theorem mem_hookKeys {entries : List (Int × Event)} {p : Nat} {k : Int} :
    k ∈ hookKeys entries p ↔ ∃ id ev, (id, ev) ∈ entries ∧ ev.owner = some p ∧ ev.hook = k := by
  unfold hookKeys
  rw [List.mem_filterMap]
  constructor
  · rintro ⟨⟨id, ev⟩, hmem, h⟩
    by_cases ho : ev.owner = some p
    · simp only [ho, if_true, Option.some.injEq] at h
      exact ⟨id, ev, hmem, ho, h⟩
    · simp [ho] at h
  · rintro ⟨id, ev, hmem, ho, hk⟩
    exact ⟨(id, ev), hmem, by simp [ho, hk]⟩

/-- The loop of `~EventHandler` returns when every owner pointer in the entries is valid;
it leaves the handlers alone and erases from each owner the hook ids of its entries. -/
theorem dropHooks_spec (entries : List (Int × Event)) :
    ∀ w : World, (∀ id ev p, (id, ev) ∈ entries → ev.owner = some p → w.owners p ≠ none) →
    ∃ w', dropHooks w entries = .ok w' ∧ w'.handlers = w.handlers ∧
      ∀ p, w'.owners p = (w.owners p).map (fun ow =>
        { ow with destroyHooks_ := (hookKeys entries p).foldl StdMap.erase ow.destroyHooks_ }) := by
  induction entries with
  | nil =>
    intro w _
    refine ⟨w, rfl, rfl, fun p => ?_⟩
    cases w.owners p <;> simp [hookKeys]
  | cons e rest ih =>
    obtain ⟨id0, ev0⟩ := e
    intro w hvalid
    cases hown : ev0.owner with
    | none =>
      have hrest : ∀ id ev p, (id, ev) ∈ rest → ev.owner = some p → w.owners p ≠ none :=
        fun id ev p hm => hvalid id ev p (List.mem_cons_of_mem _ hm)
      obtain ⟨w', h1, h2, h3⟩ := ih w hrest
      refine ⟨w', by simp [dropHooks, dropHook, hown, h1], h2, fun p => ?_⟩
      rw [h3 p]
      simp [hookKeys, List.filterMap_cons, hown]
    | some q =>
      cases hq : w.owners q with
      | none => exact absurd hq (hvalid id0 ev0 q (List.mem_cons_self _ _) hown)
      | some oq =>
        have hrest : ∀ id ev p, (id, ev) ∈ rest → ev.owner = some p →
            Function.update w.owners q (some (oq.RemoveDestroyHook ev0.hook)) p ≠ none := by
          intro id ev p hm hp
          by_cases hpq : p = q
          · subst hpq; simp
          · rw [Function.update_noteq hpq]
            exact hvalid id ev p (List.mem_cons_of_mem _ hm) hp
        obtain ⟨w', h1, h2, h3⟩ := ih
          { w with owners := Function.update w.owners q (some (oq.RemoveDestroyHook ev0.hook)) }
          hrest
        refine ⟨w', by simp [dropHooks, dropHook, hown, RemoveDestroyHook, hq, h1], h2,
          fun p => ?_⟩
        rw [h3 p]
        by_cases hpq : p = q
        · subst hpq
          simp [hookKeys, List.filterMap_cons, hown, hq, EventOwner.RemoveDestroyHook]
        · have hne : ¬ q = p := fun e => hpq e.symm
          simp [hookKeys, List.filterMap_cons, hown, hne, Function.update_noteq hpq]

/-- C2: let handler `self` be live with valid owner pointers, and let owner `o` be live, its
hook table and the subscriptions of `self` tied to `o` matching each other (each such
subscription has its `AddEvent` lambda stored under its hook id, and each lambda of `self`
in the table belongs to such a subscription).  Then `~EventHandler` returns, the handler is
gone, and in the hook table of `o` the hook id of every subscription of `self` is absent, no
hook refers to `self` any more, and every hook that is not a lambda of `self` (a lambda of
another handler, or a closure added directly) is still stored under its id; the counter
and the flag of `o` are unchanged. -/
theorem destroyEventHandler_no_dangling_hook (w : World) (self o : Nat) (h : EventHandler)
    (ow : EventOwner) (hh : w.handlers self = some h) (ho : w.owners o = some ow)
    (hvalid : ∀ id ev p, (id, ev) ∈ h.events_ → ev.owner = some p → w.owners p ≠ none)
    (htied : ∀ id ev, (id, ev) ∈ h.events_ → ev.owner = some o →
      ow.destroyHooks_.find ev.hook = some (.removeEvent self id))
    (hback : ∀ k id, ow.destroyHooks_.find k = some (.removeEvent self id) →
      ∃ ev, (id, ev) ∈ h.events_ ∧ ev.owner = some o ∧ ev.hook = k) :
    ∃ w' ow', DestroyEventHandler w self = .ok w' ∧
      w'.handlers self = none ∧
      (∀ c, c ≠ self → w'.handlers c = w.handlers c) ∧
      w'.owners o = some ow' ∧
      ow'.lastEvent_ = ow.lastEvent_ ∧
      ow'.destroying_ = ow.destroying_ ∧
      (∀ id ev, (id, ev) ∈ h.events_ → ev.owner = some o →
        ow'.destroyHooks_.find ev.hook = none) ∧
      (∀ k id, ow'.destroyHooks_.find k ≠ some (.removeEvent self id)) ∧
      (∀ k hook, ow.destroyHooks_.find k = some hook → (∀ id, hook ≠ .removeEvent self id) →
        ow'.destroyHooks_.find k = some hook) := by
  obtain ⟨w1, h1, h2, h3⟩ := dropHooks_spec h.events_ w hvalid
  refine ⟨{ w1 with handlers := Function.update w1.handlers self none },
    { ow with destroyHooks_ := (hookKeys h.events_ o).foldl StdMap.erase ow.destroyHooks_ },
    by simp [DestroyEventHandler, hh, h1], by simp, ?_, by simp [h3 o, ho], rfl, rfl, ?_, ?_, ?_⟩
  · intro c hc
    simp [Function.update_noteq hc, h2]
  · intro id ev hm hown
    rw [StdMap.find_foldl_erase]
    have : ev.hook ∈ hookKeys h.events_ o := mem_hookKeys.mpr ⟨id, ev, hm, hown, rfl⟩
    simp [this]
  · intro k id hk
    simp only [StdMap.find_foldl_erase] at hk
    by_cases hmem : k ∈ hookKeys h.events_ o
    · simp [hmem] at hk
    · simp only [hmem, if_false] at hk
      obtain ⟨ev, hm, hown, hkk⟩ := hback k id hk
      exact hmem (mem_hookKeys.mpr ⟨id, ev, hm, hown, hkk⟩)
  · intro k hook hk hnot
    simp only [StdMap.find_foldl_erase]
    by_cases hmem : k ∈ hookKeys h.events_ o
    · obtain ⟨id, ev, hm, hown, hkk⟩ := mem_hookKeys.mp hmem
      have := htied id ev hm hown
      rw [hkk, hk] at this
      injection this with this
      exact absurd this (hnot id)
    · simp [hmem, hk]

theorem destroyEventHandler_no_dangling_hook_witness :
    ∃ w' ow', DestroyEventHandler sampleWorld 0 = .ok w' ∧
      w'.handlers 0 = none ∧
      w'.owners 0 = some ow' ∧
      ow'.destroyHooks_.find 0 = none ∧
      (∀ k id, ow'.destroyHooks_.find k ≠ some (.removeEvent 0 id)) ∧
      ow'.destroyHooks_.find 1 = some (.closure 7) := by
  obtain ⟨w', ow', h1, h2, _, h3, _, _, h4, h5, h6⟩ :=
    destroyEventHandler_no_dangling_hook sampleWorld 0 0
      { events_ := [(1, ⟨some 0, 5, 0⟩)], lastEvent_ := 1 } sampleOwner
      (by simp [sampleWorld]) (by simp [sampleWorld])
      (by
        intro id ev p hm hp
        simp only [List.mem_singleton, Prod.mk.injEq] at hm
        obtain ⟨_, rfl⟩ := hm
        cases hp
        simp [sampleWorld])
      (by
        intro id ev hm _
        simp only [List.mem_singleton, Prod.mk.injEq] at hm
        obtain ⟨rfl, rfl⟩ := hm
        simp [sampleOwner, StdMap.find])
      (by
        intro k id hk
        refine ⟨⟨some 0, 5, 0⟩, ?_, rfl, ?_⟩
        · by_cases h0 : k = 0
          · subst h0
            simp [sampleOwner, StdMap.find] at hk
            simp [hk]
          · have h0' : ¬ (0 : Int) = k := fun e => h0 e.symm
            by_cases h1 : (1 : Int) = k
            · simp [sampleOwner, StdMap.find, h0', h1] at hk
            · simp [sampleOwner, StdMap.find, h0', h1] at hk
        · by_cases h0 : k = 0
          · exact h0.symm
          · have h0' : ¬ (0 : Int) = k := fun e => h0 e.symm
            by_cases h1 : (1 : Int) = k
            · simp [sampleOwner, StdMap.find, h0', h1] at hk
            · simp [sampleOwner, StdMap.find, h0', h1] at hk)
  exact ⟨w', ow', h1, h2, h3, h4 1 ⟨some 0, 5, 0⟩ (by simp) rfl, h5,
    h6 1 (.closure 7) (by simp [sampleOwner, StdMap.find]) (by intro id hc; cases hc)⟩

/-! ## The loop over a live map -/

namespace StdMap

variable {β : Type}

theorem above_mono (m : StdMap β) {k k' : Int} (h : k ≤ k') : m.above k' ≤ m.above k := by
  induction m with
  | nil => simp [above]
  | cons e t ih =>
    unfold above at ih ⊢
    by_cases h1 : k' < e.1
    · have h2 : k < e.1 := lt_of_le_of_lt h h1
      simp only [List.filter_cons, h1, h2, decide_True, if_true, List.length_cons]
      omega
    · by_cases h2 : k < e.1
      · simp only [List.filter_cons, h1, h2, decide_True, decide_False, if_true,
          List.length_cons]
        simp only [Bool.false_eq_true, if_false]
        omega
      · simp only [List.filter_cons, h1, h2, decide_False]
        simpa using ih

theorem above_lt (m : StdMap β) {k k' : Int} {v : β} (hm : (k', v) ∈ m) (h : k < k') :
    m.above k' < m.above k := by
  induction m with
  | nil => simp at hm
  | cons e t ih =>
    have hmono := above_mono t (le_of_lt h)
    unfold above at ih hmono ⊢
    rcases List.mem_cons.mp hm with h1 | h1
    · subst h1
      simp only [List.filter_cons, lt_irrefl, h, decide_True, decide_False, if_true,
        List.length_cons]
      simp only [Bool.false_eq_true, if_false]
      omega
    · have ih' := ih h1
      by_cases h2 : k' < e.1
      · have h3 : k < e.1 := lt_trans h h2
        simp only [List.filter_cons, h2, h3, decide_True, if_true, List.length_cons]
        omega
      · by_cases h3 : k < e.1
        · simp only [List.filter_cons, h2, h3, decide_True, decide_False, if_true,
            List.length_cons]
          simp only [Bool.false_eq_true, if_false]
          omega
        · simp only [List.filter_cons, h2, h3, decide_False]
          simpa using ih'

theorem next_some {m : StdMap β} {k k' : Int} {v' : β} (h : m.next k = some (k', v')) :
    k < k' ∧ (k', v') ∈ m := by
  unfold next at h
  have h1 := List.find?_some h
  have h2 := List.mem_of_find?_eq_some h
  exact ⟨by simpa using h1, h2⟩

theorem Sorted.next_of_split {m done rest : StdMap β} {k : Int} {v : β} (hs : m.Sorted)
    (hm : done ++ (k, v) :: rest = m) : m.next k = rest.head? := by
  subst hm
  induction done with
  | nil =>
    have hs' := List.pairwise_cons.mp hs
    cases rest with
    | nil => simp [next]
    | cons e r =>
      have : k < e.1 := hs'.1 e (List.mem_cons_self _ _)
      simp [next, this]
  | cons e d ih =>
    have hs' := List.pairwise_cons.mp hs
    have hlt : e.1 < k := hs'.1 (k, v) (by simp)
    have hnot : ¬ k < e.1 := not_lt.mpr (le_of_lt hlt)
    have := ih hs'.2
    unfold next at this ⊢
    simpa [hnot] using this

theorem Sorted.find_of_split {m done rest : StdMap β} {k : Int} {v : β} (hs : m.Sorted)
    (hm : done ++ (k, v) :: rest = m) : m.find k = some v :=
  hs.find_of_mem (by subst hm; simp)

end StdMap

namespace StdMap

variable {β : Type}

theorem next_none {m : StdMap β} {k : Int} (h : m.next k = none) : ∀ e ∈ m, e.1 ≤ k := by
  intro e he
  unfold next at h
  have := List.find?_eq_none.mp h e he
  simpa using this

theorem Sorted.next_gap {m : StdMap β} (hs : m.Sorted) {k k' : Int} {v' : β}
    (h : m.next k = some (k', v')) : ∀ e ∈ m, e.1 < k' → e.1 ≤ k := by
  induction m with
  | nil => simp
  | cons a t ih =>
    have hs' := List.pairwise_cons.mp hs
    intro e he hlt
    by_cases ha : k < a.1
    · have h1 : next (a :: t) k = some a := by simp [next, ha]
      rw [h1] at h
      injection h with h
      rcases List.mem_cons.mp he with h2 | h2
      · subst h2; rw [h] at hlt; exact absurd hlt (lt_irrefl _)
      · have := hs'.1 e h2
        rw [h] at this
        exact absurd hlt (not_lt.mpr (le_of_lt this))
    · have h1 : next (a :: t) k = next t k := by simp [next, ha]
      rw [h1] at h
      rcases List.mem_cons.mp he with h2 | h2
      · subst h2; exact not_lt.mp ha
      · exact ih hs'.2 h e h2 hlt

theorem Sorted.eq_of_mem {m : StdMap β} (hs : m.Sorted) {k : Int} {v v' : β}
    (h : (k, v) ∈ m) (h' : (k, v') ∈ m) : v = v' := by
  have h1 := hs.find_of_mem h
  have h2 := hs.find_of_mem h'
  rw [h1] at h2
  injection h2

end StdMap

/-- The entries that `rangeFor` reports as visited are those of the calls it makes. -/
theorem rangeFor_log_calls {β : Type} (tbl : World → Option (StdMap β))
    (body : Int → β → World → Except Fault World) :
    ∀ fuel k w w' log, rangeFor tbl body fuel k w = .ok (w', log) →
      log = visited (rangeForCalls tbl body fuel k w) := by
  intro fuel
  induction fuel with
  | zero => intro k w w' log h; simp [rangeFor] at h
  | succ f ih =>
    intro k w w' log h
    unfold rangeFor at h
    unfold rangeForCalls
    cases h1 : (tbl w).bind (fun m => m.find k) with
    | none => simp [h1] at h
    | some v =>
      simp only [h1] at h ⊢
      cases h2 : body k v w with
      | error e => simp [h2] at h
      | ok w1 =>
        simp only [h2] at h ⊢
        cases h3 : tbl w1 with
        | none => simp [h3] at h
        | some m1 =>
          simp only [h3] at h ⊢
          cases h4 : m1.find k with
          | none => simp [h4] at h
          | some x =>
            simp only [h4] at h ⊢
            cases h5 : m1.next k with
            | none =>
              simp only [h5, Except.ok.injEq, Prod.mk.injEq] at h ⊢
              rw [← h.2]
              rfl
            | some e =>
              obtain ⟨k', v'⟩ := e
              simp only [h5] at h ⊢
              cases h6 : rangeFor tbl body f k' w1 with
              | error e => simp [h6] at h
              | ok r =>
                obtain ⟨w2, log2⟩ := r
                simp only [h6, Except.ok.injEq, Prod.mk.injEq] at h
                rw [← h.2, ih k' w1 w2 log2 h6]
                rfl

/-- The first call of the loop is made at the iterator's key in the state in which the loop
starts, and each further call in the state that the call before it returned. -/
theorem rangeForCalls_chain {β : Type} (tbl : World → Option (StdMap β))
    (body : Int → β → World → Except Fault World) :
    ∀ fuel k w,
      (∀ c ∈ (rangeForCalls tbl body fuel k w).head?, c.1 = k ∧ c.2.2 = w) ∧
      List.Chain' (fun c c' => body c.1 c.2.1 c.2.2 = .ok c'.2.2)
        (rangeForCalls tbl body fuel k w) := by
  intro fuel
  induction fuel with
  | zero => intro k w; simp [rangeForCalls]
  | succ f ih =>
    intro k w
    unfold rangeForCalls
    cases h1 : (tbl w).bind (fun m => m.find k) with
    | none => simp
    | some v =>
      refine ⟨by simp, ?_⟩
      simp only
      rw [List.chain'_cons']
      cases h2 : body k v w with
      | error e => simp
      | ok w1 =>
        cases h3 : tbl w1 with
        | none => simp [h3]
        | some m1 =>
          cases h4 : m1.find k with
          | none => simp [h3, h4]
          | some x =>
            cases h5 : m1.next k with
            | none => simp [h3, h4, h5]
            | some e =>
              obtain ⟨k', v'⟩ := e
              simp only [h3, h4, h5]
              obtain ⟨ha, hb⟩ := ih k' w1
              exact ⟨fun c hc => by rw [(ha c hc).2], hb⟩

/-- Invariant rule for the loop over a live map.  `Pre acc k w` holds when the iterator is
at key `k` after the calls `acc`, `Post acc w` when the loop has ended; `μ` bounds the
number of iterations left; `P` is what is known of the calls that the loop makes. -/
theorem rangeFor_calls_inv {β : Type} (tbl : World → Option (StdMap β))
    (body : Int → β → World → Except Fault World) (μ : Int → Nat)
    (P : Int × β × World → Prop)
    (Pre : List (Int × β × World) → Int → World → Prop)
    (Post : List (Int × β × World) → World → Prop)
    (hstep : ∀ acc k w, Pre acc k w →
      ∃ v, (tbl w).bind (fun m => m.find k) = some v ∧
        (P (k, v, w) → ∃ w1 m1, body k v w = .ok w1 ∧ tbl w1 = some m1 ∧ m1.find k ≠ none ∧
          (∀ k' v', m1.next k = some (k', v') → μ k' < μ k ∧ Pre (acc ++ [(k, v, w)]) k' w1) ∧
          (m1.next k = none → Post (acc ++ [(k, v, w)]) w1))) :
    ∀ fuel acc k w, Pre acc k w → μ k < fuel →
      (∀ c ∈ rangeForCalls tbl body fuel k w, P c) →
      ∃ w', rangeFor tbl body fuel k w =
          .ok (w', visited (rangeForCalls tbl body fuel k w)) ∧
        Post (acc ++ rangeForCalls tbl body fuel k w) w' := by
  intro fuel
  induction fuel with
  | zero => intro acc k w _ h; exact absurd h (Nat.not_lt_zero _)
  | succ f ih =>
    intro acc k w hpre hfuel hP
    obtain ⟨v, h1, hrest⟩ := hstep acc k w hpre
    have hcalls0 : (k, v, w) ∈ rangeForCalls tbl body (f + 1) k w := by
      simp [rangeForCalls, h1]
    obtain ⟨w1, m1, h2, h3, h4, h6, h7⟩ := hrest (hP _ hcalls0)
    obtain ⟨x, hx⟩ := Option.ne_none_iff_exists'.mp h4
    cases hn : m1.next k with
    | none =>
      have hc : rangeForCalls tbl body (f + 1) k w = [(k, v, w)] := by
        simp [rangeForCalls, h1, h2, h3, hx, hn]
      refine ⟨w1, ?_, ?_⟩
      · rw [hc]; simp [rangeFor, h1, h2, h3, hx, hn, visited]
      · rw [hc]; exact h7 hn
    | some e =>
      obtain ⟨k', v'⟩ := e
      have hc : rangeForCalls tbl body (f + 1) k w =
          (k, v, w) :: rangeForCalls tbl body f k' w1 := by
        simp [rangeForCalls, h1, h2, h3, hx, hn]
      obtain ⟨hμ, hpre'⟩ := h6 k' v' hn
      obtain ⟨w', hr, hpost⟩ := ih (acc ++ [(k, v, w)]) k' w1 hpre' (by omega)
        (fun c hc' => hP c (by rw [hc]; exact List.mem_cons_of_mem _ hc'))
      refine ⟨w', ?_, ?_⟩
      · rw [hc]; simp [rangeFor, h1, h2, h3, hx, hn, hr, visited]
      · rw [hc]; simpa using hpost

/-- An element of a list without duplicates occurs in it exactly once. -/
theorem count_eq_one_of_nodup {α : Type} [BEq α] [LawfulBEq α] {l : List α} (hn : l.Nodup)
    {e : α} (he : e ∈ l) : l.count e = 1 := by
  induction l with
  | nil => simp at he
  | cons a t ih =>
    obtain ⟨hat, ht⟩ := List.nodup_cons.mp hn
    rw [List.count_cons]
    rcases List.mem_cons.mp he with h | h
    · subst h
      simp [List.count_eq_zero_of_not_mem hat]
    · have hne : ¬ a = e := fun heq => hat (heq ▸ h)
      simp [ih ht h, hne]

/-- The entries that `rangeForAll` reports as visited are those of the calls it makes. -/
theorem rangeForAll_log_calls {β : Type} (tbl : World → Option (StdMap β))
    (body : Int → β → World → Except Fault World) (fuel : Nat) (w w' : World)
    (log : List (Int × β)) (h : rangeForAll tbl body fuel w = .ok (w', log)) :
    log = visited (rangeForAllCalls tbl body fuel w) := by
  unfold rangeForAll at h
  unfold rangeForAllCalls
  cases h1 : tbl w with
  | none => simp [h1] at h
  | some m =>
    simp only [h1] at h ⊢
    cases h2 : m.first with
    | none =>
      simp only [h2, Except.ok.injEq, Prod.mk.injEq] at h ⊢
      rw [← h.2]
      rfl
    | some e =>
      obtain ⟨k, v⟩ := e
      simp only [h2] at h ⊢
      exact rangeFor_log_calls tbl body fuel k w w' log h

/-- The hooks that `~EventOwner` reports as invoked are those of `DestroyEventOwnerCalls`. -/
theorem destroyEventOwner_log_calls {Args : Type} (cl : Closures Args) (fuel : Nat)
    (w w' : World) (self : Nat) (log : List (Int × Hook))
    (h : DestroyEventOwner cl fuel w self = .ok (w', log)) :
    log = visited (DestroyEventOwnerCalls cl fuel w self) := by
  unfold DestroyEventOwner at h
  unfold DestroyEventOwnerCalls
  cases h1 : w.owners self with
  | none => simp [h1] at h
  | some o =>
    simp only [h1] at h ⊢
    cases h2 : rangeForAll (hooksOf self) (fun _ hook w1 => callHook cl hook w1) fuel
        (markDestroying w self o) with
    | error e =>
      rw [h2] at h
      cases e <;> simp at h
    | ok r =>
      obtain ⟨w1, log1⟩ := r
      rw [h2] at h
      simp only [Except.ok.injEq, Prod.mk.injEq] at h
      rw [← h.2]
      exact rangeForAll_log_calls _ _ fuel _ w1 log1 h2

/-- The subscriptions that `Activate` reports as invoked are those of `ActivateCalls`. -/
theorem activate_log_calls {Args : Type} (cl : Closures Args) (fuel : Nat)
    (w w' : World) (self : Nat) (args : Args) (log : List (Int × Event))
    (h : Activate cl fuel w self args = .ok (w', log)) :
    log = visited (ActivateCalls cl fuel w self args) := by
  unfold Activate at h
  unfold ActivateCalls
  cases h1 : w.handlers self with
  | none => simp [h1] at h
  | some hd =>
    simp only [h1] at h ⊢
    exact rangeForAll_log_calls _ _ fuel w w' log h

/-! ## `~EventOwner` with subscriptions tied to the owner -/

theorem ownerSweep_step {Args : Type} (cl : Closures Args) (H0 : Nat → Option EventHandler)
    (o : Nat) (owd : EventOwner) (hd : owd.destroying_ = true) (hs : owd.destroyHooks_.Sorted)
    (hback : ∀ k c id, (k, Hook.removeEvent c id) ∈ owd.destroyHooks_ →
      ∃ hc ev, H0 c = some hc ∧ hc.events_.find id = some ev ∧
        ev.owner = some o ∧ ev.hook = k)
    (acc : List (Int × Hook × World)) (k : Int) (w : World)
    (hpre : ∃ v rest, visited acc ++ (k, v) :: rest = owd.destroyHooks_ ∧
      OwnerSweepInv H0 o owd (visited acc) ((k, v) :: rest) w) :
    ∃ v, (hooksOf o w).bind (fun m => m.find k) = some v ∧
      ((∀ n, v = Hook.closure n → ∃ w2, cl.hook n w = .ok w2 ∧ w2.owners o = w.owners o ∧
          ∀ c hc, H0 c = some hc → (∃ id ev, hc.events_.find id = some ev ∧ ev.owner = some o) →
            w2.handlers c = w.handlers c) →
        ∃ w1 m1, callHook cl v w = .ok w1 ∧ hooksOf o w1 = some m1 ∧ m1.find k ≠ none ∧
          (∀ k' v', m1.next k = some (k', v') →
            owd.destroyHooks_.above k' < owd.destroyHooks_.above k ∧
            ∃ u r, visited (acc ++ [(k, v, w)]) ++ (k', u) :: r = owd.destroyHooks_ ∧
              OwnerSweepInv H0 o owd (visited (acc ++ [(k, v, w)])) ((k', u) :: r) w1) ∧
          (m1.next k = none → visited (acc ++ [(k, v, w)]) = owd.destroyHooks_ ∧
            OwnerSweepInv H0 o owd (visited (acc ++ [(k, v, w)])) [] w1)) := by
  obtain ⟨v, rest, hT, ho, hch⟩ := hpre
  have hvT : (k, v) ∈ owd.destroyHooks_ := by rw [← hT]; simp
  have hfind := hs.find_of_split hT
  have hnext := hs.next_of_split hT
  have hlt : ∀ e ∈ rest, k < e.1 := by
    intro e hm
    have h1 : StdMap.Sorted (visited acc ++ (k, v) :: rest) := by rw [hT]; exact hs
    have h2 := (List.pairwise_append.mp h1).2.1
    exact (List.pairwise_cons.mp h2).1 _ hm
  have hvis : visited (acc ++ [(k, v, w)]) = visited acc ++ [(k, v)] := by simp [visited]
  refine ⟨v, by simp [hooksOf, ho, hfind], ?_⟩
  intro hP
  -- the state after the call, with the owner as it was and the invariant moved on by one hook
  have hmove : ∀ w1, callHook cl v w = .ok w1 → w1.owners o = some owd →
      OwnerSweepInv H0 o owd (visited acc ++ [(k, v)]) rest w1 →
      ∃ w1 m1, callHook cl v w = .ok w1 ∧ hooksOf o w1 = some m1 ∧ m1.find k ≠ none ∧
        (∀ k' v', m1.next k = some (k', v') →
          owd.destroyHooks_.above k' < owd.destroyHooks_.above k ∧
          ∃ u r, visited (acc ++ [(k, v, w)]) ++ (k', u) :: r = owd.destroyHooks_ ∧
            OwnerSweepInv H0 o owd (visited (acc ++ [(k, v, w)])) ((k', u) :: r) w1) ∧
        (m1.next k = none → visited (acc ++ [(k, v, w)]) = owd.destroyHooks_ ∧
          OwnerSweepInv H0 o owd (visited (acc ++ [(k, v, w)])) [] w1) := by
    intro w1 hcall ho1 hinv
    refine ⟨w1, owd.destroyHooks_, hcall, by simp [hooksOf, ho1], by simp [hfind], ?_, ?_⟩
    · intro k' v' hn
      have hk := StdMap.next_some hn
      rw [hnext] at hn
      obtain ⟨rest', hrest⟩ : ∃ rest', rest = (k', v') :: rest' := by
        cases rest with
        | nil => simp at hn
        | cons a r => simp only [List.head?_cons, Option.some.injEq] at hn; exact ⟨r, by rw [hn]⟩
      refine ⟨StdMap.above_lt _ hk.2 hk.1, v', rest', ?_, ?_⟩
      · rw [hvis, ← hT, hrest]; simp
      · rw [hvis, ← hrest]; exact hinv
    · intro hn
      rw [hnext] at hn
      have hrest : rest = [] := by
        cases rest with
        | nil => rfl
        | cons a r => simp at hn
      refine ⟨by rw [hvis, ← hT, hrest], ?_⟩
      rw [hvis]
      rw [hrest] at hinv
      exact hinv
  cases v with
  | removeEvent c id =>
    obtain ⟨hc, ev, hH0, hfindc, hown, hhook⟩ := hback k c id hvT
    obtain ⟨hc', hhc', hlast', hsub', hpend', hdone'⟩ := hch c hc hH0 ⟨id, ev, hfindc, hown⟩
    have hfind' : hc'.events_.find id = some ev :=
      hpend' id ev hfindc (fun _ => by rw [hhook]; exact List.mem_cons_self _ _)
    have hr := removeEvent_of_find hhc' hfind'
    simp only [hown, ho, hd, if_true] at hr
    refine hmove _ hr ho ⟨ho, ?_⟩
    intro c2 hc2 hH2 htied2
    obtain ⟨hc2', hhc2', hlast2, hsub2, hpend2, hdone2⟩ := hch c2 hc2 hH2 htied2
    by_cases hcc : c2 = c
    · subst hcc
      rw [hH0] at hH2; cases hH2
      rw [hhc'] at hhc2'; cases hhc2'
      refine ⟨{ hc' with events_ := hc'.events_.erase id }, by simp, hlast',
        (StdMap.erase_sublist _ _).trans hsub', ?_, ?_⟩
      · intro id2 ev2 hf2 hp2
        have hne : id2 ≠ id := by
          intro hid
          subst hid
          rw [hfindc] at hf2; cases hf2
          have := hlt _ (hp2 hown)
          simp only at this
          omega
        simp only [StdMap.find_erase_ne _ hne]
        exact hpend' id2 ev2 hf2 (fun h => List.mem_cons_of_mem _ (hp2 h))
      · intro id2 ev2 hf2 ho2 hm2
        simp only [StdMap.find_erase]
        split
        · rfl
        · rename_i hne
          rcases List.mem_append.mp hm2 with h | h
          · exact hdone' id2 ev2 hf2 ho2 h
          · simp only [List.mem_singleton, Prod.mk.injEq, Hook.removeEvent.injEq] at h
            exact absurd h.2.2 hne
    · refine ⟨hc2', by simpa [Function.update_noteq hcc] using hhc2', hlast2, hsub2, ?_, ?_⟩
      · intro id2 ev2 hf2 hp2
        exact hpend2 id2 ev2 hf2 (fun h => List.mem_cons_of_mem _ (hp2 h))
      · intro id2 ev2 hf2 ho2 hm2
        rcases List.mem_append.mp hm2 with h | h
        · exact hdone2 id2 ev2 hf2 ho2 h
        · simp only [List.mem_singleton, Prod.mk.injEq, Hook.removeEvent.injEq] at h
          exact absurd h.2.1 hcc
  | closure n =>
    obtain ⟨w2, h1, h2, h3⟩ := hP n rfl
    refine hmove w2 h1 (by rw [h2]; exact ho) ⟨by rw [h2]; exact ho, ?_⟩
    intro c2 hc2 hH2 htied2
    obtain ⟨hc2', hhc2', hlast2, hsub2, hpend2, hdone2⟩ := hch c2 hc2 hH2 htied2
    refine ⟨hc2', by rw [h3 c2 hc2 hH2 htied2]; exact hhc2', hlast2, hsub2, ?_, ?_⟩
    · intro id2 ev2 hf2 hp2
      exact hpend2 id2 ev2 hf2 (fun h => List.mem_cons_of_mem _ (hp2 h))
    · intro id2 ev2 hf2 ho2 hm2
      rcases List.mem_append.mp hm2 with h | h
      · exact hdone2 id2 ev2 hf2 ho2 h
      · simp at h

/-- C1 (with the condition it needs): let owner `o` be live with a well-formed hook table
that is linked to the subscriptions as `AddEvent` leaves it: every subscription tied to `o`
has its lambda in the table under the hook id it recorded, and every lambda in the table
belongs to a current subscription of a live handler, tied to `o` under that hook id.  Let
every other hook, when the loop of `~EventOwner` invokes it, return and leave `o` and the
channels subscribed with `o` as they are.  Then `~EventOwner` returns (given as much fuel as
there are hooks), has invoked every hook of the table once, in key order (`log`), and the
owner is gone.  For every subscription `S` tied to `o`, of any channel: its lambda was
invoked exactly once, the channel is still live, the handle of `S` is not a key of its
`events_` any more, and the channel has lost nothing else: its counter is kept, its table
only lost entries, and every subscription not tied to `o` is still there. -/
theorem destroyEventOwner_removes_subscriptions {Args : Type} (cl : Closures Args) (w : World)
    (o : Nat) (ow : EventOwner) (ho : w.owners o = some ow) (hs : ow.destroyHooks_.Sorted)
    (htied : ∀ c hc id ev, w.handlers c = some hc → hc.events_.find id = some ev →
      ev.owner = some o → (ev.hook, Hook.removeEvent c id) ∈ ow.destroyHooks_)
    (hback : ∀ k c id, (k, Hook.removeEvent c id) ∈ ow.destroyHooks_ →
      ∃ hc ev, w.handlers c = some hc ∧ hc.events_.find id = some ev ∧
        ev.owner = some o ∧ ev.hook = k)
    (fuel : Nat) (hfuel : ow.destroyHooks_.length ≤ fuel)
    (hcl : ∀ call ∈ DestroyEventOwnerCalls cl fuel w o, ∀ n, call.2.1 = Hook.closure n →
      ∃ w2, cl.hook n call.2.2 = .ok w2 ∧ w2.owners o = call.2.2.owners o ∧
        ∀ c, Tied w o c → w2.handlers c = call.2.2.handlers c) :
    ∃ w' log, DestroyEventOwner cl fuel w o = .ok (w', log) ∧
      log = visited (DestroyEventOwnerCalls cl fuel w o) ∧ log = ow.destroyHooks_ ∧
      w'.owners o = none ∧
      ∀ c hc id ev, w.handlers c = some hc → hc.events_.find id = some ev →
        ev.owner = some o →
        List.count (ev.hook, Hook.removeEvent c id) log = 1 ∧
        ∃ hc', w'.handlers c = some hc' ∧ hc'.events_.find id = none ∧
          hc'.lastEvent_ = hc.lastEvent_ ∧ List.Sublist hc'.events_ hc.events_ ∧
          ∀ id' ev', hc.events_.find id' = some ev' → ev'.owner ≠ some o →
            hc'.events_.find id' = some ev' := by
  have hnodup : ow.destroyHooks_.Nodup :=
    List.Pairwise.imp (fun h => by intro heq; rw [heq] at h; exact lt_irrefl _ h) hs
  have hcases : ow.destroyHooks_ = [] ∨ ∃ k v rest, ow.destroyHooks_ = (k, v) :: rest := by
    cases ow.destroyHooks_ with
    | nil => exact Or.inl rfl
    | cons e rest => exact Or.inr ⟨e.1, e.2, rest, rfl⟩
  rcases hcases with hT | ⟨k, v, rest, hT⟩
  · have hall : rangeForAll (hooksOf o) (fun _ hook w2 => callHook cl hook w2) fuel
        (markDestroying w o ow) = .ok (markDestroying w o ow, []) := by
      simp [rangeForAll, hooksOf, hT, StdMap.first, markDestroying]
    have hcalls : DestroyEventOwnerCalls cl fuel w o = [] := by
      simp [DestroyEventOwnerCalls, ho, rangeForAllCalls, hooksOf, hT, StdMap.first,
        markDestroying]
    refine ⟨{ (markDestroying w o ow) with
        owners := Function.update (markDestroying w o ow).owners o none }, ow.destroyHooks_,
      by simp only [DestroyEventOwner, ho, hall, hT], by simp [hcalls, visited, hT], rfl,
      by simp, ?_⟩
    intro c hc id ev hhc hf hown
    have := htied c hc id ev hhc hf hown
    rw [hT] at this
    simp at this
  · have hfirst : hooksOf o (markDestroying w o ow) = some ((k, v) :: rest) := by
      simp [hooksOf, markDestroying, hT]
    have hcalls : DestroyEventOwnerCalls cl fuel w o =
        rangeForCalls (hooksOf o) (fun _ hook w1 => callHook cl hook w1) fuel k
          (markDestroying w o ow) := by
      simp only [DestroyEventOwnerCalls, ho, rangeForAllCalls, hfirst, StdMap.first,
        List.head?_cons]
    have hinit : OwnerSweepInv w.handlers o { ow with destroying_ := true } []
        ow.destroyHooks_ (markDestroying w o ow) := by
      refine ⟨by simp [markDestroying], ?_⟩
      intro c hc hhc _
      exact ⟨hc, hhc, rfl, List.Sublist.refl _, fun id ev hf _ => hf,
        fun id ev _ _ hm => by simp at hm⟩
    have hab : StdMap.above ow.destroyHooks_ k < fuel := by
      have : StdMap.above ow.destroyHooks_ k ≤ rest.length := by
        unfold StdMap.above
        rw [hT]
        simp only [List.filter_cons, lt_irrefl, decide_False]
        exact List.length_filter_le _ _
      rw [hT] at hfuel
      simp only [List.length_cons] at hfuel
      omega
    obtain ⟨w1, hr, hlog, ho1, hch⟩ :=
      rangeFor_calls_inv (hooksOf o) (fun _ hook w2 => callHook cl hook w2)
        (fun k => StdMap.above ow.destroyHooks_ k)
        (fun call => ∀ n, call.2.1 = Hook.closure n →
          ∃ w2, cl.hook n call.2.2 = .ok w2 ∧ w2.owners o = call.2.2.owners o ∧
            ∀ c hc, w.handlers c = some hc →
              (∃ id ev, hc.events_.find id = some ev ∧ ev.owner = some o) →
              w2.handlers c = call.2.2.handlers c)
        (fun acc k w2 => ∃ v rest, visited acc ++ (k, v) :: rest = ow.destroyHooks_ ∧
          OwnerSweepInv w.handlers o { ow with destroying_ := true } (visited acc)
            ((k, v) :: rest) w2)
        (fun acc w2 => visited acc = ow.destroyHooks_ ∧
          OwnerSweepInv w.handlers o { ow with destroying_ := true } (visited acc) [] w2)
        (fun acc k w2 hp =>
          ownerSweep_step cl w.handlers o { ow with destroying_ := true } rfl hs hback acc k w2 hp)
        fuel [] k _ ⟨v, rest, by simp [visited, hT], by rw [← hT]; exact hinit⟩ hab
        (by
          intro call hcall n hn
          obtain ⟨w2, h1, h2, h3⟩ := hcl call (by rw [hcalls]; exact hcall) n hn
          exact ⟨w2, h1, h2, fun c hc hhc ⟨id, ev, hf, hown⟩ => h3 c ⟨hc, id, ev, hhc, hf, hown⟩⟩)
    rw [← hcalls] at hr hlog hch
    simp only [List.nil_append] at hlog ho1 hch
    have hall : rangeForAll (hooksOf o) (fun _ hook w2 => callHook cl hook w2) fuel
        (markDestroying w o ow) = .ok (w1, ow.destroyHooks_) := by
      simp only [rangeForAll, hfirst, StdMap.first, List.head?_cons]
      rw [hr, hlog]
    refine ⟨{ w1 with owners := Function.update w1.owners o none }, ow.destroyHooks_,
      by simp only [DestroyEventOwner, ho, hall], hlog.symm, rfl, by simp, ?_⟩
    intro c hc id ev hhc hf hown
    have hlam := htied c hc id ev hhc hf hown
    obtain ⟨hc', hhc', hlast, hsub, hpend, hdone⟩ := hch c hc hhc ⟨id, ev, hf, hown⟩
    refine ⟨count_eq_one_of_nodup hnodup hlam, hc', hhc',
      hdone id ev hf hown (by rw [hlog]; exact hlam), hlast, hsub, ?_⟩
    intro id' ev' hf' hown'
    exact hpend id' ev' hf' (fun h => absurd h hown')

/-- C1 fails as stated: a hook is added to the owner with `AddDestroyHook`, then a
subscription `S` is added to the channel with `AddEvent(callback, O)`.  If the hook calls
`RemoveEvent` on the handle of `S`, then in `~EventOwner` the lambda that `AddEvent`
installed throws `std::out_of_range` from `events_.at`, and the destructor never returns.
If the hook calls `RemoveDestroyHook` with the id 1 on the owner, the lambda is never
invoked: the destructor returns and `S` is still in the table of the live channel. -/
theorem destroyEventOwner_removes_subscriptions_counterexample :
    AddDestroyHook linkWorld 0 (.closure 0) = .ok (hookedWorld, 0) ∧
    AddEvent hookedWorld 0 5 (some 0) = .ok (subscribedWorld, 1) ∧
    eventsOf 0 subscribedWorld = some [(1, ⟨some 0, 5, 1⟩)] ∧
    (∀ fuel, DestroyEventOwner unsubscribingClosures (fuel + 2) subscribedWorld 0 =
      .error .terminate) ∧
    (∀ fuel w' log,
      DestroyEventOwner unsubscribingClosures fuel subscribedWorld 0 ≠ .ok (w', log)) ∧
    (∃ w', DestroyEventOwner removerClosures 2 subscribedWorld 0 = .ok (w', [(0, .closure 0)]) ∧
      eventsOf 0 w' = some [(1, ⟨some 0, 5, 1⟩)]) := by
  refine ⟨rfl, rfl, rfl, fun _ => rfl, ?_, ⟨_, rfl, rfl⟩⟩
  intro fuel w' log h
  rcases fuel with _ | _ | n
  · have h0 : DestroyEventOwner unsubscribingClosures 0 subscribedWorld 0 = .error .fuel := rfl
    rw [h0] at h
    cases h
  · have h1 : DestroyEventOwner unsubscribingClosures 1 subscribedWorld 0 = .error .fuel := rfl
    rw [h1] at h
    cases h
  · have h2 : DestroyEventOwner unsubscribingClosures (n + 2) subscribedWorld 0 =
        .error .terminate := rfl
    rw [h2] at h
    cases h

theorem destroyEventOwner_removes_subscriptions_witness :
    AddDestroyHook linkWorld 0 (.closure 0) = .ok (hookedWorld, 0) ∧
    AddEvent hookedWorld 0 5 (some 0) = .ok (subscribedWorld, 1) ∧
    ∃ w' log, DestroyEventOwner idleClosures 2 subscribedWorld 0 = .ok (w', log) ∧
      log = [(0, .closure 0), (1, .removeEvent 0 1)] ∧
      List.count (1, Hook.removeEvent 0 1) log = 1 ∧
      w'.owners 0 = none ∧
      ∃ hc', w'.handlers 0 = some hc' ∧ hc'.events_.find 1 = none := by
  obtain ⟨w', log, h1, _, h2, h3, h4⟩ :=
    destroyEventOwner_removes_subscriptions idleClosures subscribedWorld 0
      ⟨[(0, .closure 0), (1, .removeEvent 0 1)], 2, false⟩ rfl
      (by simp [StdMap.Sorted])
      (by
        intro c hc id ev hhc hf hown
        by_cases hc0 : c = 0
        · subst hc0
          have e1 : hc = ⟨[(1, ⟨some 0, 5, 1⟩)], 1⟩ := Option.some.inj (hhc.symm.trans rfl)
          subst e1
          by_cases hid : id = 1
          · subst hid
            have e2 : ev = ⟨some 0, 5, 1⟩ := Option.some.inj (hf.symm.trans rfl)
            subst e2
            simp
          · have hid' : ¬ (1 : Int) = id := fun e => hid e.symm
            simp [StdMap.find, hid'] at hf
        · simp [subscribedWorld, hookedWorld, linkWorld, Function.update, hc0] at hhc)
      (by
        intro k c id hm
        simp only [List.mem_cons, Prod.mk.injEq, Hook.removeEvent.injEq, List.mem_singleton,
          reduceCtorEq, and_false, false_or, List.not_mem_nil, or_false] at hm
        obtain ⟨rfl, rfl, rfl⟩ := hm
        exact ⟨⟨[(1, ⟨some 0, 5, 1⟩)], 1⟩, ⟨some 0, 5, 1⟩, rfl, rfl, rfl, rfl⟩)
      2 (by simp)
      (fun call _ n _ => ⟨call.2.2, rfl, rfl, fun _ _ => rfl⟩)
  obtain ⟨e0, hc', e1, e2, _⟩ := h4 0 ⟨[(1, ⟨some 0, 5, 1⟩)], 1⟩ 1 ⟨some 0, 5, 1⟩ rfl rfl rfl
  subst h2
  exact ⟨rfl, rfl, w', _, h1, rfl, e0, h3, hc', e1, e2⟩

/-! ## `~EventOwner` with hooks that remove hooks -/

theorem hookSweep_step {Args : Type} (cl : Closures Args) (o : Nat) (T : StdMap Hook)
    (hs : T.Sorted) (acc : List (Int × Hook × World)) (k : Int) (w : World)
    (hpre : HookSweepPre cl o T acc k w) :
    ∃ v, (hooksOf o w).bind (fun m => m.find k) = some v ∧
      ((∀ ow1, w.owners o = some ow1 →
          ∃ w2 ow2, callHook cl v w = .ok w2 ∧ w2.owners o = some ow2 ∧
            List.Sublist ow2.destroyHooks_ ow1.destroyHooks_ ∧ (k, v) ∈ ow2.destroyHooks_) →
        ∃ w1 m1, callHook cl v w = .ok w1 ∧ hooksOf o w1 = some m1 ∧ m1.find k ≠ none ∧
          (∀ k' v', m1.next k = some (k', v') →
            T.above k' < T.above k ∧ HookSweepPre cl o T (acc ++ [(k, v, w)]) k' w1) ∧
          (m1.next k = none → HookSweepPost cl o T (acc ++ [(k, v, w)]) w1)) := by
  obtain ⟨ow1, ho1, ⟨hsub1, hacc, haccT, hA, hB⟩, ⟨v, hv⟩, hacck, hpassed⟩ := hpre
  have hs1 : StdMap.Sorted ow1.destroyHooks_ := hs.sublist hsub1
  have hvT : (k, v) ∈ T := hsub1.subset hv
  refine ⟨v, by simp [hooksOf, ho1, hs1.find_of_mem hv], ?_⟩
  intro hP
  obtain ⟨w2, ow2, hcall, ho2, hsub2, hv2⟩ := hP ow1 ho1
  have hs2 : StdMap.Sorted ow2.destroyHooks_ := hs1.sublist hsub2
  have hvis : visited (acc ++ [(k, v, w)]) = visited acc ++ [(k, v)] := by
    simp [visited]
  have hinv : HookSweepInv cl o T (acc ++ [(k, v, w)]) ow2.destroyHooks_ := by
    refine ⟨hsub2.trans hsub1, ?_, ?_, ?_, ?_⟩
    · rw [hvis, List.pairwise_append]
      refine ⟨hacc, by simp, ?_⟩
      intro a ha b hb
      simp only [List.mem_singleton] at hb
      subst hb
      exact hacck a ha
    · intro e he
      rw [hvis] at he
      rcases List.mem_append.mp he with h | h
      · exact haccT e h
      · simp only [List.mem_singleton] at h; subst h; exact hvT
    · intro e heT hnot
      rw [hvis]
      by_cases h1 : e ∈ ow1.destroyHooks_
      · rcases lt_trichotomy e.1 k with hlt | heq | hgt
        · exact Or.inl (List.mem_append_left _ (hpassed e h1 hlt))
        · left
          obtain ⟨a, b⟩ := e
          simp only at heq
          subst heq
          have := hs1.eq_of_mem h1 hv
          subst this
          simp
        · right
          exact ⟨(k, v, w), by simp, hgt, ow1, w2, ow2, ho1, hcall, ho2, h1, hnot⟩
      · rcases hA e heT h1 with h | ⟨c, hc, hlt, hu⟩
        · exact Or.inl (List.mem_append_left _ h)
        · exact Or.inr ⟨c, List.mem_append_left _ hc, hlt, hu⟩
    · rintro e ⟨c, hc, hlt, hu⟩
      rw [hvis]
      rcases List.mem_append.mp hc with h | h
      · obtain ⟨h1, h2⟩ := hB e ⟨c, h, hlt, hu⟩
        refine ⟨?_, fun h3 => h2 (hsub2.subset h3)⟩
        intro h3
        rcases List.mem_append.mp h3 with h4 | h4
        · exact h1 h4
        · simp only [List.mem_singleton] at h4
          subst h4
          exact h2 hv
      · simp only [List.mem_singleton] at h
        subst h
        obtain ⟨ow1', w2', ow2', e1, e2, e3, _, e5⟩ := hu
        simp only at e1 e2 hlt
        rw [hcall] at e2
        injection e2 with e2
        subst e2
        rw [ho2] at e3
        injection e3 with e3
        subst e3
        refine ⟨?_, e5⟩
        intro h3
        rcases List.mem_append.mp h3 with h4 | h4
        · have := hacck e h4
          omega
        · simp only [List.mem_singleton] at h4
          subst h4
          simp only at hlt
          omega
  have hcover : ∀ e ∈ ow2.destroyHooks_, e.1 ≤ k → e ∈ visited (acc ++ [(k, v, w)]) := by
    intro e he hle
    rw [hvis]
    rcases lt_or_eq_of_le hle with h | h
    · exact List.mem_append_left _ (hpassed e (hsub2.subset he) h)
    · obtain ⟨a, b⟩ := e
      simp only at h
      subst h
      have := hs2.eq_of_mem he hv2
      subst this
      simp
  refine ⟨w2, ow2.destroyHooks_, hcall, by simp [hooksOf, ho2], by simp [hs2.find_of_mem hv2],
    ?_, ?_⟩
  · intro k' v' hn
    have hk := StdMap.next_some hn
    refine ⟨StdMap.above_lt T (hsub1.subset (hsub2.subset hk.2)) hk.1,
      ow2, ho2, hinv, ⟨v', hk.2⟩, ?_, ?_⟩
    · intro e he
      rw [hvis] at he
      rcases List.mem_append.mp he with h | h
      · exact lt_trans (hacck e h) hk.1
      · simp only [List.mem_singleton] at h; subst h; exact hk.1
    · intro e he hlt
      exact hcover e he (hs2.next_gap hn e he hlt)
  · intro hn
    exact ⟨ow2, ho2, hinv, fun e he => hcover e he (StdMap.next_none hn e he)⟩

/-- C3 (as the code behaves): let the hook table of a live owner be well formed, and let
every hook, when the loop of `~EventOwner` invokes it, return, remove at most entries of
the owner's hook table and leave its own entry in place.  Then `~EventOwner` returns, having
invoked only hooks registered at the start, in key order and none of them twice.  A hook
registered at the start that a hook invoked under a smaller key removed from the table is
invoked zero times; every other hook registered at the start is invoked exactly once. -/
theorem destroyEventOwner_hooks_at_most_once {Args : Type} (cl : Closures Args) (w : World)
    (o : Nat) (ow : EventOwner) (ho : w.owners o = some ow) (hs : ow.destroyHooks_.Sorted)
    (fuel : Nat) (hfuel : ow.destroyHooks_.length ≤ fuel)
    (hhooks : ∀ c ∈ DestroyEventOwnerCalls cl fuel w o, ∀ ow1, c.2.2.owners o = some ow1 →
      ∃ w2 ow2, callHook cl c.2.1 c.2.2 = .ok w2 ∧ w2.owners o = some ow2 ∧
        List.Sublist ow2.destroyHooks_ ow1.destroyHooks_ ∧ (c.1, c.2.1) ∈ ow2.destroyHooks_) :
    ∃ w' log, DestroyEventOwner cl fuel w o = .ok (w', log) ∧
      log = visited (DestroyEventOwnerCalls cl fuel w o) ∧
      w'.owners o = none ∧
      log.Pairwise (fun a b => a.1 < b.1) ∧
      (∀ e, log.count e ≤ 1) ∧
      (∀ e ∈ log, e ∈ ow.destroyHooks_) ∧
      (∀ e ∈ ow.destroyHooks_,
        (∃ c ∈ DestroyEventOwnerCalls cl fuel w o, c.1 < e.1 ∧ Unhooks cl o e c) →
          log.count e = 0) ∧
      (∀ e ∈ ow.destroyHooks_,
        (¬ ∃ c ∈ DestroyEventOwnerCalls cl fuel w o, c.1 < e.1 ∧ Unhooks cl o e c) →
          log.count e = 1) := by
  have hcases : ow.destroyHooks_ = [] ∨ ∃ k v rest, ow.destroyHooks_ = (k, v) :: rest := by
    cases ow.destroyHooks_ with
    | nil => exact Or.inl rfl
    | cons e rest => exact Or.inr ⟨e.1, e.2, rest, rfl⟩
  rcases hcases with hT | ⟨k, v, rest, hT⟩
  · have hall : rangeForAll (hooksOf o) (fun _ hook w2 => callHook cl hook w2) fuel
        (markDestroying w o ow) = .ok (markDestroying w o ow, []) := by
      simp [rangeForAll, hooksOf, hT, StdMap.first, markDestroying]
    have hcalls : DestroyEventOwnerCalls cl fuel w o = [] := by
      simp [DestroyEventOwnerCalls, ho, rangeForAllCalls, hooksOf, hT, StdMap.first,
        markDestroying]
    refine ⟨{ (markDestroying w o ow) with
        owners := Function.update (markDestroying w o ow).owners o none }, [],
      by simp only [DestroyEventOwner, ho, hall], by simp [hcalls, visited],
      by simp, by simp, by simp, by simp, by simp [hT], by simp [hT]⟩
  · have hs' : StdMap.Sorted ((k, v) :: rest) := by rw [← hT]; exact hs
    have hfirst : hooksOf o (markDestroying w o ow) = some ((k, v) :: rest) := by
      simp [hooksOf, markDestroying, hT]
    have hcalls : DestroyEventOwnerCalls cl fuel w o =
        rangeForCalls (hooksOf o) (fun _ hook w1 => callHook cl hook w1) fuel k
          (markDestroying w o ow) := by
      simp only [DestroyEventOwnerCalls, ho, rangeForAllCalls, hfirst, StdMap.first,
        List.head?_cons]
    have hpre : HookSweepPre cl o ow.destroyHooks_ [] k (markDestroying w o ow) := by
      refine ⟨{ ow with destroying_ := true }, by simp [markDestroying],
        ⟨List.Sublist.refl _, by simp [visited], by simp [visited], ?_, ?_⟩,
        ⟨v, by simp [hT]⟩, by simp [visited], ?_⟩
      · intro e he hne
        exact absurd he hne
      · rintro e ⟨c, hc, _⟩
        simp at hc
      · intro e he hlt
        exfalso
        simp only [hT] at he
        rcases List.mem_cons.mp he with h | h
        · subst h; exact lt_irrefl _ hlt
        · have := (List.pairwise_cons.mp hs').1 e h
          simp only at this
          omega
    have hab : StdMap.above ow.destroyHooks_ k < fuel := by
      have : StdMap.above ow.destroyHooks_ k ≤ rest.length := by
        unfold StdMap.above
        rw [hT]
        simp only [List.filter_cons, lt_irrefl, decide_False]
        exact List.length_filter_le _ _
      rw [hT] at hfuel
      simp only [List.length_cons] at hfuel
      omega
    obtain ⟨w1, hr, ow1, ho1, ⟨hsub1, hlog, hlogT, hA, hB⟩, hfin⟩ :=
      rangeFor_calls_inv (hooksOf o) (fun _ hook w2 => callHook cl hook w2)
        (fun k => StdMap.above ow.destroyHooks_ k)
        (fun c => ∀ ow1, c.2.2.owners o = some ow1 →
          ∃ w2 ow2, callHook cl c.2.1 c.2.2 = .ok w2 ∧ w2.owners o = some ow2 ∧
            List.Sublist ow2.destroyHooks_ ow1.destroyHooks_ ∧ (c.1, c.2.1) ∈ ow2.destroyHooks_)
        (HookSweepPre cl o ow.destroyHooks_) (HookSweepPost cl o ow.destroyHooks_)
        (fun acc k w2 hp => hookSweep_step cl o ow.destroyHooks_ hs acc k w2 hp)
        fuel [] k _ hpre hab (by rw [← hcalls]; exact hhooks)
    rw [← hcalls] at hr hlog hlogT hA hB hfin
    simp only [List.nil_append] at hlog hlogT hA hB hfin
    have hall : rangeForAll (hooksOf o) (fun _ hook w2 => callHook cl hook w2) fuel
        (markDestroying w o ow) = .ok (w1, visited (DestroyEventOwnerCalls cl fuel w o)) := by
      simp only [rangeForAll, hfirst, StdMap.first, List.head?_cons]
      exact hr
    have hnodup : (visited (DestroyEventOwnerCalls cl fuel w o)).Nodup :=
      hlog.imp (fun h => by intro heq; rw [heq] at h; exact lt_irrefl _ h)
    refine ⟨{ w1 with owners := Function.update w1.owners o none }, _,
      by simp only [DestroyEventOwner, ho, hall], rfl, by simp, hlog,
      ?_, hlogT, ?_, ?_⟩
    · intro e
      by_cases he : e ∈ visited (DestroyEventOwnerCalls cl fuel w o)
      · rw [count_eq_one_of_nodup hnodup he]
      · rw [List.count_eq_zero_of_not_mem he]
        exact Nat.zero_le _
    · intro e _ hrem
      exact List.count_eq_zero_of_not_mem (hB e hrem).1
    · intro e heT hnot
      apply count_eq_one_of_nodup hnodup
      by_cases h : e ∈ ow1.destroyHooks_
      · exact hfin e h
      · rcases hA e heT h with h1 | h1
        · exact h1
        · exact absurd h1 hnot

/-- C3 fails as stated: two hooks are registered with `AddDestroyHook`; the first one, while
it runs in the loop of `~EventOwner`, calls `RemoveDestroyHook` on the handle of the second
one; the destructor returns having invoked only the first hook, the second one is invoked
zero times. -/
theorem destroyEventOwner_skips_removed_hook :
    AddDestroyHook emptyOwnerWorld 0 (.closure 0) = .ok (oneHookWorld, 0) ∧
    AddDestroyHook oneHookWorld 0 (.closure 1) = .ok (twoHooksWorld, 1) ∧
    (∃ w', DestroyEventOwner removerClosures 2 twoHooksWorld 0 =
      .ok (w', [(0, .closure 0)])) ∧
    (∀ fuel w' log, DestroyEventOwner removerClosures (fuel + 1) twoHooksWorld 0 = .ok (w', log) →
      (1, Hook.closure 1) ∉ log) := by
  refine ⟨rfl, rfl, ⟨_, rfl⟩, ?_⟩
  intro fuel w' log h
  have h2 : ∃ w2, DestroyEventOwner removerClosures (fuel + 1) twoHooksWorld 0 =
      .ok (w2, [(0, .closure 0)]) := ⟨_, rfl⟩
  obtain ⟨w2, h2⟩ := h2
  rw [h2] at h
  injection h with h
  injection h with _ h
  rw [← h]
  decide

theorem destroyEventOwner_hooks_at_most_once_witness :
    AddDestroyHook linkWorld 0 (.closure 0) = .ok (hookedWorld, 0) ∧
    AddDestroyHook hookedWorld 0 (.closure 1) = .ok (twoClosuresWorld, 1) ∧
    AddEvent twoClosuresWorld 0 5 (some 0) = .ok (sweepWorld, 1) ∧
    ∃ w' log, DestroyEventOwner removerClosures 3 sweepWorld 0 = .ok (w', log) ∧
      log.Pairwise (fun a b => a.1 < b.1) ∧
      log.count (0, Hook.closure 0) = 1 ∧ log.count (1, Hook.closure 1) = 0 ∧
      log.count (2, Hook.removeEvent 0 1) = 1 := by
  have hcalls : DestroyEventOwnerCalls removerClosures 3 sweepWorld 0 =
      [(0, .closure 0, markDestroying sweepWorld 0 sweepOwner),
       (2, .removeEvent 0 1,
        ⟨Function.update (markDestroying sweepWorld 0 sweepOwner).owners 0
          (some ⟨[(0, .closure 0), (2, .removeEvent 0 1)], 3, true⟩),
         (markDestroying sweepWorld 0 sweepOwner).handlers⟩)] := rfl
  obtain ⟨w', log, h1, _, _, h4, _, _, h7, h8⟩ :=
    destroyEventOwner_hooks_at_most_once removerClosures sweepWorld 0 sweepOwner rfl
      (by simp [sweepOwner, StdMap.Sorted]) 3 (by simp [sweepOwner])
      (by
        intro c hc ow1 ho1
        rw [hcalls] at hc
        simp only [List.mem_cons, List.mem_singleton, List.not_mem_nil, or_false] at hc
        rcases hc with rfl | rfl
        · have e1 : ow1 = ⟨sweepOwner.destroyHooks_, 3, true⟩ := Option.some.inj (ho1.symm.trans rfl)
          subst e1
          exact ⟨_, ⟨[(0, .closure 0), (2, .removeEvent 0 1)], 3, true⟩, rfl, rfl,
            by decide, by decide⟩
        · have e1 : ow1 = ⟨[(0, .closure 0), (2, .removeEvent 0 1)], 3, true⟩ :=
            Option.some.inj (ho1.symm.trans rfl)
          subst e1
          exact ⟨_, ⟨[(0, .closure 0), (2, .removeEvent 0 1)], 3, true⟩, rfl, rfl,
            by decide, by decide⟩)
  have hrem : ∃ c ∈ DestroyEventOwnerCalls removerClosures 3 sweepWorld 0,
      c.1 < ((1, Hook.closure 1) : Int × Hook).1 ∧
        Unhooks removerClosures 0 (1, Hook.closure 1) c := by
    rw [hcalls]
    exact ⟨_, List.mem_cons_self _ _, by decide, ⟨sweepOwner.destroyHooks_, 3, true⟩, _,
      ⟨[(0, .closure 0), (2, .removeEvent 0 1)], 3, true⟩, rfl, rfl, rfl, by decide, by decide⟩
  have hkeep : ∀ e : Int × Hook, e ≠ (1, Hook.closure 1) →
      ¬ ∃ c ∈ DestroyEventOwnerCalls removerClosures 3 sweepWorld 0,
        c.1 < e.1 ∧ Unhooks removerClosures 0 e c := by
    rintro e hne ⟨c, hc, hlt, ow1, w2, ow2, e1, e2, e3, e4, e5⟩
    rw [hcalls] at hc
    simp only [List.mem_cons, List.mem_singleton, List.not_mem_nil, or_false] at hc
    rcases hc with rfl | rfl
    · have x1 : ow1 = ⟨sweepOwner.destroyHooks_, 3, true⟩ := Option.some.inj (e1.symm.trans rfl)
      have x2 : w2 = ⟨Function.update (markDestroying sweepWorld 0 sweepOwner).owners 0
          (some ⟨[(0, .closure 0), (2, .removeEvent 0 1)], 3, true⟩),
          (markDestroying sweepWorld 0 sweepOwner).handlers⟩ :=
        (Except.ok.inj (e2.symm.trans rfl))
      subst x1 x2
      have x3 : ow2 = ⟨[(0, .closure 0), (2, .removeEvent 0 1)], 3, true⟩ :=
        Option.some.inj (e3.symm.trans rfl)
      subst x3
      simp only [sweepOwner, List.mem_cons, List.mem_singleton, List.not_mem_nil,
        or_false] at e4 e5
      rcases e4 with h | h | h
      · exact e5 (Or.inl h)
      · exact hne h
      · exact e5 (Or.inr h)
    · have x1 : ow1 = ⟨[(0, .closure 0), (2, .removeEvent 0 1)], 3, true⟩ :=
        Option.some.inj (e1.symm.trans rfl)
      have x2 : w2 = ⟨Function.update (markDestroying sweepWorld 0 sweepOwner).owners 0
          (some ⟨[(0, .closure 0), (2, .removeEvent 0 1)], 3, true⟩),
          Function.update (markDestroying sweepWorld 0 sweepOwner).handlers 0
            (some ⟨[], 1⟩)⟩ :=
        (Except.ok.inj (e2.symm.trans rfl))
      subst x1 x2
      have x3 : ow2 = ⟨[(0, .closure 0), (2, .removeEvent 0 1)], 3, true⟩ :=
        Option.some.inj (e3.symm.trans rfl)
      subst x3
      exact e5 e4
  exact ⟨rfl, rfl, rfl, w', log, h1, h4,
    h8 _ (by decide) (hkeep _ (by decide)), h7 _ (by decide) hrem,
    h8 _ (by decide) (hkeep _ (by decide))⟩

/-! ## `Activate` -/

/-- Effect of a returning `AddEvent` on the handlers, and liveness of the owners after it. -/
theorem addEvent_ok {w w' : World} {self func : Nat} {owner : Option Nat} {id : Int}
    {h : EventHandler} (hadd : AddEvent w self func owner = .ok (w', id))
    (hh : w.handlers self = some h) :
    id = h.lastEvent_ + 1 ∧
    (∃ hook, w'.handlers = Function.update w.handlers self
      (some ⟨h.events_.assign (h.lastEvent_ + 1) ⟨owner, func, hook⟩, h.lastEvent_ + 1⟩)) ∧
    (∀ p, w.owners p ≠ none → w'.owners p ≠ none) ∧
    (∀ p, owner = some p → w'.owners p ≠ none) := by
  unfold AddEvent at hadd
  simp only [hh] at hadd
  cases owner with
  | none =>
    simp only [Except.ok.injEq, Prod.mk.injEq] at hadd
    obtain ⟨h1, h2⟩ := hadd
    subst h1
    exact ⟨h2.symm, ⟨0, rfl⟩, fun p hp => hp, fun p hp => by cases hp⟩
  | some o =>
    simp only [AddDestroyHook] at hadd
    cases ho : w.owners o with
    | none => simp [ho] at hadd
    | some ow =>
      simp only [ho, Except.ok.injEq, Prod.mk.injEq] at hadd
      obtain ⟨h1, h2⟩ := hadd
      subst h1
      refine ⟨h2.symm, ⟨_, rfl⟩, ?_, ?_⟩
      · intro p hp
        by_cases hpo : p = o
        · subst hpo; simp
        · simpa [Function.update_noteq hpo] using hp
      · intro p hp
        cases hp
        simp

/-- What `AddEvent` with an owner installs: the subscription is stored under the returned
handle with the id of its hook, and the hook stored under that id in the owner's table is
the lambda that removes this subscription. -/
theorem addEvent_installs_hook {w : World} {self func o : Nat} {h : EventHandler}
    {ow : EventOwner} (hh : w.handlers self = some h) (ho : w.owners o = some ow) :
    ∃ w' h' ow', AddEvent w self func (some o) = .ok (w', h.lastEvent_ + 1) ∧
      w'.handlers self = some h' ∧ w'.owners o = some ow' ∧
      h'.events_.find (h.lastEvent_ + 1) = some ⟨some o, func, ow.lastEvent_⟩ ∧
      ow'.destroyHooks_.find ow.lastEvent_ = some (.removeEvent self (h.lastEvent_ + 1)) ∧
      h'.lastEvent_ = h.lastEvent_ + 1 ∧ ow'.lastEvent_ = ow.lastEvent_ + 1 ∧
      ow'.destroying_ = ow.destroying_ := by
  refine ⟨⟨Function.update w.owners o (some (ow.AddDestroyHook (.removeEvent self
      (h.lastEvent_ + 1))).1), Function.update w.handlers self
      (some ⟨h.events_.assign (h.lastEvent_ + 1) ⟨some o, func, ow.lastEvent_⟩,
        h.lastEvent_ + 1⟩)⟩,
    ⟨h.events_.assign (h.lastEvent_ + 1) ⟨some o, func, ow.lastEvent_⟩, h.lastEvent_ + 1⟩,
    (ow.AddDestroyHook (.removeEvent self (h.lastEvent_ + 1))).1,
    ?_, by simp, by simp, ?_, ?_, rfl, rfl, rfl⟩
  · simp [AddEvent, hh, AddDestroyHook, ho, EventOwner.AddDestroyHook]
  · simp [StdMap.find_assign]
  · simp [EventOwner.AddDestroyHook, StdMap.find_assign]

/-- Effect of a returning `RemoveEvent` on the handlers. -/
theorem removeEvent_ok_handlers {w w' : World} {self : Nat} {id : Int} {h : EventHandler}
    (hrem : RemoveEvent w self id = .ok w') (hh : w.handlers self = some h) :
    w'.handlers = Function.update w.handlers self
      (some { h with events_ := h.events_.erase id }) := by
  cases hf : h.events_.find id with
  | none => rw [removeEvent_of_find_none hh hf] at hrem; cases hrem
  | some ev =>
    rw [removeEvent_of_find hh hf] at hrem
    cases hown : ev.owner with
    | none =>
      simp only [hown, Except.ok.injEq] at hrem
      rw [← hrem]
    | some o =>
      simp only [hown] at hrem
      cases hw : w.owners o with
      | none => simp [hw] at hrem
      | some ow =>
        simp only [hw] at hrem
        cases hd : ow.destroying_ with
        | true =>
          simp only [hd, if_true, Except.ok.injEq] at hrem
          rw [← hrem]
        | false =>
          simp only [hd, Bool.false_eq_true, if_false, Except.ok.injEq] at hrem
          rw [← hrem]

/-- The three-entry table built by three `AddEvent` calls on an empty table. -/
theorem three_assigned (n : Int) (ea eb ec : Event) :
    StdMap.assign (StdMap.assign (StdMap.assign [] (n + 1) ea) (n + 1 + 1) eb) (n + 1 + 1 + 1) ec
      = [(n + 1, ea), (n + 1 + 1, eb), (n + 1 + 1 + 1, ec)] := by
  have h1 : ¬ (n + 1 + 1 < n + 1) := by omega
  have h2 : ¬ (n + 1 + 1 = n + 1) := by omega
  have h3 : ¬ (n + 1 + 1 + 1 < n + 1) := by omega
  have h4 : ¬ (n + 1 + 1 + 1 = n + 1) := by omega
  have h5 : ¬ (n + 1 + 1 + 1 < n + 1 + 1) := by omega
  have h6 : ¬ (n + 1 + 1 + 1 = n + 1 + 1) := by omega
  simp [StdMap.assign, h1, h2, h3, h4, h5, h6]

/-- `Activate` on a three-entry table whose callbacks leave the table alone. -/
theorem activate_three {Args : Type} (cl : Closures Args) (self : Nat) (args : Args)
    (k1 k2 k3 : Int) (ea eb ec : Event) (h12 : k1 < k2) (h23 : k2 < k3)
    (w w1 w2 w3 : World)
    (hw : eventsOf self w = some [(k1, ea), (k2, eb), (k3, ec)])
    (ha : cl.func ea.func args w = .ok w1)
    (hw1 : eventsOf self w1 = some [(k1, ea), (k2, eb), (k3, ec)])
    (hb : cl.func eb.func args w1 = .ok w2)
    (hw2 : eventsOf self w2 = some [(k1, ea), (k2, eb), (k3, ec)])
    (hc : cl.func ec.func args w2 = .ok w3)
    (hw3 : eventsOf self w3 = some [(k1, ea), (k2, eb), (k3, ec)])
    (fuel : Nat) (hfuel : 3 ≤ fuel) :
    Activate cl fuel w self args = .ok (w3, [(k1, ea), (k2, eb), (k3, ec)]) := by
  obtain ⟨f, rfl⟩ : ∃ f, fuel = f + 3 := ⟨fuel - 3, by omega⟩
  have n12 : ¬ k1 = k2 := by omega
  have n13 : ¬ k1 = k3 := by omega
  have n23 : ¬ k2 = k3 := by omega
  have l13 : k1 < k3 := by omega
  have g21 : ¬ k2 < k1 := by omega
  have g31 : ¬ k3 < k1 := by omega
  have g32 : ¬ k3 < k2 := by omega
  have hlive : w.handlers self ≠ none := by
    intro hn; simp [eventsOf, hn] at hw
  obtain ⟨hd, hhd⟩ := Option.ne_none_iff_exists'.mp hlive
  simp [Activate, hhd, rangeForAll, rangeFor, StdMap.first, StdMap.find, StdMap.next, hw, hw1,
    hw2, hw3, ha, hb, hc, n12, n13, n23, h12, h23, l13, g21, g31, g32]

/-- `Activate` on a three-entry table when the first callback erases the second entry and
the third callback leaves the table alone. -/
theorem activate_three_removed {Args : Type} (cl : Closures Args) (self : Nat) (args : Args)
    (k1 k2 k3 : Int) (ea eb ec : Event) (h12 : k1 < k2) (h23 : k2 < k3)
    (w w1 w3 : World)
    (hw : eventsOf self w = some [(k1, ea), (k2, eb), (k3, ec)])
    (ha : cl.func ea.func args w = .ok w1)
    (hw1 : eventsOf self w1 = some [(k1, ea), (k3, ec)])
    (hc : cl.func ec.func args w1 = .ok w3)
    (hw3 : eventsOf self w3 = some [(k1, ea), (k3, ec)])
    (fuel : Nat) (hfuel : 2 ≤ fuel) :
    Activate cl fuel w self args = .ok (w3, [(k1, ea), (k3, ec)]) := by
  obtain ⟨f, rfl⟩ : ∃ f, fuel = f + 2 := ⟨fuel - 2, by omega⟩
  have n12 : ¬ k1 = k2 := by omega
  have n13 : ¬ k1 = k3 := by omega
  have l13 : k1 < k3 := by omega
  have g31 : ¬ k3 < k1 := by omega
  have hlive : w.handlers self ≠ none := by
    intro hn; simp [eventsOf, hn] at hw
  obtain ⟨hd, hhd⟩ := Option.ne_none_iff_exists'.mp hlive
  simp [Activate, hhd, rangeForAll, rangeFor, StdMap.first, StdMap.find, StdMap.next, hw, hw1,
    hw3, ha, hc, n12, n13, h12, l13, g31]

/-- C4: three subscriptions `a`, `b`, `c` are added in this order by `AddEvent` (any owners)
to a live handler without subscriptions.  Their handles increase, and `events_` holds them
in that order.  If each callback, called with `args`, returns and leaves `events_` of the
handler as it is, then `Activate(args)` returns the state reached by calling `a`, then `b`,
then `c` with `args`, and has invoked exactly these three in this order.  If callback `a`
is `RemoveEvent` of the handle of `b`, that call returns, and if `c` leaves `events_` as it
is then `Activate(args)` invokes `a` and then `c`, each once, and does not invoke `b`. -/
theorem activate_insertion_order {Args : Type} (cl : Closures Args) (w wa wb wc : World)
    (self : Nat) (h : EventHandler) (fa fb fc : Nat) (oa ob oc : Option Nat)
    (ida idb idc : Int) (args : Args)
    (hh : w.handlers self = some h) (hempty : h.events_ = [])
    (hA : AddEvent w self fa oa = .ok (wa, ida))
    (hB : AddEvent wa self fb ob = .ok (wb, idb))
    (hC : AddEvent wb self fc oc = .ok (wc, idc)) :
    ∃ ea eb ec : Event, ea.func = fa ∧ eb.func = fb ∧ ec.func = fc ∧
      ea.owner = oa ∧ eb.owner = ob ∧ ec.owner = oc ∧
      eventsOf self wc = some [(ida, ea), (idb, eb), (idc, ec)] ∧ ida < idb ∧ idb < idc ∧
      (∀ w1 w2 w3, cl.func fa args wc = .ok w1 → eventsOf self w1 = eventsOf self wc →
        cl.func fb args w1 = .ok w2 → eventsOf self w2 = eventsOf self wc →
        cl.func fc args w2 = .ok w3 → eventsOf self w3 = eventsOf self wc →
        ∀ fuel, 3 ≤ fuel →
          Activate cl fuel wc self args = .ok (w3, [(ida, ea), (idb, eb), (idc, ec)])) ∧
      (cl.func fa args wc = RemoveEvent wc self idb →
        ∃ w1, RemoveEvent wc self idb = .ok w1 ∧
          eventsOf self w1 = some [(ida, ea), (idc, ec)] ∧
          ∀ w3, cl.func fc args w1 = .ok w3 → eventsOf self w3 = eventsOf self w1 →
          ∀ fuel, 2 ≤ fuel →
            Activate cl fuel wc self args = .ok (w3, [(ida, ea), (idc, ec)])) := by
  obtain ⟨hida, ⟨hka, hwa⟩, _, _⟩ := addEvent_ok hA hh
  have hha : wa.handlers self = some ⟨h.events_.assign (h.lastEvent_ + 1) ⟨oa, fa, hka⟩,
      h.lastEvent_ + 1⟩ := by rw [hwa]; simp
  obtain ⟨hidb, ⟨hkb, hwb⟩, _, hob⟩ := addEvent_ok hB hha
  have hhb : wb.handlers self = some ⟨(h.events_.assign (h.lastEvent_ + 1) ⟨oa, fa, hka⟩).assign
      (h.lastEvent_ + 1 + 1) ⟨ob, fb, hkb⟩, h.lastEvent_ + 1 + 1⟩ := by rw [hwb]; simp
  obtain ⟨hidc, ⟨hkc, hwc⟩, hkeep, _⟩ := addEvent_ok hC hhb
  have hhc : wc.handlers self = some ⟨[(h.lastEvent_ + 1, ⟨oa, fa, hka⟩),
      (h.lastEvent_ + 1 + 1, ⟨ob, fb, hkb⟩), (h.lastEvent_ + 1 + 1 + 1, ⟨oc, fc, hkc⟩)],
      h.lastEvent_ + 1 + 1 + 1⟩ := by
    rw [hwc]
    simp only [Function.update_same, hempty]
    rw [three_assigned]
  simp only at hida hidb hidc
  subst hida hidb hidc
  have hev : eventsOf self wc = some [(h.lastEvent_ + 1, ⟨oa, fa, hka⟩),
      (h.lastEvent_ + 1 + 1, ⟨ob, fb, hkb⟩), (h.lastEvent_ + 1 + 1 + 1, ⟨oc, fc, hkc⟩)] := by
    simp [eventsOf, hhc]
  refine ⟨⟨oa, fa, hka⟩, ⟨ob, fb, hkb⟩, ⟨oc, fc, hkc⟩, rfl, rfl, rfl, rfl, rfl, rfl, hev,
    by omega, by omega, ?_, ?_⟩
  · intro w1 w2 w3 h1 e1 h2 e2 h3 e3 fuel hfuel
    exact activate_three cl self args _ _ _ _ _ _ (by omega) (by omega) wc w1 w2 w3 hev h1
      (e1.trans hev) h2 (e2.trans hev) h3 (e3.trans hev) fuel hfuel
  · intro hrem
    have hfind : StdMap.find [(h.lastEvent_ + 1, (⟨oa, fa, hka⟩ : Event)),
        (h.lastEvent_ + 1 + 1, ⟨ob, fb, hkb⟩), (h.lastEvent_ + 1 + 1 + 1, ⟨oc, fc, hkc⟩)]
        (h.lastEvent_ + 1 + 1) = some ⟨ob, fb, hkb⟩ := by
      have : ¬ (h.lastEvent_ + 1 = h.lastEvent_ + 1 + 1) := by omega
      simp [StdMap.find, this]
    obtain ⟨w1, hr, _⟩ := removeEvent_returns hhc hfind
      (fun o (ho : (⟨ob, fb, hkb⟩ : Event).owner = some o) => hkeep o (hob o ho))
    have hw1 := removeEvent_ok_handlers hr hhc
    have hev1 : eventsOf self w1 = some [(h.lastEvent_ + 1, ⟨oa, fa, hka⟩),
        (h.lastEvent_ + 1 + 1 + 1, ⟨oc, fc, hkc⟩)] := by
      have n1 : ¬ (h.lastEvent_ + 1 = h.lastEvent_ + 1 + 1) := by omega
      have n2 : ¬ (h.lastEvent_ + 1 + 1 + 1 = h.lastEvent_ + 1 + 1) := by omega
      simp [eventsOf, hw1, StdMap.erase, List.filter_cons, n1, n2]
    refine ⟨w1, hr, hev1, ?_⟩
    intro w3 h3 e3 fuel hfuel
    exact activate_three_removed cl self args _ (h.lastEvent_ + 1 + 1) _ _ ⟨ob, fb, hkb⟩ _
      (by omega) (by omega) wc w1 w3 hev (hrem.trans hr) hev1 h3 (e3.trans hev1) fuel hfuel

theorem activate_insertion_order_witness :
    ∃ ea eb ec : Event, ea.func = 0 ∧ eb.func = 1 ∧ ec.func = 2 ∧
      ea.owner = none ∧ eb.owner = none ∧ ec.owner = none ∧
      eventsOf 0 addedThreeWorld = some [(1, ea), (2, eb), (3, ec)] ∧ (1 : Int) < 2 ∧
      (2 : Int) < 3 ∧
      (∀ w1 w2 w3, removingClosures.func 0 () addedThreeWorld = .ok w1 →
        eventsOf 0 w1 = eventsOf 0 addedThreeWorld →
        removingClosures.func 1 () w1 = .ok w2 → eventsOf 0 w2 = eventsOf 0 addedThreeWorld →
        removingClosures.func 2 () w2 = .ok w3 → eventsOf 0 w3 = eventsOf 0 addedThreeWorld →
        ∀ fuel, 3 ≤ fuel →
          Activate removingClosures fuel addedThreeWorld 0 () =
            .ok (w3, [(1, ea), (2, eb), (3, ec)])) ∧
      (removingClosures.func 0 () addedThreeWorld = RemoveEvent addedThreeWorld 0 2 →
        ∃ w1, RemoveEvent addedThreeWorld 0 2 = .ok w1 ∧
          eventsOf 0 w1 = some [(1, ea), (3, ec)] ∧
          ∀ w3, removingClosures.func 2 () w1 = .ok w3 → eventsOf 0 w3 = eventsOf 0 w1 →
          ∀ fuel, 2 ≤ fuel →
            Activate removingClosures fuel addedThreeWorld 0 () =
              .ok (w3, [(1, ea), (3, ec)])) :=
  activate_insertion_order removingClosures freshWorld addedWorld addedTwoWorld addedThreeWorld
    0 { events_ := [], lastEvent_ := 0 } 0 1 2 none none none 1 2 3 ()
    (by simp [freshWorld]) rfl rfl rfl rfl

/-- The example of C4 run: with callback `a` removing `b`, `Activate` on the three
subscriptions returns having invoked `a` and `c` only. -/
theorem activate_removed_example :
    ∃ w3, Activate removingClosures 2 addedThreeWorld 0 () =
      .ok (w3, [(1, ⟨none, 0, 0⟩), (3, ⟨none, 2, 0⟩)]) :=
  ⟨_, rfl⟩

/-- The example of C4 run with callbacks that return at once: all three are invoked, in the
order of their insertion. -/
theorem activate_order_example :
    Activate idleClosures 3 addedThreeWorld 0 () =
      .ok (addedThreeWorld, [(1, ⟨none, 0, 0⟩), (2, ⟨none, 1, 0⟩), (3, ⟨none, 2, 0⟩)]) :=
  rfl

/-! ## `Activate` with a callback that subscribes -/

namespace StdMap

variable {β : Type}

theorem assign_append (m : StdMap β) (k : Int) (v : β) (h : ∀ e ∈ m, e.1 < k) :
    m.assign k v = m ++ [(k, v)] := by
  induction m with
  | nil => rfl
  | cons e t ih =>
    obtain ⟨a, x⟩ := e
    have ha : a < k := h (a, x) (List.mem_cons_self _ _)
    have h1 : ¬ k < a := by omega
    have h2 : ¬ k = a := by omega
    simp only [assign, h1, h2, if_false, List.cons_append]
    rw [ih (fun e he => h e (List.mem_cons_of_mem _ he))]

theorem Sorted.append_last {m : StdMap β} (hs : m.Sorted) (k : Int) (v : β)
    (h : ∀ e ∈ m, e.1 < k) : StdMap.Sorted (m ++ [(k, v)]) := by
  unfold Sorted
  rw [List.pairwise_append]
  refine ⟨hs, by simp, ?_⟩
  intro a ha b hb
  simp only [List.mem_singleton] at hb
  subst hb
  exact h a ha

theorem next_append_of_some {m : StdMap β} {k : Int} {e : Int × β} (x : Int × β)
    (h : m.next k = some e) : next (m ++ [x]) k = some e := by
  unfold next at h ⊢
  rw [List.find?_append, h]
  rfl

theorem above_le_length (m : StdMap β) (k : Int) : m.above k ≤ m.length :=
  List.length_filter_le _ _

end StdMap

theorem activateAdd_step {Args : Type} (cl : Closures Args) (self : Nat) (h : EventHandler)
    (k0 : Int) (e0 : Event) (g : Nat) (owner : Option Nat) (args : Args)
    (hs : h.events_.Sorted) (hle : ∀ e ∈ h.events_, e.1 ≤ h.lastEvent_)
    (h0 : (k0, e0) ∈ h.events_)
    (acc : List (Int × Event × World)) (k : Int) (w : World)
    (hpre : ActivateAddPre self h k0 g owner acc k w) :
    ∃ v, (eventsOf self w).bind (fun m => m.find k) = some v ∧
      (((k = k0 → ∃ wa id w2, AddEvent w self g owner = .ok (wa, id) ∧
            cl.func v.func args w = .ok w2 ∧ w2.handlers self = wa.handlers self) ∧
          (k ≠ k0 → ∃ w2, cl.func v.func args w = .ok w2 ∧
            w2.handlers self = w.handlers self)) →
        ∃ w1 m1, cl.func v.func args w = .ok w1 ∧ eventsOf self w1 = some m1 ∧
          m1.find k ≠ none ∧
          (∀ k' v', m1.next k = some (k', v') →
            StdMap.above (h.events_ ++ [(h.lastEvent_ + 1, e0)]) k' <
                StdMap.above (h.events_ ++ [(h.lastEvent_ + 1, e0)]) k ∧
              ActivateAddPre self h k0 g owner (acc ++ [(k, v, w)]) k' w1) ∧
          (m1.next k = none → ActivateAddPost self h g owner (acc ++ [(k, v, w)]) w1)) := by
  have hlt : ∀ e ∈ h.events_, e.1 < h.lastEvent_ + 1 := fun e he => by
    have := hle e he; omega
  have hk0 : k0 ≤ h.lastEvent_ := hle _ h0
  have hkey : ∀ (enew : Event) (k' : Int) (v' : Event),
      (k', v') ∈ h.events_ ++ [(h.lastEvent_ + 1, enew)] →
      ∃ x, (k', x) ∈ h.events_ ++ [(h.lastEvent_ + 1, e0)] := by
    intro enew k' v' hm
    rcases List.mem_append.mp hm with h1 | h1
    · exact ⟨v', List.mem_append_left _ h1⟩
    · simp only [List.mem_singleton, Prod.mk.injEq] at h1
      exact ⟨e0, by rw [h1.1]; simp⟩
  -- what follows once the handler has the additional entry after the body
  have hafter : ∀ (enew : Event) (v : Event) (rest : List (Int × Event)) (w1 : World),
      enew.func = g → enew.owner = owner →
      visited acc ++ (k, v) :: rest = h.events_ ++ [(h.lastEvent_ + 1, enew)] →
      cl.func v.func args w = .ok w1 →
      w1.handlers self =
        some ⟨h.events_ ++ [(h.lastEvent_ + 1, enew)], h.lastEvent_ + 1⟩ →
      k0 ≤ k →
      ∃ w1 m1, cl.func v.func args w = .ok w1 ∧ eventsOf self w1 = some m1 ∧
        m1.find k ≠ none ∧
        (∀ k' v', m1.next k = some (k', v') →
          StdMap.above (h.events_ ++ [(h.lastEvent_ + 1, e0)]) k' <
              StdMap.above (h.events_ ++ [(h.lastEvent_ + 1, e0)]) k ∧
            ActivateAddPre self h k0 g owner (acc ++ [(k, v, w)]) k' w1) ∧
        (m1.next k = none → ActivateAddPost self h g owner (acc ++ [(k, v, w)]) w1) := by
    intro enew v rest w1 hg hown hsplit hbody hw1 hkk
    have hs' : StdMap.Sorted (h.events_ ++ [(h.lastEvent_ + 1, enew)]) :=
      hs.append_last _ _ hlt
    have hfind' := hs'.find_of_split hsplit
    have hnext' := hs'.next_of_split hsplit
    have hvis : visited (acc ++ [(k, v, w)]) = visited acc ++ [(k, v)] := by simp [visited]
    refine ⟨w1, h.events_ ++ [(h.lastEvent_ + 1, enew)], hbody, by simp [eventsOf, hw1],
      by simp [hfind'], ?_, ?_⟩
    · intro k' v' hn
      have hk := StdMap.next_some hn
      rw [hnext'] at hn
      obtain ⟨rest', hrest⟩ : ∃ rest', rest = (k', v') :: rest' := by
        cases rest with
        | nil => simp at hn
        | cons a r => simp only [List.head?_cons, Option.some.injEq] at hn; exact ⟨r, by rw [hn]⟩
      obtain ⟨x, hx⟩ := hkey enew k' v' hk.2
      refine ⟨StdMap.above_lt _ hx hk.1, Or.inr ⟨by omega, enew, v', rest', hg, hown, hw1, ?_⟩⟩
      rw [hvis, ← hsplit, hrest]
      simp
    · intro hn
      rw [hnext'] at hn
      have hrest : rest = [] := by
        cases rest with
        | nil => rfl
        | cons a r => simp at hn
      exact ⟨enew, hg, hown, by rw [hvis, ← hsplit, hrest], hw1⟩
  rcases hpre with ⟨hk, hw, v, rest, hsplit⟩ | ⟨hk, enew, v, rest, hg, hown, hw, hsplit⟩
  · have hvT : (k, v) ∈ h.events_ := by rw [← hsplit]; simp
    have hfind := hs.find_of_mem hvT
    have hnext := hs.next_of_split hsplit
    refine ⟨v, by simp [eventsOf, hw, hfind], ?_⟩
    rintro ⟨hPadd, hPquiet⟩
    by_cases hkeq : k = k0
    · subst hkeq
      obtain ⟨wa, id, w2, hadd, hbody, hsame⟩ := hPadd rfl
      obtain ⟨_, ⟨hook, hwa⟩, _, _⟩ := addEvent_ok hadd hw
      have hw2 : w2.handlers self = some ⟨h.events_ ++
          [(h.lastEvent_ + 1, ⟨owner, g, hook⟩)], h.lastEvent_ + 1⟩ := by
        rw [hsame, hwa, StdMap.assign_append _ _ _ hlt]
        simp
      exact hafter ⟨owner, g, hook⟩ v (rest ++ [(h.lastEvent_ + 1, ⟨owner, g, hook⟩)]) w2
        rfl rfl (by rw [← hsplit]; simp) hbody hw2 (le_refl _)
    · obtain ⟨w2, hbody, hsame⟩ := hPquiet hkeq
      have hw2 : w2.handlers self = some h := by rw [hsame, hw]
      have hvis : visited (acc ++ [(k, v, w)]) = visited acc ++ [(k, v)] := by simp [visited]
      refine ⟨w2, h.events_, hbody, by simp [eventsOf, hw2], by simp [hfind], ?_, ?_⟩
      · intro k' v' hn
        have hkn := StdMap.next_some hn
        have hle' : k' ≤ k0 := by
          by_contra hcon
          have := hs.next_gap hn (k0, e0) h0 (by simp only; omega)
          simp only at this
          omega
        rw [hnext] at hn
        obtain ⟨rest', hrest⟩ : ∃ rest', rest = (k', v') :: rest' := by
          cases rest with
          | nil => simp at hn
          | cons a r =>
            simp only [List.head?_cons, Option.some.injEq] at hn; exact ⟨r, by rw [hn]⟩
        refine ⟨StdMap.above_lt _ (List.mem_append_left _ hkn.2) hkn.1,
          Or.inl ⟨hle', hw2, v', rest', ?_⟩⟩
        rw [hvis, ← hsplit, hrest]
        simp
      · intro hn
        have := StdMap.next_none hn (k0, e0) h0
        simp only at this
        omega
  · have hs' : StdMap.Sorted (h.events_ ++ [(h.lastEvent_ + 1, enew)]) :=
      hs.append_last _ _ hlt
    have hfind' := hs'.find_of_split hsplit
    refine ⟨v, by simp [eventsOf, hw, hfind'], ?_⟩
    rintro ⟨_, hPquiet⟩
    obtain ⟨w2, hbody, hsame⟩ := hPquiet (by omega)
    exact hafter enew v rest w2 hg hown hsplit hbody (by rw [hsame, hw]) (by omega)

/-- C5 (as the code behaves): let a live handler have a well-formed table whose keys do not
exceed its counter.  In a broadcast, let the callback of one subscription `k0`, when
`Activate` invokes it, return having made the handler what `AddEvent(g, owner)` makes it
(for any `owner`, null or not), and let every other callback that `Activate` invokes, that
of `g` included, return and leave the handler alone.  Then `Activate` returns and has
invoked every subscription present at the start, in key order, and after them, in this same
broadcast, the subscription added while the broadcast ran: its callback is `g`, its owner
is `owner`, and its handle is the new greatest key (the loop walks the live table). -/
theorem activate_invokes_added {Args : Type} (cl : Closures Args) (w : World) (self : Nat)
    (h : EventHandler) (k0 : Int) (e0 : Event) (g : Nat) (owner : Option Nat) (args : Args)
    (hh : w.handlers self = some h)
    (hs : h.events_.Sorted) (hle : ∀ e ∈ h.events_, e.1 ≤ h.lastEvent_)
    (h0 : (k0, e0) ∈ h.events_)
    (fuel : Nat) (hfuel : h.events_.length + 1 ≤ fuel)
    (hadd : ∀ c ∈ ActivateCalls cl fuel w self args, c.1 = k0 →
      ∃ wa id w2, AddEvent c.2.2 self g owner = .ok (wa, id) ∧
        cl.func c.2.1.func args c.2.2 = .ok w2 ∧ w2.handlers self = wa.handlers self)
    (hquiet : ∀ c ∈ ActivateCalls cl fuel w self args, c.1 ≠ k0 →
      ∃ w2, cl.func c.2.1.func args c.2.2 = .ok w2 ∧
        w2.handlers self = c.2.2.handlers self) :
    ∃ w' enew, Activate cl fuel w self args =
        .ok (w', h.events_ ++ [(h.lastEvent_ + 1, enew)]) ∧
      visited (ActivateCalls cl fuel w self args) =
        h.events_ ++ [(h.lastEvent_ + 1, enew)] ∧
      enew.func = g ∧ enew.owner = owner ∧
      w'.handlers self =
        some ⟨h.events_ ++ [(h.lastEvent_ + 1, enew)], h.lastEvent_ + 1⟩ := by
  obtain ⟨k, v, t, hT⟩ : ∃ k v t, h.events_ = (k, v) :: t := by
    cases hc : h.events_ with
    | nil => rw [hc] at h0; simp at h0
    | cons e t => exact ⟨e.1, e.2, t, rfl⟩
  have hkk0 : k ≤ k0 := by
    have hs2 : StdMap.Sorted ((k, v) :: t) := hT ▸ hs
    rw [hT] at h0
    rcases List.mem_cons.mp h0 with h1 | h1
    · simp only [Prod.mk.injEq] at h1; omega
    · exact le_of_lt ((List.pairwise_cons.mp hs2).1 _ h1)
  have hfirst : eventsOf self w = some ((k, v) :: t) := by simp [eventsOf, hh, hT]
  have hcalls : ActivateCalls cl fuel w self args =
      rangeForCalls (eventsOf self) (fun _ event w1 => cl.func event.func args w1) fuel k w := by
    simp only [ActivateCalls, hh, rangeForAllCalls, hfirst, StdMap.first, List.head?_cons]
  have hpre : ActivateAddPre self h k0 g owner [] k w :=
    Or.inl ⟨hkk0, hh, v, t, by simp [visited, hT]⟩
  have hab : StdMap.above (h.events_ ++ [(h.lastEvent_ + 1, e0)]) k < fuel := by
    have : StdMap.above (h.events_ ++ [(h.lastEvent_ + 1, e0)]) k
        ≤ (t ++ [(h.lastEvent_ + 1, e0)]).length := by
      unfold StdMap.above
      rw [hT]
      simp only [List.cons_append, List.filter_cons, lt_irrefl, decide_False]
      exact List.length_filter_le _ _
    rw [hT] at hfuel
    simp only [List.length_append, List.length_cons, List.length_nil] at this hfuel
    omega
  obtain ⟨w', hr, enew, hg, hown, hlog, hw'⟩ :=
    rangeFor_calls_inv (eventsOf self) (fun _ event w1 => cl.func event.func args w1)
      (fun k => StdMap.above (h.events_ ++ [(h.lastEvent_ + 1, e0)]) k)
      (fun c => (c.1 = k0 → ∃ wa id w2, AddEvent c.2.2 self g owner = .ok (wa, id) ∧
          cl.func c.2.1.func args c.2.2 = .ok w2 ∧ w2.handlers self = wa.handlers self) ∧
        (c.1 ≠ k0 → ∃ w2, cl.func c.2.1.func args c.2.2 = .ok w2 ∧
          w2.handlers self = c.2.2.handlers self))
      (ActivateAddPre self h k0 g owner) (ActivateAddPost self h g owner)
      (fun acc k w1 hp => activateAdd_step cl self h k0 e0 g owner args hs hle h0 acc k w1 hp)
      fuel [] k w hpre hab
      (fun c hc => ⟨hadd c (by rw [hcalls]; exact hc), hquiet c (by rw [hcalls]; exact hc)⟩)
  rw [← hcalls] at hr hlog
  simp only [List.nil_append] at hlog
  refine ⟨w', enew, ?_, hlog, hg, hown, hw'⟩
  simp only [Activate, hh, rangeForAll, hfirst, StdMap.first, List.head?_cons]
  rw [hr, hlog]

/-- C5 fails as stated: the handler has a single subscription (handle 1, callback 0);
while `Activate` runs, callback 0 subscribes callback 1, which gets the new handle 2; the
broadcast then invokes handle 2 as well, although it was not subscribed when the broadcast
started. -/
theorem activate_invokes_added_counterexample :
    eventsOf 0 addedWorld = some [(1, ⟨none, 0, 0⟩)] ∧
    (∃ w', Activate addingClosures 2 addedWorld 0 () =
      .ok (w', [(1, ⟨none, 0, 0⟩), (2, ⟨none, 1, 0⟩)])) ∧
    (∀ fuel w' log, Activate addingClosures (fuel + 2) addedWorld 0 () = .ok (w', log) →
      (2, (⟨none, 1, 0⟩ : Event)) ∈ log) := by
  refine ⟨rfl, ⟨_, rfl⟩, ?_⟩
  intro fuel w' log h
  have h2 : ∃ w2, Activate addingClosures (fuel + 2) addedWorld 0 () =
      .ok (w2, [(1, ⟨none, 0, 0⟩), (2, ⟨none, 1, 0⟩)]) := ⟨_, rfl⟩
  obtain ⟨w2, h2⟩ := h2
  rw [h2] at h
  injection h with h
  injection h with _ h
  rw [← h]
  simp

theorem activate_invokes_added_witness :
    AddEvent linkWorld 0 0 none = .ok (listeningWorld, 1) ∧
    ∃ w', Activate owningAddClosures 2 listeningWorld 0 () =
        .ok (w', [(1, ⟨none, 0, 0⟩), (2, ⟨some 0, 1, 0⟩)]) ∧
      w'.handlers 0 = some ⟨[(1, ⟨none, 0, 0⟩), (2, ⟨some 0, 1, 0⟩)], 2⟩ ∧
      hooksOf 0 w' = some [(0, .removeEvent 0 2)] := by
  have hcalls : ∃ w1, AddEvent listeningWorld 0 1 (some 0) = .ok (w1, 2) ∧
      ActivateCalls owningAddClosures 2 listeningWorld 0 () =
        [(1, ⟨none, 0, 0⟩, listeningWorld), (2, ⟨some 0, 1, 0⟩, w1)] := ⟨_, rfl, rfl⟩
  obtain ⟨w1, hadd1, hcalls⟩ := hcalls
  obtain ⟨w', enew, h1, _, _, _, h5⟩ :=
    activate_invokes_added owningAddClosures listeningWorld 0 ⟨[(1, ⟨none, 0, 0⟩)], 1⟩ 1
      ⟨none, 0, 0⟩ 1 (some 0) () rfl (by simp [StdMap.Sorted]) (by simp) (by simp) 2 (by simp)
      (by
        intro c hc hk
        rw [hcalls] at hc
        simp only [List.mem_cons, List.mem_singleton, List.not_mem_nil, or_false] at hc
        rcases hc with rfl | rfl
        · exact ⟨w1, 2, w1, hadd1, by simp [owningAddClosures, hadd1], rfl⟩
        · simp at hk)
      (by
        intro c hc hk
        rw [hcalls] at hc
        simp only [List.mem_cons, List.mem_singleton, List.not_mem_nil, or_false] at hc
        rcases hc with rfl | rfl
        · simp at hk
        · exact ⟨w1, rfl, rfl⟩)
  have h2 : ∃ w2, Activate owningAddClosures 2 listeningWorld 0 () =
      .ok (w2, [(1, ⟨none, 0, 0⟩), (2, ⟨some 0, 1, 0⟩)]) ∧
      w2.handlers 0 = some ⟨[(1, ⟨none, 0, 0⟩), (2, ⟨some 0, 1, 0⟩)], 2⟩ ∧
      hooksOf 0 w2 = some [(0, .removeEvent 0 2)] := ⟨_, rfl, rfl, rfl⟩
  obtain ⟨w2, e1, e2, e3⟩ := h2
  rw [e1] at h1
  injection h1 with h1
  injection h1 with h1 _
  subst h1
  exact ⟨rfl, w2, e1, e2, e3⟩

/-! ## `~Widget` -/

theorem StdMap.erase_head {β : Type} (k : Int) (v : β) (t : StdMap β)
    (h : ∀ e ∈ t, k < e.1) : StdMap.erase ((k, v) :: t) k = t := by
  unfold StdMap.erase
  simp only [List.filter_cons, ne_eq, not_true_eq_false, decide_False, Bool.false_eq_true,
    if_false]
  apply List.filter_eq_self.mpr
  intro e he
  have := h e he
  simp only [ne_eq, decide_eq_true_eq]
  omega

theorem Rep.frame {hp hp' : Heap} (F : Forest) :
    ∀ parent, (∀ q ∈ F.addrs, hp' q = hp q) → Rep hp parent F → Rep hp' parent F := by
  induction F with
  | nil => intro _ _ _; trivial
  | cons a id kids rest ihk ihr =>
    intro parent hsame hrep
    obtain ⟨⟨l, ha⟩, hk, hr⟩ := hrep
    refine ⟨⟨l, ?_⟩, ihk a ?_ hk, ihr parent ?_ hr⟩
    · rw [hsame a (by simp [Forest.addrs])]; exact ha
    · intro q hq; exact hsame q (by simp [Forest.addrs, hq])
    · intro q hq; exact hsame q (by simp [Forest.addrs, hq])

/-- Outcome of detaching from the parent and releasing a widget whose child map has been
emptied by the loop. -/
theorem destroyWidget_of_children {fuel : Nat} {hp hp1 : Heap} {self : Nat} {log : List Nat}
    {wd : Widget} (hloop : destroyChildren fuel hp self = .ok (hp1, log))
    (hself : hp1 self = some wd) :
    DestroyWidget (fuel + 1) hp self =
      match wd.parent_ with
      | none => .ok (Function.update hp1 self none, log ++ [self])
      | some p =>
        match DeleteChild hp1 p self with
        | .error e => .error e
        | .ok hp2 => .ok (Function.update hp2 self none, log ++ [self]) := by
  rw [DestroyWidget]
  simp only [hloop, hself]

/-- The loop of `~Widget` on a widget whose children are the forest `F`: it returns with
enough fuel, every widget of `F` is released, each after all widgets below it, the child
map of the widget is empty and nothing else has changed. -/
theorem destroyChildren_forest (F : Forest) :
    ∀ (hp : Heap) (self : Nat) (wd : Widget) (fuel : Nat),
      hp self = some wd → wd.children_ = F.entries → F.Ordered → Rep hp self F →
      (self :: F.addrs).Nodup → 2 * F.size + 1 ≤ fuel →
      ∃ hp', destroyChildren fuel hp self = .ok (hp', F.postorder) ∧
        hp' self = some { wd with children_ := [] } ∧
        (∀ q ∈ F.addrs, hp' q = none) ∧
        (∀ q, q ∉ F.addrs → q ≠ self → hp' q = hp q) := by
  induction F with
  | nil =>
    intro hp self wd fuel hself hch _ _ _ hfuel
    obtain ⟨f, rfl⟩ : ∃ f, fuel = f + 1 := ⟨fuel - 1, by omega⟩
    refine ⟨hp, ?_, ?_, by simp [Forest.addrs], fun _ _ _ => rfl⟩
    · rw [destroyChildren]
      simp [hself, hch, Forest.entries, StdMap.first, Forest.postorder]
    · rw [hself]
      cases wd
      simp only [Forest.entries] at hch
      simp [hch]
  | cons a id kids rest ihk ihr =>
    intro hp self wd fuel hself hch hord hrep hnd hfuel
    obtain ⟨hordk, hordr, hlt⟩ := hord
    obtain ⟨⟨l, ha⟩, hrepk, hrepr⟩ := hrep
    simp only [Forest.addrs, List.nodup_cons, List.mem_cons, List.mem_append, not_or,
      List.nodup_append] at hnd
    obtain ⟨⟨hsa, hsk, hsr⟩, ⟨hak, har⟩, hndk, hndr, hdisj⟩ := hnd
    simp only [Forest.size] at hfuel
    obtain ⟨f, rfl⟩ : ∃ f, fuel = f + 2 := ⟨fuel - 2, by omega⟩
    -- the first child: its own loop, then detaching and release
    obtain ⟨hp1, hloop1, hp1a, hp1k, hp1o⟩ := ihk hp a ⟨id, some self, kids.entries, l⟩ f ha rfl
      hordk hrepk (List.nodup_cons.mpr ⟨hak, hndk⟩) (by omega)
    have hp1self : hp1 self = some wd := by
      rw [hp1o self hsk hsa]; exact hself
    have hfind : wd.children_.find id ≠ none := by
      rw [hch]; simp [Forest.entries, StdMap.find]
    have herase : wd.children_.erase id = rest.entries := by
      rw [hch]; exact StdMap.erase_head id a _ hlt
    have hdel : DeleteChild hp1 self a =
        .ok (Function.update hp1 self (some { wd with children_ := rest.entries })) := by
      simp [DeleteChild, hp1self, hp1a, hfind, herase]
    have hchild : DestroyWidget (f + 1) hp a =
        .ok (Function.update (Function.update hp1 self
          (some { wd with children_ := rest.entries })) a none, kids.postorder ++ [a]) := by
      rw [destroyWidget_of_children hloop1 hp1a]
      simp only [hdel]
    -- the remaining children
    have hsa' : a ≠ self := fun e => hsa e.symm
    obtain ⟨hp3, hloop3, hp3s, hp3r, hp3o⟩ := ihr
      (Function.update (Function.update hp1 self (some { wd with children_ := rest.entries }))
        a none) self { wd with children_ := rest.entries } (f + 1)
      (by simp [Function.update_noteq (Ne.symm hsa')]) rfl hordr
      (Rep.frame rest self (fun q hq => by
        have hqa : q ≠ a := fun e => har (e ▸ hq)
        have hqs : q ≠ self := fun e => hsr (e ▸ hq)
        have hqk : q ∉ kids.addrs := fun hk => hdisj hk hq
        rw [Function.update_noteq hqa, Function.update_noteq hqs]
        exact hp1o q hqk hqa) hrepr)
      (List.nodup_cons.mpr ⟨hsr, hndr⟩) (by omega)
    refine ⟨hp3, ?_, by simpa using hp3s, ?_, ?_⟩
    · rw [destroyChildren]
      simp [hself, hch, Forest.entries, StdMap.first, hchild, hloop3, Forest.postorder]
    · intro q hq
      simp only [Forest.addrs, List.mem_cons, List.mem_append] at hq
      by_cases hqr : q ∈ rest.addrs
      · exact hp3r q hqr
      · have hqs : q ≠ self := by
          rintro rfl
          rcases hq with h | h | h
          · exact hsa h
          · exact hsk h
          · exact hqr h
        rw [hp3o q hqr hqs]
        by_cases hqa : q = a
        · subst hqa; simp
        · rw [Function.update_noteq hqa, Function.update_noteq hqs]
          rcases hq with h | h | h
          · exact absurd h hqa
          · exact hp1k q h
          · exact absurd h hqr
    · intro q hq hqs
      simp only [Forest.addrs, List.mem_cons, List.mem_append, not_or] at hq
      obtain ⟨hqa, hqk, hqr⟩ := hq
      rw [hp3o q hqr hqs, Function.update_noteq hqa, Function.update_noteq hqs]
      exact hp1o q hqk hqa

theorem Forest.postorder_perm (F : Forest) : F.postorder.Perm F.addrs := by
  induction F with
  | nil => exact List.Perm.refl _
  | cons a id kids rest ihk ihr =>
    simp only [Forest.postorder, Forest.addrs]
    exact List.perm_middle.trans (List.Perm.cons a (List.Perm.append ihk ihr))

/-- In the post-order a widget comes before its parent. -/
theorem Forest.edges_order (F : Forest) :
    ∀ parent c p, (c, p) ∈ F.edges parent →
      c ∈ F.postorder ∧ (p = parent ∨ List.Sublist [c, p] F.postorder) := by
  induction F with
  | nil => intro parent c p h; simp [Forest.edges] at h
  | cons a id kids rest ihk ihr =>
    intro parent c p h
    simp only [Forest.edges, List.mem_cons, Prod.mk.injEq, List.mem_append] at h
    simp only [Forest.postorder]
    rcases h with ⟨rfl, rfl⟩ | h | h
    · exact ⟨by simp, Or.inl rfl⟩
    · obtain ⟨hc, hp⟩ := ihk a c p h
      refine ⟨List.mem_append_left _ hc, Or.inr ?_⟩
      rcases hp with rfl | hp
      · have h1 : List.Sublist [c] kids.postorder := List.singleton_sublist.mpr hc
        have h2 : List.Sublist [p] (p :: rest.postorder) :=
          List.singleton_sublist.mpr (List.mem_cons_self _ _)
        exact List.Sublist.append h1 h2
      · exact hp.trans (List.sublist_append_left _ _)
    · obtain ⟨hc, hp⟩ := ihr parent c p h
      refine ⟨List.mem_append_right _ (List.mem_cons_of_mem _ hc), ?_⟩
      rcases hp with rfl | hp
      · exact Or.inl rfl
      · exact Or.inr (hp.trans ((List.sublist_cons_self _ _).trans
          (List.sublist_append_right _ _)))

/-- C10: let the widgets below `self` form a finite tree in the heap (the forest `K` of its
children, distinct addresses, ordered child maps), and let the parent of `self`, if any, be
a live widget outside that tree which lists `self` under its id and lists no other widget
of the tree.  Then with enough fuel the loop of `~Widget` returns with every widget below
`self` released, the child map of `self` empty and the parent untouched, so the parent
still lists `self`; the destructor then returns, having released `self` and every widget
below it exactly once, each widget after all of its own children (post-order); in the
parent's child map the id of `self` is gone, no entry points to a released widget, and
every other id keeps its entry; all other widgets are unchanged. -/
theorem destroyWidget_cascade (hp : Heap) (self : Nat) (wd : Widget) (K : Forest) (fuel : Nat)
    (hself : hp self = some wd) (hch : wd.children_ = K.entries) (hord : K.Ordered)
    (hrep : Rep hp self K) (hnd : (self :: K.addrs).Nodup)
    (hpar : ∀ p, wd.parent_ = some p → p ∉ self :: K.addrs ∧
      ∃ pw, hp p = some pw ∧ pw.children_.Sorted ∧ (wd.widgetId_, self) ∈ pw.children_ ∧
        ∀ k c, (k, c) ∈ pw.children_ → k ≠ wd.widgetId_ → c ∉ self :: K.addrs)
    (hfuel : 2 * K.size + 1 ≤ fuel) :
    ∃ hp1 hp',
      destroyChildren fuel hp self = .ok (hp1, K.postorder) ∧
      hp1 self = some { wd with children_ := [] } ∧
      (∀ q ∈ K.addrs, hp1 q = none) ∧
      (∀ p, wd.parent_ = some p → hp1 p = hp p) ∧
      DestroyWidget (fuel + 1) hp self = .ok (hp', K.postorder ++ [self]) ∧
      (K.postorder ++ [self]).Perm (self :: K.addrs) ∧
      (∀ c p, (c, p) ∈ K.edges self → List.Sublist [c, p] (K.postorder ++ [self])) ∧
      (∀ q ∈ self :: K.addrs, hp' q = none) ∧
      (∀ p pw, wd.parent_ = some p → hp p = some pw →
        hp' p = some { pw with children_ := pw.children_.erase wd.widgetId_ } ∧
        (pw.children_.erase wd.widgetId_).find wd.widgetId_ = none ∧
        (∀ k c, (k, c) ∈ pw.children_.erase wd.widgetId_ → c ∉ self :: K.addrs) ∧
        (∀ k, k ≠ wd.widgetId_ →
          (pw.children_.erase wd.widgetId_).find k = pw.children_.find k)) ∧
      (∀ q, q ∉ self :: K.addrs → wd.parent_ ≠ some q → hp' q = hp q) := by
  obtain ⟨hp1, hloop, hp1s, hp1k, hp1o⟩ :=
    destroyChildren_forest K hp self wd fuel hself hch hord hrep hnd hfuel
  have hperm : (K.postorder ++ [self]).Perm (self :: K.addrs) :=
    (List.perm_append_comm).trans (List.Perm.cons self K.postorder_perm)
  have horder : ∀ c p, (c, p) ∈ K.edges self →
      List.Sublist [c, p] (K.postorder ++ [self]) := by
    intro c p h
    obtain ⟨hc, hp'⟩ := K.edges_order self c p h
    rcases hp' with rfl | hp'
    · exact List.Sublist.append (List.singleton_sublist.mpr hc) (List.Sublist.refl [p])
    · exact hp'.trans (List.sublist_append_left _ _)
  have hself_not : self ∉ K.addrs := (List.nodup_cons.mp hnd).1
  have hdw := destroyWidget_of_children hloop hp1s
  have hcases : wd.parent_ = none ∨ ∃ p, wd.parent_ = some p := by
    cases wd.parent_ with
    | none => exact Or.inl rfl
    | some p => exact Or.inr ⟨p, rfl⟩
  rcases hcases with hparent | ⟨p, hparent⟩
  · simp only [hparent] at hdw
    refine ⟨hp1, Function.update hp1 self none, hloop, hp1s, hp1k,
      (fun p hp' => by rw [hparent] at hp'; cases hp'), hdw, hperm, horder, ?_,
      (fun p pw hp' => by rw [hparent] at hp'; cases hp'), ?_⟩
    · intro q hq
      rcases List.mem_cons.mp hq with rfl | hq
      · simp
      · have : q ≠ self := fun e => hself_not (e ▸ hq)
        rw [Function.update_noteq this]
        exact hp1k q hq
    · intro q hq _
      simp only [List.mem_cons, not_or] at hq
      rw [Function.update_noteq hq.1]
      exact hp1o q hq.2 hq.1
  · obtain ⟨hpout, pw, hpw, hpsort, hpmem, hpother⟩ := hpar p hparent
    simp only [List.mem_cons, not_or] at hpout
    have hp1p : hp1 p = some pw := by rw [hp1o p hpout.2 hpout.1]; exact hpw
    have hfind : pw.children_.find wd.widgetId_ ≠ none := by
      rw [hpsort.find_of_mem hpmem]; simp
    have hdel : DeleteChild hp1 p self = .ok (Function.update hp1 p
        (some { pw with children_ := pw.children_.erase wd.widgetId_ })) := by
      simp [DeleteChild, hp1p, hp1s, hfind]
    simp only [hparent, hdel] at hdw
    refine ⟨hp1, _, hloop, hp1s, hp1k, ?_, hdw, hperm, horder, ?_, ?_, ?_⟩
    · intro p' hp'
      rw [hparent] at hp'; cases hp'
      rw [hp1p, hpw]
    · intro q hq
      rcases List.mem_cons.mp hq with rfl | hq
      · simp
      · have h1 : q ≠ self := fun e => hself_not (e ▸ hq)
        have h2 : q ≠ p := fun e => hpout.2 (e ▸ hq)
        rw [Function.update_noteq h1, Function.update_noteq h2]
        exact hp1k q hq
    · intro p' pw' hp' hpw'
      rw [hparent] at hp'; cases hp'
      rw [hpw] at hpw'; cases hpw'
      refine ⟨by simp [Function.update_noteq hpout.1], StdMap.find_erase_self _ _, ?_,
        fun k hk => StdMap.find_erase_ne _ hk⟩
      intro k c hkc
      simp only [StdMap.erase, List.mem_filter, ne_eq, decide_eq_true_eq] at hkc
      exact hpother k c hkc.1 hkc.2
    · intro q hq hqp
      simp only [List.mem_cons, not_or] at hq
      have h2 : q ≠ p := fun e => hqp (by rw [hparent, e])
      rw [Function.update_noteq hq.1, Function.update_noteq h2]
      exact hp1o q hq.2 hq.1

theorem destroyWidget_cascade_witness :
    ∃ hp1 hp',
      destroyChildren 7 sampleHeap 1 = .ok (hp1, [2, 4, 3]) ∧
      hp1 1 = some ⟨1, some 0, [], 2⟩ ∧
      hp1 0 = sampleHeap 0 ∧
      DestroyWidget 8 sampleHeap 1 = .ok (hp', [2, 4, 3, 1]) ∧
      List.Sublist [4, 3] [2, 4, 3, 1] ∧
      (∀ q ∈ [1, 2, 3, 4], hp' q = none) ∧
      hp' 0 = some ⟨0, none, [], 1⟩ := by
  obtain ⟨hp1, hp', h1, h2, _, h3, h4, _, h5, h6, h7, _⟩ :=
    destroyWidget_cascade sampleHeap 1 ⟨1, some 0, [(1, 2), (2, 3)], 2⟩ sampleKids 7 rfl rfl
      (by simp [sampleKids, Forest.Ordered, Forest.entries])
      ⟨⟨0, rfl⟩, trivial, ⟨1, rfl⟩, ⟨⟨0, rfl⟩, trivial, trivial⟩, trivial⟩
      (by simp [sampleKids, Forest.addrs])
      (by
        intro p hp
        cases hp
        refine ⟨by simp [sampleKids, Forest.addrs], ⟨0, none, [(1, 1)], 1⟩, rfl,
          by simp [StdMap.Sorted], by simp, ?_⟩
        intro k c hkc hk
        simp only [List.mem_singleton, Prod.mk.injEq] at hkc
        exact absurd hkc.1 hk)
      (by simp [sampleKids, Forest.size])
  exact ⟨hp1, hp', h1, h2, h3 0 rfl, h4, h5 4 3 (by simp [sampleKids, Forest.edges]), h6,
    (h7 0 ⟨0, none, [(1, 1)], 1⟩ rfl rfl).1⟩

/-- The example of C10 run: destroying `N` finishes the destructors of `x`, `z`, `y`, `N`
in this order. -/
theorem destroyWidget_example :
    ∃ hp', DestroyWidget 8 sampleHeap 1 = .ok (hp', [2, 4, 3, 1]) :=
  ⟨_, rfl⟩

/-! ## `GenerateChildId` and `AddChild` -/

/-- The example run mints the ids 1, 2, 3. -/
theorem runChildOps_example : ∃ hp, runChildOps 0 rootHeap sampleOps = .ok (hp, [1, 2, 3]) :=
  ⟨_, rfl⟩

theorem Shrinks.refl (hp : Heap) : Shrinks hp hp :=
  fun _ wd' h => ⟨wd', h, rfl, List.Sublist.refl _⟩

theorem Shrinks.trans {hp hp1 hp2 : Heap} (h1 : Shrinks hp hp1) (h2 : Shrinks hp1 hp2) :
    Shrinks hp hp2 := by
  intro q wd2 hq
  obtain ⟨wd1, hq1, hc1, hs1⟩ := h2 q wd2 hq
  obtain ⟨wd, hq0, hc0, hs0⟩ := h1 q wd1 hq1
  exact ⟨wd, hq0, hc1.trans hc0, hs1.trans hs0⟩

theorem Shrinks.release (hp : Heap) (self : Nat) : Shrinks hp (Function.update hp self none) := by
  intro q wd' hq
  by_cases h : q = self
  · subst h; simp at hq
  · rw [Function.update_noteq h] at hq
    exact ⟨wd', hq, rfl, List.Sublist.refl _⟩

theorem Shrinks.deleteChild {hp hp' : Heap} {self widget : Nat}
    (h : DeleteChild hp self widget = .ok hp') : Shrinks hp hp' := by
  unfold DeleteChild at h
  cases hs : hp self with
  | none => simp [hs] at h
  | some p =>
    cases hw : hp widget with
    | none => simp [hs, hw] at h
    | some c =>
      simp only [hs, hw] at h
      by_cases hf : p.children_.find c.widgetId_ = none
      · simp [hf] at h
      · simp only [hf, if_false, Except.ok.injEq] at h
        subst h
        intro q wd' hq
        by_cases hqs : q = self
        · subst hqs
          simp only [Function.update_same, Option.some.injEq] at hq
          subst hq
          exact ⟨p, hs, rfl, StdMap.erase_sublist _ _⟩
        · rw [Function.update_noteq hqs] at hq
          exact ⟨wd', hq, rfl, List.Sublist.refl _⟩

/-- Whatever the heap and the fuel, a returning `~Widget` only releases widgets and erases
entries of child maps; it changes no counter and adds no entry. -/
theorem destroyWidget_shrinks (fuel : Nat) :
    (∀ hp self hp' log, DestroyWidget fuel hp self = .ok (hp', log) → Shrinks hp hp') ∧
    (∀ hp self hp' log, destroyChildren fuel hp self = .ok (hp', log) → Shrinks hp hp') := by
  induction fuel with
  | zero =>
    constructor
    · intro hp self hp' log h; rw [DestroyWidget] at h; cases h
    · intro hp self hp' log h; rw [destroyChildren] at h; cases h
  | succ f ih =>
    constructor
    · intro hp self hp' log h
      rw [DestroyWidget] at h
      cases hl : destroyChildren f hp self with
      | error e => simp [hl] at h
      | ok r =>
        obtain ⟨hp1, log1⟩ := r
        have s1 := ih.2 hp self hp1 log1 hl
        simp only [hl] at h
        cases hs : hp1 self with
        | none => simp [hs] at h
        | some wd =>
          simp only [hs] at h
          cases hpar : wd.parent_ with
          | none =>
            simp only [hpar, Except.ok.injEq, Prod.mk.injEq] at h
            rw [← h.1]
            exact s1.trans (Shrinks.release _ _)
          | some p =>
            simp only [hpar] at h
            cases hd : DeleteChild hp1 p self with
            | error e => simp [hd] at h
            | ok hp2 =>
              simp only [hd, Except.ok.injEq, Prod.mk.injEq] at h
              rw [← h.1]
              exact (s1.trans (Shrinks.deleteChild hd)).trans (Shrinks.release _ _)
    · intro hp self hp' log h
      rw [destroyChildren] at h
      cases hs : hp self with
      | none => simp [hs] at h
      | some wd =>
        simp only [hs] at h
        cases hfirst : wd.children_.first with
        | none =>
          simp only [hfirst, Except.ok.injEq, Prod.mk.injEq] at h
          rw [← h.1]
          exact Shrinks.refl _
        | some e =>
          obtain ⟨k, child⟩ := e
          simp only [hfirst] at h
          cases hc : DestroyWidget f hp child with
          | error e => simp [hc] at h
          | ok r =>
            obtain ⟨hp1, log1⟩ := r
            simp only [hc] at h
            cases hl : destroyChildren f hp1 self with
            | error e => simp [hl] at h
            | ok r2 =>
              obtain ⟨hp2, log2⟩ := r2
              simp only [hl, Except.ok.injEq, Prod.mk.injEq] at h
              rw [← h.1]
              exact (ih.1 hp child hp1 log1 hc).trans (ih.2 hp1 self hp2 log2 hl)

theorem StdMap.find_none_of_lt {β : Type} {m : StdMap β} {k : Int} (h : ∀ e ∈ m, e.1 < k) :
    m.find k = none := by
  induction m with
  | nil => rfl
  | cons e t ih =>
    obtain ⟨a, v⟩ := e
    have ha : a < k := h (a, v) (List.mem_cons_self _ _)
    have hne : ¬ a = k := by omega
    simp only [StdMap.find, hne, if_false]
    exact ih (fun e he => h e (List.mem_cons_of_mem _ he))

/-- The constructor of a child whose window is created: the parent's counter is advanced,
the child gets the new value as its id and is entered under it in the parent's child map. -/
theorem constructWidget_created {hp : Heap} {P self : Nat} {wd : Widget}
    (hP : hp P = some wd) (hself : hp self = none)
    (hkeys : ∀ e ∈ wd.children_, e.1 ≤ wd.lastChildId_) :
    ConstructWidget hp (some P) self true =
      .ok (.widget
        (Function.update
          (Function.update
            (Function.update hp P (some { wd with lastChildId_ := wd.lastChildId_ + 1 }))
            self (some ⟨wd.lastChildId_ + 1, some P, [], 0⟩))
          P (some { wd with lastChildId_ := wd.lastChildId_ + 1,
                            children_ := wd.children_ ++ [(wd.lastChildId_ + 1, self)] }))
        (wd.lastChildId_ + 1)) := by
  have hne : P ≠ self := by
    rintro rfl
    rw [hP] at hself; cases hself
  have hlt : ∀ e ∈ wd.children_, e.1 < wd.lastChildId_ + 1 := fun e he => by
    have := hkeys e he; omega
  have hfind := StdMap.find_none_of_lt hlt
  simp [ConstructWidget, hself, GenerateChildId, hP, AddChild, Function.update_noteq hne,
    hfind, StdMap.assign_append _ _ _ hlt]

/-- The constructor of a child whose window cannot be created: the parent's counter is
advanced all the same, and no child is entered. -/
theorem constructWidget_failed {hp : Heap} {P self : Nat} {wd : Widget}
    (hP : hp P = some wd) (hself : hp self = none) :
    ConstructWidget hp (some P) self false =
      .ok (.windowsError
        (Function.update hp P (some { wd with lastChildId_ := wd.lastChildId_ + 1 }))
        (wd.lastChildId_ + 1)) := by
  simp [ConstructWidget, hself, GenerateChildId, hP]

/-- A returning constructor call with a parent had a live parent and free storage. -/
theorem constructWidget_ok_inv {hp : Heap} {P self : Nat} {created : Bool} {r : Constructed}
    (h : ConstructWidget hp (some P) self created = .ok r) :
    hp self = none ∧ ∃ wd, hp P = some wd := by
  unfold ConstructWidget at h
  cases hs : hp self with
  | some x => simp [hs] at h
  | none =>
    refine ⟨rfl, ?_⟩
    cases hp' : hp P with
    | none => simp [hs, GenerateChildId, hp'] at h
    | some wd => exact ⟨wd, rfl⟩

/-- The ids minted for the widget at `P` along a run that starts with counter `n` and all
keys of the child map at most `n`: they increase, lie between `n + 1` and `n` plus their
number, and at the end the counter is `n` plus their number and bounds all keys. -/
theorem runChildOps_ids (P : Nat) :
    ∀ (ops : List ChildOp) (hp hp' : Heap) (ids : List Int) (n : Int),
      (∀ wd, hp P = some wd → wd.lastChildId_ = n ∧ ∀ e ∈ wd.children_, e.1 ≤ n) →
      runChildOps P hp ops = .ok (hp', ids) →
      ids.Pairwise (fun a b => a < b) ∧
      (∀ id ∈ ids, n < id ∧ id ≤ n + ids.length) ∧
      (∀ wd', hp' P = some wd' →
        wd'.lastChildId_ = n + ids.length ∧ ∀ e ∈ wd'.children_, e.1 ≤ wd'.lastChildId_) := by
  intro ops
  induction ops with
  | nil =>
    intro hp hp' ids n hinv hrun
    simp only [runChildOps, Except.ok.injEq, Prod.mk.injEq] at hrun
    obtain ⟨rfl, rfl⟩ := hrun
    refine ⟨List.Pairwise.nil, by simp, fun wd' hw => ?_⟩
    obtain ⟨h1, h2⟩ := hinv wd' hw
    exact ⟨by simp [h1], fun e he => by rw [h1]; exact h2 e he⟩
  | cons op rest ih =>
    intro hp hp' ids n hinv hrun
    cases op with
    | construct self created =>
      have hex : ∃ r, ConstructWidget hp (some P) self created = .ok r := by
        simp only [runChildOps] at hrun
        cases hc : ConstructWidget hp (some P) self created with
        | error e => simp [hc] at hrun
        | ok r => exact ⟨r, rfl⟩
      obtain ⟨r, hc⟩ := hex
      obtain ⟨hself, wd, hP⟩ := constructWidget_ok_inv hc
      obtain ⟨hn, hkeys⟩ := hinv wd hP
      have hne : P ≠ self := by
        rintro rfl
        rw [hP] at hself; cases hself
      -- both outcomes continue from a heap in which the counter is `n + 1`
      have hcont : ∃ hp1, (∀ wd1, hp1 P = some wd1 →
          wd1.lastChildId_ = n + 1 ∧ ∀ e ∈ wd1.children_, e.1 ≤ n + 1) ∧
          ∃ ids', runChildOps P hp1 rest = .ok (hp', ids') ∧ ids = (n + 1) :: ids' := by
        cases created with
        | true =>
          obtain ⟨hp1, hcw, hP1⟩ : ∃ hp1, ConstructWidget hp (some P) self true =
              .ok (.widget hp1 (wd.lastChildId_ + 1)) ∧
              hp1 P = some ⟨wd.widgetId_, wd.parent_,
                wd.children_ ++ [(wd.lastChildId_ + 1, self)], wd.lastChildId_ + 1⟩ :=
            ⟨_, constructWidget_created hP hself (by rw [hn]; exact hkeys), by simp⟩
          simp only [runChildOps, hcw] at hrun
          refine ⟨hp1, ?_, ?_⟩
          · intro wd1 hw1
            rw [hP1] at hw1
            simp only [Option.some.injEq] at hw1
            subst hw1
            refine ⟨by simp [hn], ?_⟩
            intro e he
            simp only [List.mem_append, List.mem_singleton] at he
            rcases he with he | he
            · have := hkeys e he; omega
            · subst he; simp [hn]
          · cases hr : runChildOps P hp1 rest with
            | error e => simp [hr] at hrun
            | ok r2 =>
              obtain ⟨hp2, ids'⟩ := r2
              simp only [hr, Except.ok.injEq, Prod.mk.injEq] at hrun
              obtain ⟨rfl, rfl⟩ := hrun
              exact ⟨ids', rfl, by rw [hn]⟩
        | false =>
          obtain ⟨hp1, hcw, hP1⟩ : ∃ hp1, ConstructWidget hp (some P) self false =
              .ok (.windowsError hp1 (wd.lastChildId_ + 1)) ∧
              hp1 P = some { wd with lastChildId_ := wd.lastChildId_ + 1 } :=
            ⟨_, constructWidget_failed hP hself, by simp⟩
          simp only [runChildOps, hcw] at hrun
          refine ⟨hp1, ?_, ?_⟩
          · intro wd1 hw1
            rw [hP1] at hw1
            simp only [Option.some.injEq] at hw1
            subst hw1
            refine ⟨by simp [hn], ?_⟩
            intro e he
            have := hkeys e he
            simp only at he ⊢
            omega
          · cases hr : runChildOps P hp1 rest with
            | error e => simp [hr] at hrun
            | ok r2 =>
              obtain ⟨hp2, ids'⟩ := r2
              simp only [hr, Except.ok.injEq, Prod.mk.injEq] at hrun
              obtain ⟨rfl, rfl⟩ := hrun
              exact ⟨ids', rfl, by rw [hn]⟩
      obtain ⟨hp1, hinv1, ids', hrest, rfl⟩ := hcont
      obtain ⟨hpair, hrange, hfinal⟩ := ih hp1 hp' ids' (n + 1) hinv1 hrest
      refine ⟨List.pairwise_cons.mpr ⟨fun id hid => (hrange id hid).1, hpair⟩, ?_, ?_⟩
      · intro id hid
        simp only [List.length_cons, Nat.cast_add, Nat.cast_one]
        rcases List.mem_cons.mp hid with rfl | hid
        · constructor <;> omega
        · have := hrange id hid
          constructor <;> omega
      · intro wd' hw'
        obtain ⟨h1, h2⟩ := hfinal wd' hw'
        refine ⟨?_, h2⟩
        simp only [List.length_cons, Nat.cast_add, Nat.cast_one]
        omega
    | destroy self fuel =>
      simp only [runChildOps] at hrun
      cases hd : DestroyWidget fuel hp self with
      | error e => simp [hd] at hrun
      | ok r =>
        obtain ⟨hp1, log⟩ := r
        simp only [hd] at hrun
        have hsh := (destroyWidget_shrinks fuel).1 hp self hp1 log hd
        refine ih hp1 hp' ids n ?_ hrun
        intro wd1 hw1
        obtain ⟨wd, hw, hc, hs⟩ := hsh P wd1 hw1
        obtain ⟨h1, h2⟩ := hinv wd hw
        exact ⟨hc.trans h1, fun e he => h2 e (hs.subset he)⟩

/-- C11: take a live widget `P` in which no key of the child map exceeds the counter (as
after its construction, when the map is empty and the counter 0), and any sequence of
constructions of children of `P` (with or without success of the native creation) and of
destructions, as far as it runs.  The ids that `GenerateChildId` returned along the run
strictly increase and exceed the initial counter, so no two are equal.  In the state
reached, if `P` is live, its counter is the initial one plus the number of ids minted; the
next id, counter plus one, exceeds every id minted so far and every key of the child map,
so it is not a key of the map; `GenerateChildId` returns it, and the constructor of a new
child returns, the assertion of `AddChild` holding. -/
theorem generateChildId_never_reused (P : Nat) (hp0 : Heap) (wd0 : Widget)
    (ops : List ChildOp) (hp : Heap) (ids : List Int)
    (hP : hp0 P = some wd0) (hkeys : ∀ e ∈ wd0.children_, e.1 ≤ wd0.lastChildId_)
    (hrun : runChildOps P hp0 ops = .ok (hp, ids)) :
    ids.Pairwise (fun a b => a < b) ∧
    (∀ id ∈ ids, wd0.lastChildId_ < id) ∧
    ∀ wd self created, hp P = some wd → hp self = none →
      wd.lastChildId_ = wd0.lastChildId_ + ids.length ∧
      (∀ id ∈ ids, id < wd.lastChildId_ + 1) ∧
      (∀ e ∈ wd.children_, e.1 < wd.lastChildId_ + 1) ∧
      wd.children_.find (wd.lastChildId_ + 1) = none ∧
      (∃ hp1, GenerateChildId hp P = .ok (hp1, wd.lastChildId_ + 1)) ∧
      ∃ hp2, ConstructWidget hp (some P) self created =
        .ok (if created then .widget hp2 (wd.lastChildId_ + 1)
             else .windowsError hp2 (wd.lastChildId_ + 1)) := by
  obtain ⟨hpair, hrange, hfinal⟩ := runChildOps_ids P ops hp0 hp ids wd0.lastChildId_
    (fun wd hw => by rw [hP] at hw; cases hw; exact ⟨rfl, hkeys⟩) hrun
  refine ⟨hpair, fun id hid => (hrange id hid).1, ?_⟩
  intro wd self created hw hself
  obtain ⟨hcount, hk⟩ := hfinal wd hw
  have hlt : ∀ e ∈ wd.children_, e.1 < wd.lastChildId_ + 1 := fun e he => by
    have := hk e he; omega
  have hgen : ∃ hp1, GenerateChildId hp P = .ok (hp1, wd.lastChildId_ + 1) :=
    ⟨Function.update hp P (some ⟨wd.widgetId_, wd.parent_, wd.children_, wd.lastChildId_ + 1⟩),
      by simp [GenerateChildId, hw]⟩
  refine ⟨hcount, ?_, hlt, StdMap.find_none_of_lt hlt, hgen, ?_⟩
  · intro id hid
    have := (hrange id hid).2
    omega
  · cases created with
    | true => exact ⟨_, constructWidget_created hw hself hk⟩
    | false => exact ⟨_, constructWidget_failed hw hself⟩

theorem generateChildId_never_reused_witness :
    ∃ hp, runChildOps 0 rootHeap sampleOps = .ok (hp, [1, 2, 3]) ∧
      ([1, 2, 3] : List Int).Pairwise (fun a b => a < b) ∧
      (∀ id ∈ ([1, 2, 3] : List Int), (0 : Int) < id) ∧
      ∀ wd self created, hp 0 = some wd → hp self = none →
        wd.lastChildId_ = 0 + ([1, 2, 3] : List Int).length ∧
        (∀ id ∈ ([1, 2, 3] : List Int), id < wd.lastChildId_ + 1) ∧
        (∀ e ∈ wd.children_, e.1 < wd.lastChildId_ + 1) ∧
        wd.children_.find (wd.lastChildId_ + 1) = none ∧
        (∃ hp1, GenerateChildId hp 0 = .ok (hp1, wd.lastChildId_ + 1)) ∧
        ∃ hp2, ConstructWidget hp (some 0) self created =
          .ok (if created then .widget hp2 (wd.lastChildId_ + 1)
               else .windowsError hp2 (wd.lastChildId_ + 1)) := by
  obtain ⟨hp, h⟩ := runChildOps_example
  exact ⟨hp, h, generateChildId_never_reused 0 rootHeap ⟨0, none, [], 0⟩ sampleOps hp [1, 2, 3]
    rfl (by simp) h⟩

/-! ## Subscriptions and their hooks -/

/-- The example program runs to its end. -/
theorem runEventOps_example : ∃ w, runEventOps linkWorld linkOps = .ok w ∧
    eventsOf 0 w = some [(1, ⟨some 0, 5, 0⟩), (3, ⟨none, 7, 0⟩), (4, ⟨some 0, 8, 2⟩)] ∧
    hooksOf 0 w = some [(0, .removeEvent 0 1), (2, .removeEvent 0 4)] :=
  ⟨_, rfl, rfl, rfl⟩

theorem linked_of_empty {w : World} (h : EmptyWorld w) : Linked w where
  events := fun c hc hh => by
    rw [h.1 c hc hh]
    exact ⟨List.Pairwise.nil, by simp⟩
  hooks := fun o ow ho => by
    obtain ⟨h1, h2⟩ := h.2 o ow ho
    rw [h1]
    exact ⟨List.Pairwise.nil, h2, by simp⟩
  hooked := fun c hc id ev o hh hm _ => by
    rw [h.1 c hc hh] at hm
    simp at hm
  owned := fun o ow k hook ho hm => by
    rw [(h.2 o ow ho).1] at hm
    simp at hm

theorem StdMap.mem_erase {β : Type} {m : StdMap β} {k : Int} {e : Int × β} :
    e ∈ m.erase k ↔ e ∈ m ∧ e.1 ≠ k := by
  simp [StdMap.erase, List.mem_filter]

theorem addEvent_without_owner {w : World} {self func : Nat} {h : EventHandler}
    (hh : w.handlers self = some h) (hb : ∀ e ∈ h.events_, e.1 ≤ h.lastEvent_) :
    AddEvent w self func none =
      .ok (⟨w.owners, Function.update w.handlers self
        (some ⟨h.events_ ++ [(h.lastEvent_ + 1, ⟨none, func, 0⟩)], h.lastEvent_ + 1⟩)⟩,
        h.lastEvent_ + 1) := by
  have hlt : ∀ e ∈ h.events_, e.1 < h.lastEvent_ + 1 := fun e he => by
    have := hb e he; omega
  simp [AddEvent, hh, StdMap.assign_append _ _ _ hlt]

theorem addEvent_with_owner {w : World} {self func o : Nat} {h : EventHandler}
    {ow : EventOwner} (hh : w.handlers self = some h) (ho : w.owners o = some ow)
    (hb : ∀ e ∈ h.events_, e.1 ≤ h.lastEvent_)
    (hbo : ∀ e ∈ ow.destroyHooks_, e.1 < ow.lastEvent_) :
    AddEvent w self func (some o) =
      .ok (⟨Function.update w.owners o
          (some ⟨ow.destroyHooks_ ++ [(ow.lastEvent_, .removeEvent self (h.lastEvent_ + 1))],
            ow.lastEvent_ + 1, ow.destroying_⟩),
        Function.update w.handlers self
          (some ⟨h.events_ ++ [(h.lastEvent_ + 1, ⟨some o, func, ow.lastEvent_⟩)],
            h.lastEvent_ + 1⟩)⟩,
        h.lastEvent_ + 1) := by
  have hlt : ∀ e ∈ h.events_, e.1 < h.lastEvent_ + 1 := fun e he => by
    have := hb e he; omega
  simp [AddEvent, hh, AddDestroyHook, ho, EventOwner.AddDestroyHook,
    StdMap.assign_append _ _ _ hlt, StdMap.assign_append _ _ _ hbo]

/-- `AddEvent` without owner keeps subscriptions and hooks matched. -/
theorem Linked.addEvent_none {w : World} (hl : Linked w) {self func : Nat} {h : EventHandler}
    (hh : w.handlers self = some h) :
    Linked ⟨w.owners, Function.update w.handlers self
      (some ⟨h.events_ ++ [(h.lastEvent_ + 1, ⟨none, func, 0⟩)], h.lastEvent_ + 1⟩)⟩ where
  events := by
    intro c hc hhc
    by_cases hcs : c = self
    · subst hcs
      simp only [Function.update_same, Option.some.injEq] at hhc
      subst hhc
      obtain ⟨hs, hb⟩ := hl.events c h hh
      refine ⟨hs.append_last _ _ (fun e he => by have := hb e he; omega), ?_⟩
      intro e he
      simp only [List.mem_append, List.mem_singleton] at he
      rcases he with he | he
      · have := hb e he; simp only; omega
      · subst he; simp
    · simp only [Function.update_noteq hcs] at hhc
      exact hl.events c hc hhc
  hooks := hl.hooks
  hooked := by
    intro c hc id ev o hhc hm hown
    by_cases hcs : c = self
    · subst hcs
      simp only [Function.update_same, Option.some.injEq] at hhc
      subst hhc
      simp only [List.mem_append, List.mem_singleton, Prod.mk.injEq] at hm
      rcases hm with hm | ⟨_, rfl⟩
      · exact hl.hooked c h id ev o hh hm hown
      · cases hown
    · simp only [Function.update_noteq hcs] at hhc
      exact hl.hooked c hc id ev o hhc hm hown
  owned := by
    intro o ow k hook ho hm
    obtain ⟨c, id, hc, ev, h1, h2, h3, h4, h5⟩ := hl.owned o ow k hook ho hm
    by_cases hcs : c = self
    · subst hcs
      rw [hh] at h2; cases h2
      exact ⟨c, id, ⟨h.events_ ++ [(h.lastEvent_ + 1, ⟨none, func, 0⟩)], h.lastEvent_ + 1⟩, ev,
        h1, by simp, List.mem_append_left _ h3, h4, h5⟩
    · exact ⟨c, id, hc, ev, h1, by simp [Function.update_noteq hcs, h2], h3, h4, h5⟩

/-- `AddEvent` with an owner keeps subscriptions and hooks matched. -/
theorem Linked.addEvent_some {w : World} (hl : Linked w) {self func o : Nat}
    {h : EventHandler} {ow : EventOwner} (hh : w.handlers self = some h)
    (ho : w.owners o = some ow) :
    Linked ⟨Function.update w.owners o
        (some ⟨ow.destroyHooks_ ++ [(ow.lastEvent_, .removeEvent self (h.lastEvent_ + 1))],
          ow.lastEvent_ + 1, ow.destroying_⟩),
      Function.update w.handlers self
        (some ⟨h.events_ ++ [(h.lastEvent_ + 1, ⟨some o, func, ow.lastEvent_⟩)],
          h.lastEvent_ + 1⟩)⟩ where
  events := by
    intro c hc hhc
    by_cases hcs : c = self
    · subst hcs
      simp only [Function.update_same, Option.some.injEq] at hhc
      subst hhc
      obtain ⟨hs, hb⟩ := hl.events c h hh
      refine ⟨hs.append_last _ _ (fun e he => by have := hb e he; omega), ?_⟩
      intro e he
      simp only [List.mem_append, List.mem_singleton] at he
      rcases he with he | he
      · have := hb e he; simp only; omega
      · subst he; simp
    · simp only [Function.update_noteq hcs] at hhc
      exact hl.events c hc hhc
  hooks := by
    intro p pw hp
    by_cases hpo : p = o
    · subst hpo
      simp only [Function.update_same, Option.some.injEq] at hp
      subst hp
      obtain ⟨hs, hd, hb⟩ := hl.hooks p ow ho
      refine ⟨hs.append_last _ _ hb, hd, ?_⟩
      intro e he
      simp only [List.mem_append, List.mem_singleton] at he
      rcases he with he | he
      · have := hb e he; simp only; omega
      · subst he; simp
    · simp only [Function.update_noteq hpo] at hp
      exact hl.hooks p pw hp
  hooked := by
    intro c hc id ev p hhc hm hown
    -- the hook of a subscription that was there before
    have hold : ∀ c id ev p hc, w.handlers c = some hc → (id, ev) ∈ hc.events_ →
        ev.owner = some p →
        ∃ pw, Function.update w.owners o
          (some ⟨ow.destroyHooks_ ++ [(ow.lastEvent_, .removeEvent self (h.lastEvent_ + 1))],
            ow.lastEvent_ + 1, ow.destroying_⟩) p = some pw ∧
          (ev.hook, Hook.removeEvent c id) ∈ pw.destroyHooks_ := by
      intro c id ev p hc hhc hm hown
      obtain ⟨pw, hp, hmem⟩ := hl.hooked c hc id ev p hhc hm hown
      by_cases hpo : p = o
      · subst hpo
        rw [ho] at hp; cases hp
        exact ⟨_, Function.update_same _ _ _, List.mem_append_left _ hmem⟩
      · exact ⟨pw, by simp [Function.update_noteq hpo, hp], hmem⟩
    by_cases hcs : c = self
    · subst hcs
      simp only [Function.update_same, Option.some.injEq] at hhc
      subst hhc
      simp only [List.mem_append, List.mem_singleton, Prod.mk.injEq] at hm
      rcases hm with hm | ⟨rfl, rfl⟩
      · exact hold c id ev p h hh hm hown
      · simp only [Option.some.injEq] at hown
        subst hown
        exact ⟨_, Function.update_same _ _ _, by simp⟩
    · simp only [Function.update_noteq hcs] at hhc
      exact hold c id ev p hc hhc hm hown
  owned := by
    intro p pw k hook hp hm
    -- the subscription of a hook that was there before
    have hold : ∀ p pw k hook, w.owners p = some pw → (k, hook) ∈ pw.destroyHooks_ →
        ∃ c id hc ev, hook = Hook.removeEvent c id ∧
          Function.update w.handlers self
            (some ⟨h.events_ ++ [(h.lastEvent_ + 1, ⟨some o, func, ow.lastEvent_⟩)],
              h.lastEvent_ + 1⟩) c = some hc ∧
          (id, ev) ∈ hc.events_ ∧ ev.owner = some p ∧ ev.hook = k := by
      intro p pw k hook hp hm
      obtain ⟨c, id, hc, ev, h1, h2, h3, h4, h5⟩ := hl.owned p pw k hook hp hm
      by_cases hcs : c = self
      · subst hcs
        rw [hh] at h2; cases h2
        exact ⟨c, id, ⟨h.events_ ++ [(h.lastEvent_ + 1, ⟨some o, func, ow.lastEvent_⟩)],
          h.lastEvent_ + 1⟩, ev, h1, by simp, List.mem_append_left _ h3, h4, h5⟩
      · exact ⟨c, id, hc, ev, h1, by simp [Function.update_noteq hcs, h2], h3, h4, h5⟩
    by_cases hpo : p = o
    · subst hpo
      simp only [Function.update_same, Option.some.injEq] at hp
      subst hp
      simp only [List.mem_append, List.mem_singleton, Prod.mk.injEq] at hm
      rcases hm with hm | ⟨rfl, rfl⟩
      · exact hold p ow k hook ho hm
      · exact ⟨self, h.lastEvent_ + 1,
          ⟨h.events_ ++ [(h.lastEvent_ + 1, ⟨some p, func, ow.lastEvent_⟩)],
            h.lastEvent_ + 1⟩, ⟨some p, func, ow.lastEvent_⟩, rfl, by simp, by simp, rfl, rfl⟩
    · simp only [Function.update_noteq hpo] at hp
      exact hold p pw k hook hp hm

/-- A returning `AddEvent` keeps subscriptions and hooks matched. -/
theorem Linked.addEvent {w w' : World} (hl : Linked w) {self func : Nat} {owner : Option Nat}
    {id : Int} (hadd : AddEvent w self func owner = .ok (w', id)) : Linked w' := by
  cases hh : w.handlers self with
  | none => simp [AddEvent, hh] at hadd
  | some h =>
    cases owner with
    | none =>
      rw [addEvent_without_owner hh (hl.events self h hh).2] at hadd
      simp only [Except.ok.injEq, Prod.mk.injEq] at hadd
      rw [← hadd.1]
      exact hl.addEvent_none hh
    | some o =>
      cases ho : w.owners o with
      | none => simp [AddEvent, hh, AddDestroyHook, ho] at hadd
      | some ow =>
        rw [addEvent_with_owner hh ho (hl.events self h hh).2 (hl.hooks o ow ho).2.2] at hadd
        simp only [Except.ok.injEq, Prod.mk.injEq] at hadd
        rw [← hadd.1]
        exact hl.addEvent_some hh ho

/-- `RemoveEvent` of a subscription without owner keeps subscriptions and hooks matched. -/
theorem Linked.removeEvent_none {w : World} (hl : Linked w) {self : Nat} {h : EventHandler}
    {id : Int} {ev : Event} (hh : w.handlers self = some h) (hm : (id, ev) ∈ h.events_)
    (hown : ev.owner = none) :
    Linked ⟨w.owners, Function.update w.handlers self
      (some ⟨h.events_.erase id, h.lastEvent_⟩)⟩ where
  events := by
    intro c hc hhc
    by_cases hcs : c = self
    · subst hcs
      simp only [Function.update_same, Option.some.injEq] at hhc
      subst hhc
      obtain ⟨hs, hb⟩ := hl.events c h hh
      exact ⟨hs.erase id, fun e he => hb e (StdMap.mem_erase.mp he).1⟩
    · simp only [Function.update_noteq hcs] at hhc
      exact hl.events c hc hhc
  hooks := hl.hooks
  hooked := by
    intro c hc id' ev' p hhc hm' hown'
    by_cases hcs : c = self
    · subst hcs
      simp only [Function.update_same, Option.some.injEq] at hhc
      subst hhc
      exact hl.hooked c h id' ev' p hh (StdMap.mem_erase.mp hm').1 hown'
    · simp only [Function.update_noteq hcs] at hhc
      exact hl.hooked c hc id' ev' p hhc hm' hown'
  owned := by
    intro p pw k hook hp hmk
    obtain ⟨c, id', hc, ev', h1, h2, h3, h4, h5⟩ := hl.owned p pw k hook hp hmk
    by_cases hcs : c = self
    · subst hcs
      rw [hh] at h2; cases h2
      have hne : id' ≠ id := by
        rintro rfl
        have := (hl.events c h hh).1.eq_of_mem h3 hm
        subst this
        rw [hown] at h4; cases h4
      exact ⟨c, id', ⟨h.events_.erase id, h.lastEvent_⟩, ev', h1, Function.update_same _ _ _,
        StdMap.mem_erase.mpr ⟨h3, hne⟩, h4, h5⟩
    · exact ⟨c, id', hc, ev', h1, by simp [Function.update_noteq hcs, h2], h3, h4, h5⟩

/-- `RemoveEvent` of a subscription with an owner keeps subscriptions and hooks matched. -/
theorem Linked.removeEvent_some {w : World} (hl : Linked w) {self o : Nat}
    {h : EventHandler} {ow : EventOwner} {id : Int} {ev : Event}
    (hh : w.handlers self = some h) (hm : (id, ev) ∈ h.events_) (hown : ev.owner = some o)
    (ho : w.owners o = some ow) :
    Linked ⟨Function.update w.owners o (some (ow.RemoveDestroyHook ev.hook)),
      Function.update w.handlers self (some ⟨h.events_.erase id, h.lastEvent_⟩)⟩ where
  events := by
    intro c hc hhc
    by_cases hcs : c = self
    · subst hcs
      simp only [Function.update_same, Option.some.injEq] at hhc
      subst hhc
      obtain ⟨hs, hb⟩ := hl.events c h hh
      exact ⟨hs.erase id, fun e he => hb e (StdMap.mem_erase.mp he).1⟩
    · simp only [Function.update_noteq hcs] at hhc
      exact hl.events c hc hhc
  hooks := by
    intro p pw hp
    by_cases hpo : p = o
    · subst hpo
      simp only [Function.update_same, Option.some.injEq] at hp
      subst hp
      obtain ⟨hs, hd, hb⟩ := hl.hooks p ow ho
      exact ⟨hs.erase ev.hook, hd, fun e he => hb e (StdMap.mem_erase.mp he).1⟩
    · simp only [Function.update_noteq hpo] at hp
      exact hl.hooks p pw hp
  hooked := by
    intro c hc id' ev' p hhc hm' hown'
    -- the subscription was there before, and is not the removed one
    have hbefore : ∃ hc0, w.handlers c = some hc0 ∧ (id', ev') ∈ hc0.events_ ∧
        (c = self → id' ≠ id) := by
      by_cases hcs : c = self
      · subst hcs
        simp only [Function.update_same, Option.some.injEq] at hhc
        subst hhc
        exact ⟨h, hh, (StdMap.mem_erase.mp hm').1, fun _ => (StdMap.mem_erase.mp hm').2⟩
      · simp only [Function.update_noteq hcs] at hhc
        exact ⟨hc, hhc, hm', fun e => absurd e hcs⟩
    obtain ⟨hc0, hhc0, hm0, hdiff⟩ := hbefore
    obtain ⟨pw, hp, hmem⟩ := hl.hooked c hc0 id' ev' p hhc0 hm0 hown'
    by_cases hpo : p = o
    · subst hpo
      rw [ho] at hp; cases hp
      obtain ⟨ow0, ho0, hmem0⟩ := hl.hooked self h id ev p hh hm hown
      rw [ho] at ho0; cases ho0
      have hne : ev'.hook ≠ ev.hook := by
        intro heq
        rw [heq] at hmem
        have := (hl.hooks p ow ho).1.eq_of_mem hmem hmem0
        simp only [Hook.removeEvent.injEq] at this
        exact hdiff this.1 this.2
      exact ⟨_, Function.update_same _ _ _, StdMap.mem_erase.mpr ⟨hmem, hne⟩⟩
    · exact ⟨pw, by simp [Function.update_noteq hpo, hp], hmem⟩
  owned := by
    intro p pw k hook hp hmk
    -- the hook was there before, and is not the removed one
    have hbefore : ∃ pw0, w.owners p = some pw0 ∧ (k, hook) ∈ pw0.destroyHooks_ ∧
        (p = o → k ≠ ev.hook) := by
      by_cases hpo : p = o
      · subst hpo
        simp only [Function.update_same, Option.some.injEq] at hp
        subst hp
        exact ⟨ow, ho, (StdMap.mem_erase.mp hmk).1, fun _ => (StdMap.mem_erase.mp hmk).2⟩
      · simp only [Function.update_noteq hpo] at hp
        exact ⟨pw, hp, hmk, fun e => absurd e hpo⟩
    obtain ⟨pw0, hp0, hmk0, hdiff⟩ := hbefore
    obtain ⟨c, id', hc, ev', h1, h2, h3, h4, h5⟩ := hl.owned p pw0 k hook hp0 hmk0
    by_cases hcs : c = self
    · subst hcs
      rw [hh] at h2; cases h2
      have hne : id' ≠ id := by
        rintro rfl
        have := (hl.events c h hh).1.eq_of_mem h3 hm
        subst this
        rw [hown] at h4
        simp only [Option.some.injEq] at h4
        exact hdiff h4.symm h5.symm
      exact ⟨c, id', ⟨h.events_.erase id, h.lastEvent_⟩, ev', h1, Function.update_same _ _ _,
        StdMap.mem_erase.mpr ⟨h3, hne⟩, h4, h5⟩
    · exact ⟨c, id', hc, ev', h1, by simp [Function.update_noteq hcs, h2], h3, h4, h5⟩

/-- A returning `RemoveEvent` keeps subscriptions and hooks matched. -/
theorem Linked.removeEvent {w w' : World} (hl : Linked w) {self : Nat} {id : Int}
    (hrem : RemoveEvent w self id = .ok w') : Linked w' := by
  cases hh : w.handlers self with
  | none => simp [RemoveEvent, hh] at hrem
  | some h =>
    cases hf : h.events_.find id with
    | none => rw [removeEvent_of_find_none hh hf] at hrem; cases hrem
    | some ev =>
      have hm := StdMap.find_some_mem hf
      rw [removeEvent_of_find hh hf] at hrem
      cases hown : ev.owner with
      | none =>
        simp only [hown, Except.ok.injEq] at hrem
        rw [← hrem]
        exact hl.removeEvent_none hh hm hown
      | some o =>
        obtain ⟨ow, ho, _⟩ := hl.hooked self h id ev o hh hm hown
        have hd := (hl.hooks o ow ho).2.1
        simp only [hown, ho, hd, Bool.false_eq_true, if_false, Except.ok.injEq] at hrem
        rw [← hrem]
        exact hl.removeEvent_some hh hm hown ho

/-- Every state reached by a program of `AddEvent` and `RemoveEvent` calls from a state with
matched subscriptions and hooks has them matched. -/
theorem Linked.run (ops : List EventOp) :
    ∀ {w w' : World}, Linked w → runEventOps w ops = .ok w' → Linked w' := by
  induction ops with
  | nil =>
    intro w w' hl hrun
    simp only [runEventOps, Except.ok.injEq] at hrun
    rw [← hrun]; exact hl
  | cons op rest ih =>
    intro w w' hl hrun
    cases op with
    | addEvent self func owner =>
      simp only [runEventOps] at hrun
      cases hadd : AddEvent w self func owner with
      | error e => simp [hadd] at hrun
      | ok r =>
        obtain ⟨w1, id⟩ := r
        simp only [hadd] at hrun
        exact ih (hl.addEvent hadd) hrun
    | removeEvent self id =>
      simp only [runEventOps] at hrun
      cases hrem : RemoveEvent w self id with
      | ok w1 =>
        simp only [hrem] at hrun
        exact ih (hl.removeEvent hrem) hrun
      | error e =>
        cases e with
        | outOfRange w1 =>
          simp only [hrem] at hrun
          have hsame : w1 = w := by
            cases hh : w.handlers self with
            | none => simp [RemoveEvent, hh] at hrem
            | some h =>
              cases hf : h.events_.find id with
              | none =>
                rw [removeEvent_of_find_none hh hf] at hrem
                injection hrem with hrem
                injection hrem with hrem
                exact hrem.symm
              | some ev =>
                exfalso
                rw [removeEvent_of_find hh hf] at hrem
                cases hown : ev.owner with
                | none => simp [hown] at hrem
                | some o =>
                  simp only [hown] at hrem
                  cases hw : w.owners o with
                  | none => simp [hw] at hrem
                  | some ow =>
                    simp only [hw] at hrem
                    cases hd : ow.destroying_ <;> simp [hd] at hrem
          rw [hsame] at hrun
          exact ih hl hrun
        | undefinedBehaviour => simp [hrem] at hrun
        | terminate => simp [hrem] at hrun
        | fuel => simp [hrem] at hrun

theorem StdMap.Sorted.filter_value {β : Type} [DecidableEq β] {m : StdMap β}
    (hs : m.Sorted) {k : Int} {v : β} (hm : (k, v) ∈ m)
    (huniq : ∀ k', (k', v) ∈ m → k' = k) :
    m.filter (fun e => decide (e.2 = v)) = [(k, v)] := by
  induction m with
  | nil => simp at hm
  | cons e t ih =>
    obtain ⟨a, x⟩ := e
    have hs' := List.pairwise_cons.mp hs
    by_cases hx : x = v
    · subst hx
      have hak : a = k := huniq a (List.mem_cons_self _ _)
      subst hak
      have htail : t.filter (fun e => decide (e.2 = x)) = [] := by
        apply List.filter_eq_nil_iff.mpr
        intro e he
        obtain ⟨b, y⟩ := e
        simp only [decide_eq_true_eq]
        rintro rfl
        have h1 : b = a := huniq b (List.mem_cons_of_mem _ he)
        have h2 := hs'.1 (b, y) he
        simp only at h2
        omega
      simp [List.filter_cons, htail]
    · have hmt : (k, v) ∈ t := by
        rcases List.mem_cons.mp hm with h | h
        · simp only [Prod.mk.injEq] at h
          exact absurd h.2.symm hx
        · exact h
      simp only [List.filter_cons, hx, decide_False, Bool.false_eq_true, if_false]
      exact ih hs'.2 hmt (fun k' hk' => huniq k' (List.mem_cons_of_mem _ hk'))

/-- C12: in every state reached from empty handlers and owners by a program of `AddEvent`
and `RemoveEvent` calls (no other call, no owner destroying), every subscription with an
owner has that owner live and not destroying, with the lambda of the subscription stored
under the hook id that the subscription records; this is the only entry of the owner's hook
table holding that lambda; another subscription of the same owner records another hook id;
invoking the lambda returns and erases from the handler that subscription and no other,
leaving the other handlers alone.  Every entry of an owner's hook table is the lambda of a
subscription that is in its handler, so none belongs to a removed subscription. -/
theorem subscriptions_linked_to_hooks {Args : Type} (cl : Closures Args) (w0 : World)
    (ops : List EventOp) (w : World) (hempty : EmptyWorld w0)
    (hrun : runEventOps w0 ops = .ok w) :
    (∀ c h id ev o, w.handlers c = some h → (id, ev) ∈ h.events_ → ev.owner = some o →
      ∃ ow, w.owners o = some ow ∧ ow.destroying_ = false ∧
        ow.destroyHooks_.find ev.hook = some (.removeEvent c id) ∧
        ow.destroyHooks_.filter (fun e => decide (e.2 = Hook.removeEvent c id)) =
          [(ev.hook, .removeEvent c id)] ∧
        (∀ c' h' id' ev', w.handlers c' = some h' → (id', ev') ∈ h'.events_ →
          ev'.owner = some o → ev'.hook = ev.hook → c' = c ∧ id' = id ∧ ev' = ev) ∧
        ∃ w', callHook cl (.removeEvent c id) w = .ok w' ∧
          w'.handlers c = some ⟨h.events_.erase id, h.lastEvent_⟩ ∧
          (∀ e, e ∈ h.events_.erase id ↔ e ∈ h.events_ ∧ e ≠ (id, ev)) ∧
          (∀ c', c' ≠ c → w'.handlers c' = w.handlers c')) ∧
    (∀ o ow k hook, w.owners o = some ow → (k, hook) ∈ ow.destroyHooks_ →
      ∃ c id h ev, hook = Hook.removeEvent c id ∧ w.handlers c = some h ∧
        (id, ev) ∈ h.events_ ∧ ev.owner = some o ∧ ev.hook = k) := by
  have hl : Linked w := Linked.run ops (linked_of_empty hempty) hrun
  refine ⟨?_, hl.owned⟩
  intro c h id ev o hh hm hown
  obtain ⟨ow, ho, hmem⟩ := hl.hooked c h id ev o hh hm hown
  obtain ⟨hso, hd, _⟩ := hl.hooks o ow ho
  obtain ⟨hse, _⟩ := hl.events c h hh
  have hkey : ∀ k', (k', Hook.removeEvent c id) ∈ ow.destroyHooks_ → k' = ev.hook := by
    intro k' hk'
    obtain ⟨c1, id1, h1, ev1, e1, e2, e3, _, e5⟩ := hl.owned o ow k' _ ho hk'
    simp only [Hook.removeEvent.injEq] at e1
    obtain ⟨rfl, rfl⟩ := e1
    rw [hh] at e2; cases e2
    have := hse.eq_of_mem e3 hm
    subst this
    exact e5.symm
  refine ⟨ow, ho, hd, hso.find_of_mem hmem, hso.filter_value hmem hkey, ?_, ?_⟩
  · intro c' h' id' ev' hh' hm' hown' hhook
    obtain ⟨ow', ho', hmem'⟩ := hl.hooked c' h' id' ev' o hh' hm' hown'
    rw [ho] at ho'; cases ho'
    rw [hhook] at hmem'
    have := hso.eq_of_mem hmem' hmem
    simp only [Hook.removeEvent.injEq] at this
    obtain ⟨rfl, rfl⟩ := this
    rw [hh] at hh'; cases hh'
    exact ⟨rfl, rfl, hse.eq_of_mem hm' hm⟩
  · have hr := removeEvent_of_find hh (hse.find_of_mem hm)
    simp only [hown, ho, hd, Bool.false_eq_true, if_false] at hr
    refine ⟨_, hr, Function.update_same _ _ _, ?_, fun c' hc' => Function.update_noteq hc' _ _⟩
    intro e
    rw [StdMap.mem_erase]
    constructor
    · rintro ⟨he, hne⟩
      exact ⟨he, fun heq => hne (by rw [heq])⟩
    · rintro ⟨he, hne⟩
      refine ⟨he, fun hid => hne ?_⟩
      obtain ⟨a, x⟩ := e
      simp only at hid
      subst hid
      rw [hse.eq_of_mem he hm]

theorem emptyWorld_linkWorld : EmptyWorld linkWorld := by
  constructor
  · intro c h hh
    by_cases hc : c = 0
    · simp only [linkWorld, hc, if_true, Option.some.injEq] at hh
      rw [← hh]
    · simp [linkWorld, hc] at hh
  · intro o ow ho
    by_cases hc : o = 0
    · simp only [linkWorld, hc, if_true, Option.some.injEq] at ho
      rw [← ho]
      exact ⟨rfl, rfl⟩
    · simp [linkWorld, hc] at ho

theorem subscriptions_linked_to_hooks_witness :
    ∃ w, runEventOps linkWorld linkOps = .ok w ∧
    (∀ c h id ev o, w.handlers c = some h → (id, ev) ∈ h.events_ → ev.owner = some o →
      ∃ ow, w.owners o = some ow ∧ ow.destroying_ = false ∧
        ow.destroyHooks_.find ev.hook = some (.removeEvent c id) ∧
        ow.destroyHooks_.filter (fun e => decide (e.2 = Hook.removeEvent c id)) =
          [(ev.hook, .removeEvent c id)] ∧
        (∀ c' h' id' ev', w.handlers c' = some h' → (id', ev') ∈ h'.events_ →
          ev'.owner = some o → ev'.hook = ev.hook → c' = c ∧ id' = id ∧ ev' = ev) ∧
        ∃ w', callHook idleClosures (.removeEvent c id) w = .ok w' ∧
          w'.handlers c = some ⟨h.events_.erase id, h.lastEvent_⟩ ∧
          (∀ e, e ∈ h.events_.erase id ↔ e ∈ h.events_ ∧ e ≠ (id, ev)) ∧
          (∀ c', c' ≠ c → w'.handlers c' = w.handlers c')) ∧
    (∀ o ow k hook, w.owners o = some ow → (k, hook) ∈ ow.destroyHooks_ →
      ∃ c id h ev, hook = Hook.removeEvent c id ∧ w.handlers c = some h ∧
        (id, ev) ∈ h.events_ ∧ ev.owner = some o ∧ ev.hook = k) := by
  obtain ⟨w, h, _, _⟩ := runEventOps_example
  exact ⟨w, h, subscriptions_linked_to_hooks idleClosures linkWorld linkOps w
    emptyWorld_linkWorld h⟩

/-! ## `~EventHandler` and owners that are destroying -/

theorem StdMap.foldl_erase_of_find_none {β : Type} (ks : List Int) (m : StdMap β)
    (h : ∀ k ∈ ks, m.find k = none) : ks.foldl StdMap.erase m = m := by
  induction ks generalizing m with
  | nil => rfl
  | cons a t ih =>
    rw [List.foldl_cons, StdMap.erase_of_find_none m a (h a (List.mem_cons_self _ _))]
    exact ih m (fun k hk => h k (List.mem_cons_of_mem _ hk))

/-- C13 (as the code behaves): `~EventHandler` of a live handler with valid owner pointers
returns, and for every remaining subscription with an owner it has erased the recorded hook
id from that owner's hook table, whether the owner's flag `destroying_` is set or not: the
flag and the counter are kept, the table only loses entries, and it is no longer the table
it was whenever the hook id was in it.  The hook table of an owner is left as it was only
if it holds none of the hook ids of the remaining subscriptions tied to it. -/
theorem destroyEventHandler_ignores_destroying (w : World) (self : Nat) (h : EventHandler)
    (hh : w.handlers self = some h)
    (hvalid : ∀ id ev p, (id, ev) ∈ h.events_ → ev.owner = some p → w.owners p ≠ none) :
    ∃ w', DestroyEventHandler w self = .ok w' ∧
      w'.handlers self = none ∧
      (∀ id ev o ow, (id, ev) ∈ h.events_ → ev.owner = some o → w.owners o = some ow →
        ∃ ow', w'.owners o = some ow' ∧
          ow'.destroying_ = ow.destroying_ ∧ ow'.lastEvent_ = ow.lastEvent_ ∧
          ow'.destroyHooks_.find ev.hook = none ∧
          List.Sublist ow'.destroyHooks_ ow.destroyHooks_ ∧
          (ow.destroyHooks_.find ev.hook ≠ none → ow'.destroyHooks_ ≠ ow.destroyHooks_)) ∧
      (∀ o ow, w.owners o = some ow →
        (∀ id ev, (id, ev) ∈ h.events_ → ev.owner = some o →
          ow.destroyHooks_.find ev.hook = none) →
        w'.owners o = some ow) := by
  obtain ⟨w1, h1, h2, h3⟩ := dropHooks_spec h.events_ w hvalid
  refine ⟨⟨w1.owners, Function.update w1.handlers self none⟩,
    by simp [DestroyEventHandler, hh, h1], by simp, ?_, ?_⟩
  · intro id ev o ow hm hown ho
    have hkey : ev.hook ∈ hookKeys h.events_ o := mem_hookKeys.mpr ⟨id, ev, hm, hown, rfl⟩
    have hnone : ((hookKeys h.events_ o).foldl StdMap.erase ow.destroyHooks_).find ev.hook
        = none := by
      rw [StdMap.find_foldl_erase]; simp [hkey]
    refine ⟨⟨(hookKeys h.events_ o).foldl StdMap.erase ow.destroyHooks_, ow.lastEvent_,
      ow.destroying_⟩, by simp [h3 o, ho], rfl, rfl, hnone,
      StdMap.foldl_erase_sublist _ _, ?_⟩
    intro hpresent heq
    simp only at heq
    rw [heq] at hnone
    exact hpresent hnone
  · intro o ow ho habsent
    have : (hookKeys h.events_ o).foldl StdMap.erase ow.destroyHooks_ = ow.destroyHooks_ := by
      apply StdMap.foldl_erase_of_find_none
      intro k hk
      obtain ⟨id, ev, hm, hown, rfl⟩ := mem_hookKeys.mp hk
      exact habsent id ev hm hown
    simp [h3 o, ho, this]

/-- C13 fails as stated: the owner at address 0 has its flag `destroying_` set and the
handler at address 0 still has a subscription tied to it; the destructor of the handler
erases the hook of that subscription from the owner's hook table, which is thereby
changed. -/
theorem destroyEventHandler_ignores_destroying_counterexample :
    (markDestroying tiedWorld 0 tiedOwner).owners 0 =
      some ⟨[(0, .closure 0), (1, .removeEvent 0 1)], 2, true⟩ ∧
    eventsOf 0 (markDestroying tiedWorld 0 tiedOwner) = some [(1, ⟨some 0, 5, 1⟩)] ∧
    ∃ w', DestroyEventHandler (markDestroying tiedWorld 0 tiedOwner) 0 = .ok w' ∧
      w'.owners 0 = some ⟨[(0, .closure 0)], 2, true⟩ ∧
      hooksOf 0 w' ≠ hooksOf 0 (markDestroying tiedWorld 0 tiedOwner) := by
  refine ⟨rfl, rfl, _, rfl, rfl, ?_⟩
  decide

theorem destroyEventHandler_ignores_destroying_witness :
    ∃ w', DestroyEventHandler (markDestroying tiedWorld 0 tiedOwner) 0 = .ok w' ∧
      w'.handlers 0 = none ∧
      ∃ ow', w'.owners 0 = some ow' ∧ ow'.destroying_ = true ∧
        ow'.destroyHooks_.find 1 = none ∧
        ow'.destroyHooks_ ≠ [(0, .closure 0), (1, .removeEvent 0 1)] := by
  obtain ⟨w', h1, h2, h3, _⟩ :=
    destroyEventHandler_ignores_destroying (markDestroying tiedWorld 0 tiedOwner) 0
      { events_ := [(1, ⟨some 0, 5, 1⟩)], lastEvent_ := 1 } rfl
      (by
        intro id ev p hm hp
        simp only [List.mem_singleton, Prod.mk.injEq] at hm
        obtain ⟨_, rfl⟩ := hm
        cases hp
        simp [markDestroying])
  obtain ⟨ow', e1, e2, _, e4, _, e6⟩ := h3 1 ⟨some 0, 5, 1⟩ 0
    ⟨[(0, .closure 0), (1, .removeEvent 0 1)], 2, true⟩ (by simp) rfl rfl
  exact ⟨w', h1, h2, ow', e1, e2, e4, e6 (by simp [StdMap.find])⟩

/-- The situation of C13 arises when a hook of the owner destroys the handler: the loop of
`~EventOwner` then ends without reaching the lambda of the destroyed handler, which the
destructor of the handler has erased; had it stayed in the table, invoking it would use
the destroyed handler. -/
theorem destroyEventOwner_handler_destroyed_example :
    (∃ w', DestroyEventOwner handlerDestroyingClosures 2 tiedWorld 0 =
      .ok (w', [(0, .closure 0)]) ∧ w'.handlers 0 = none) ∧
    ∃ w1, DestroyEventHandler (markDestroying tiedWorld 0 tiedOwner) 0 = .ok w1 ∧
      callHook handlerDestroyingClosures (.removeEvent 0 1) w1 =
        .error .undefinedBehaviour :=
  ⟨⟨_, rfl, rfl⟩, _, rfl, rfl⟩

end WinUtil
